import Mathlib

/-!
# The FFT engine of `src/audio/fft.c`

A shallow embedding of the C file and theorems about it.

Modelling conventions.

* `float` values are elements of a field `K`; the theorems take `K = ℝ`, so
  float arithmetic is read as exact real arithmetic.
* `cos`, `sin`, `sqrtf` and `M_PI` come from `<math.h>`; they are the fields
  of `Libm K`.  The theorems instantiate them with `Real.cos`, `Real.sin`,
  `Real.sqrt` and `Real.pi`.
* Caller buffers live in one flat float memory `Mem K`; a `float*` is an
  address counted in floats, so `p[i]` is the cell `p + i`.  Two buffers may
  overlap or coincide exactly as in C.
* `int` values are natural numbers: every loop variable of the file is
  non-negative, and overflow of `int` is not modelled.
* The singleton `this` is the `engine` field of `Machine`; the tables it owns
  are lists, `none` standing for a pointer without live storage (`NULL`
  initially, released after `free`).
* The lists carry the contents of the tables, not their place in memory.
  Where a theorem concerns the memory in which `fft_init` stored a table,
  `uroots_stored_at` places the floats of `uroots` at an address of the flat
  memory, so that a write of the transform can hit them.
* The `_checked` variants of the loops of `fft_transform` take the same steps
  and return `none` as soon as an index leaves its table or the `2 * size`
  floats of the buffer it addresses.
-/

namespace FFT

/-! ## Data model -/

/-- The flat float memory: address to value. -/
abbrev Mem (K : Type) := Nat → K

/-- The assignment `mem[a] = v`. -/
def store {K : Type} (mem : Mem K) (a : Nat) (v : K) : Mem K :=
  fun b => if b = a then v else mem b

/-- The functions and constants of `<math.h>` used by the file. -/
structure Libm (K : Type) where
  M_PI : K
  cos : K → K
  sin : K → K
  sqrtf : K → K

/-- The struct `_fft_data`. -/
structure fft_data (K : Type) where
  size : Nat
  revidx : Option (List Nat)
  uroots : Option (List K)

/-- The program state: the static `this` and the float memory of the caller. -/
structure Machine (K : Type) where
  engine : fft_data K
  heap : Mem K

/-- The initial value `static fft_data this = { 0 }`. -/
def fft_data.zero (K : Type) : fft_data K :=
  { size := 0, revidx := none, uroots := none }

/-- Reading `revidx[i]`. -/
def fft_data.rev {K : Type} (e : fft_data K) (i : Nat) : Nat :=
  (e.revidx.getD []).getD i 0

/-- Reading `uroots[i]`. -/
def fft_data.root {K : Type} [Zero K] (e : fft_data K) (i : Nat) : K :=
  (e.uroots.getD []).getD i 0

/-- The loop `for (int i = 0; i < n; i++) body(i)` over a state. -/
def forLoop {σ : Type} : Nat → (Nat → σ → σ) → σ → σ
  | 0, _, s => s
  | n + 1, body, s => body n (forLoop n body s)

/-! ## `fft_close` and `fft_init` -/

/-- The function `fft_close`. -/
def fft_close {K : Type} (σ : Machine K) : Machine K :=
  if σ.engine.size = 0 then σ
  else { σ with engine := { size := 0, revidx := none, uroots := none } }

/-- The inner loop of `fft_init`, lines 40-41:
`for (i; (1 << i) < size; i++) r = (r << 1) | (k >> i) & 1;`
started at bit position `i` with accumulator `r`. -/
def fft_init_rev (size k : Nat) (i r : Nat) : Nat :=
  if h : 1 <<< i < size then
    fft_init_rev size k (i + 1) ((r <<< 1) ||| ((k >>> i) &&& 1))
  else r
termination_by size - 1 <<< i
decreasing_by
  have h1 : 1 <<< i = 2 ^ i := by simp [Nat.shiftLeft_eq]
  have h2 : 1 <<< (i + 1) = 2 * 2 ^ i := by simp [Nat.shiftLeft_eq, pow_succ, Nat.mul_comm]
  have h3 : 0 < 2 ^ i := Nat.two_pow_pos i
  rw [h1] at h
  rw [h1, h2]
  omega

/-- The first loop of `fft_init`, lines 32-36, filling `uroots`. -/
def fft_init_uroots {K : Type} [Field K] (L : Libm K) (size : Nat) (uroots : List K) : List K :=
  forLoop size (fun k u =>
    let a : K := 2 * L.M_PI * (k : K) / (size : K)
    (u.set (2 * k) (L.cos a)).set (2 * k + 1) (L.sin a)) uroots

/-- The second loop of `fft_init`, lines 38-43, filling `revidx`. -/
def fft_init_revidx (size : Nat) (revidx : List Nat) : List Nat :=
  forLoop size (fun k rv => rv.set k (fft_init_rev size k 0 0)) revidx

/-- The function `fft_init`.  The two `malloc` calls give lists of `size` and
`2 * size` cells. -/
def fft_init {K : Type} [Field K] (L : Libm K) (size : Nat) (σ : Machine K) : Machine K :=
  let σ := fft_close σ
  let revidx : List Nat := List.replicate size 0
  let uroots : List K := List.replicate (2 * size) 0
  let uroots := fft_init_uroots L size uroots
  let revidx := fft_init_revidx size revidx
  { σ with engine := { size := size, revidx := some revidx, uroots := some uroots } }

/-! ## `fft_transform` -/

/-- The body of the permutation loop, lines 54-56. -/
def fft_permute_step {K : Type} (e : fft_data K) (src res : Nat) (i : Nat) (mem : Mem K) : Mem K :=
  let r := e.rev i
  let mem := store mem (res + (r * 2 + 0)) (mem (src + (i * 2 + 0)))
  store mem (res + (r * 2 + 1)) (mem (src + (i * 2 + 1)))

/-- The body of the innermost loop, lines 66-82: one butterfly. -/
def fft_butterfly {K : Type} [Field K] (res s k : Nat) (cos sin : K) (j : Nat) (mem : Mem K) : Mem K :=
  let v := j * s + k
  let u := v + s / 2
  let v_re := mem (res + v * 2)
  let v_im := mem (res + (v * 2 + 1))
  let u_re := mem (res + u * 2)
  let u_im := mem (res + (u * 2 + 1))
  let t_re := u_re * cos - u_im * sin
  let t_im := u_re * sin + u_im * cos
  let mem := store mem (res + (u * 2 + 0)) (v_re - t_re)
  let mem := store mem (res + (u * 2 + 1)) (v_im - t_im)
  let mem := store mem (res + (v * 2 + 0)) (v_re + t_re)
  store mem (res + (v * 2 + 1)) (v_im + t_im)

/-- The loop over `k`, lines 60-84, started at `k`:
`for (k; k * 2 < s; k++) { kth, cos, sin; for (j = 0; j < n / s; j++) butterfly }`. -/
def fft_twiddle_loop {K : Type} [Field K] (e : fft_data K) (res n s : Nat) (k : Nat) (mem : Mem K) : Mem K :=
  if k * 2 < s then
    let kth := (n / s * k) % n
    let cos := e.root (kth * 2)
    let sin := -e.root (kth * 2 + 1)
    fft_twiddle_loop e res n s (k + 1) (forLoop (n / s) (fft_butterfly res s k cos sin) mem)
  else mem
termination_by s - k * 2

/-- The loop over the stages, lines 59-85, started at `s`:
`for (s; s <= n; s *= 2)`.  The stage size is positive (it starts at 2). -/
def fft_stage_loop {K : Type} [Field K] (e : fft_data K) (res n : Nat) (s : Nat) (hs : 0 < s) (mem : Mem K) : Mem K :=
  if s ≤ n then
    fft_stage_loop e res n (s * 2) (by omega) (fft_twiddle_loop e res n s 0 mem)
  else mem
termination_by n + 1 - s

/-- The memory effect of `fft_transform`. -/
def fft_transform_mem {K : Type} [Field K] (L : Libm K) (e : fft_data K) (src res : Nat) (mem : Mem K) : Mem K :=
  let n := e.size
  let mem := forLoop n (fft_permute_step e src res) mem
  let mem := fft_stage_loop e res n 2 (by decide) mem
  let n_rsqrt : K := 1 / L.sqrtf (n : K)
  forLoop (2 * n) (fun i mem => store mem (res + i) (mem (res + i) * n_rsqrt)) mem

/-- The function `fft_transform`. -/
def fft_transform {K : Type} [Field K] (L : Libm K) (src res : Nat) (σ : Machine K) : Machine K :=
  { σ with heap := fft_transform_mem L σ.engine src res σ.heap }

/-- The function `fft_forward`. -/
def fft_forward {K : Type} [Field K] (L : Libm K) (src res : Nat) (σ : Machine K) : Machine K :=
  fft_transform L src res σ

/-- The function `fft_conjugate`. -/
def fft_conjugate {K : Type} [Field K] (src : Nat) (σ : Machine K) : Machine K :=
  let n := σ.engine.size
  let mem := forLoop n (fun i mem => store mem (src + (2 * i + 1)) (mem (src + (2 * i + 1)) * (-1))) σ.heap
  { σ with heap := mem }

/-- The function `fft_inverse`. -/
def fft_inverse {K : Type} [Field K] (L : Libm K) (src res : Nat) (σ : Machine K) : Machine K :=
  let σ := fft_conjugate src σ
  let σ := fft_forward L src res σ
  let σ := fft_conjugate src σ
  fft_conjugate res σ

/-! ## `fft_transform` with checked accesses -/

/-- The loop `for (int i = 0; i < n; i++) body(i)` over a body that can fail. -/
def forLoopM {σ : Type} : Nat → (Nat → σ → Option σ) → σ → Option σ
  | 0, _, s => some s
  | n + 1, body, s => (forLoopM n body s).bind (body n)

/-- The body of the permutation loop with every access checked: `revidx[i]`
inside the table, `src[i*2+0]`, `src[i*2+1]` inside a buffer of `2 * n`
floats, and `r < n`, so that `res[r*2+0]`, `res[r*2+1]` are inside a buffer
of `2 * n` floats. -/
def fft_permute_step_checked {K : Type} (e : fft_data K) (src res n : Nat) (i : Nat) (mem : Mem K) :
    Option (Mem K) :=
  let r := e.rev i
  if i < (e.revidx.getD []).length ∧ i * 2 + 1 < 2 * n ∧ r < n ∧ r * 2 + 1 < 2 * n then
    some (fft_permute_step e src res i mem)
  else none

/-- One butterfly with its accesses checked: `v < u = v + s / 2 < n`, so that
`res[v*2]`, `res[v*2+1]`, `res[u*2]`, `res[u*2+1]` are inside a buffer of
`2 * n` floats. -/
def fft_butterfly_checked {K : Type} [Field K] (n res s k : Nat) (cos sin : K) (j : Nat) (mem : Mem K) :
    Option (Mem K) :=
  let v := j * s + k
  let u := v + s / 2
  if v < u ∧ u < n ∧ u * 2 + 1 < 2 * n then
    some (fft_butterfly res s k cos sin j mem)
  else none

/-- The loop over `k` with its accesses checked: the reduction `% n` leaves
`n / s * k` as it is, `kth < n / 2`, and `uroots[kth*2]`, `uroots[kth*2+1]`
are inside the table. -/
def fft_twiddle_loop_checked {K : Type} [Field K] (e : fft_data K) (res n s : Nat) (k : Nat) (mem : Mem K) :
    Option (Mem K) :=
  if k * 2 < s then
    let kth := (n / s * k) % n
    if kth = n / s * k ∧ kth < n / 2 ∧ kth * 2 + 1 < (e.uroots.getD []).length then
      let cos := e.root (kth * 2)
      let sin := -e.root (kth * 2 + 1)
      match forLoopM (n / s) (fft_butterfly_checked n res s k cos sin) mem with
      | some mem => fft_twiddle_loop_checked e res n s (k + 1) mem
      | none => none
    else none
  else some mem
termination_by s - k * 2

/-- The loop over the stages with its accesses checked. -/
def fft_stage_loop_checked {K : Type} [Field K] (e : fft_data K) (res n : Nat) (s : Nat) (hs : 0 < s) (mem : Mem K) :
    Option (Mem K) :=
  if s ≤ n then
    match fft_twiddle_loop_checked e res n s 0 mem with
    | some mem => fft_stage_loop_checked e res n (s * 2) (by omega) mem
    | none => none
  else some mem
termination_by n + 1 - s

/-- The function `fft_transform` with every table and buffer access checked
against tables of the lengths allocated by `fft_init` and buffers of
`2 * size` floats; `none` is an access out of bounds. -/
def fft_transform_checked {K : Type} [Field K] (L : Libm K) (src res : Nat) (σ : Machine K) :
    Option (Machine K) :=
  let e := σ.engine
  let n := e.size
  match forLoopM n (fft_permute_step_checked e src res n) σ.heap with
  | none => none
  | some mem =>
    match fft_stage_loop_checked e res n 2 (by decide) mem with
    | none => none
    | some mem =>
      let n_rsqrt : K := 1 / L.sqrtf (n : K)
      match forLoopM (2 * n) (fun i mem =>
          if i < 2 * n then some (store mem (res + i) (mem (res + i) * n_rsqrt)) else none) mem with
      | none => none
      | some mem => some { σ with heap := mem }

/-! ## Specification-side definitions -/

/-- Specification function: the reversal of the low `m` bits of `k`. -/
def bitrev : Nat → Nat → Nat
  | 0, _ => 0
  | m + 1, k => (k % 2) * 2 ^ m + bitrev m (k / 2)

/-- Specification function: the value of block `j`, offset `r`, after `t`
butterfly stages when `d` stages remain: the DFT of size `2 ^ t` of the
subsequence of `x` with stride `2 ^ d` starting at `bitrev d j`. -/
def blockDFT {R : Type} [CommRing R] (x : Nat → R) (ω : R) (d t j r : Nat) : R :=
  ∑ q in Finset.range (2 ^ t), x (bitrev d j + 2 ^ d * q) * ω ^ (2 ^ d * q * r)

/-- The complex sample `p[i]` of an interleaved buffer at address `p`. -/
def cplx (mem : Mem ℝ) (p i : Nat) : ℂ := ⟨mem (p + 2 * i), mem (p + (2 * i + 1))⟩

/-- The tables of the engine are those of size `2 ^ m`: `revidx` is the bit
reversal, and the twiddle factor read at index `k` is `ω ^ k`, with
`ω ^ (2 ^ m / 2) = -1`. -/
def Ready (e : fft_data ℝ) (m : Nat) (ω : ℂ) : Prop :=
  e.size = 2 ^ m ∧ (∀ i, i < 2 ^ m → e.rev i = bitrev m i) ∧
  (∀ k, k < 2 ^ m → (⟨e.root (k * 2), -e.root (k * 2 + 1)⟩ : ℂ) = ω ^ k) ∧
  (∀ m', m' + 1 = m → ω ^ (2 ^ m') = -1)

/-- A sample machine for the instances below: a closed engine and the memory
whose cell `a` holds the number `a`. -/
def rampMachine : Machine ℝ := ⟨fft_data.zero ℝ, fun a => (a : ℝ)⟩

/-- The machine whose memory holds the unit impulse `[1, 0, 0, ...]` at
address 0, with a closed engine. -/
def impulseMachine : Machine ℝ := ⟨fft_data.zero ℝ, fun a => if a = 0 then 1 else 0⟩

/-- A call of the lifecycle interface of the engine: `fft_init(size)` or
`fft_close()`. -/
inductive EngineCall where
  | init (size : Nat)
  | close

/-- The effect of one lifecycle call on the machine. -/
def EngineCall.run {K : Type} [Field K] (L : Libm K) : EngineCall → Machine K → Machine K
  | EngineCall.init size, σ => fft_init L size σ
  | EngineCall.close, σ => fft_close σ

/-- The effect of a sequence of lifecycle calls, first call first. -/
def runCalls {K : Type} [Field K] (L : Libm K) : List EngineCall → Machine K → Machine K
  | [], σ => σ
  | c :: cs, σ => runCalls L cs (c.run L σ)

/-- The machine whose memory holds 1 in cell 4 (the real part of complex
slot 2 of a buffer at address 0) and 0 elsewhere, with a closed engine. -/
def slot2Machine : Machine ℝ := ⟨fft_data.zero ℝ, fun a => if a = 4 then 1 else 0⟩

/-- The storage of the `uroots` table: the `2 * size` floats that `fft_init`
allocated and filled occupy the cells `U .. U + 2 * size` of the float
memory. -/
def uroots_stored_at (e : fft_data ℝ) (U : Nat) (mem : Mem ℝ) : Prop :=
  ∀ i, i < 2 * e.size → mem (U + i) = e.root i

/-- A memory that holds the `uroots` table of size 2, `[1, 0, -1, 0]`, at the
addresses 8 to 11, and zeros elsewhere. -/
def uroots2Machine : Machine ℝ :=
  ⟨fft_data.zero ℝ, fun a => if a = 8 then 1 else if a = 10 then -1 else 0⟩

/-! ## Lemmas -/

theorem bitrev_lt (m k : Nat) : bitrev m k < 2 ^ m := by
  induction m generalizing k with
  | zero => simp [bitrev]
  | succ m ih =>
    have h1 := ih (k / 2)
    have h2 : k % 2 < 2 := Nat.mod_lt _ (by decide)
    have h3 : (k % 2) * 2 ^ m ≤ 1 * 2 ^ m := Nat.mul_le_mul_right _ (by omega)
    simp only [bitrev, pow_succ]
    omega

theorem bitrev_double (m j : Nat) : bitrev (m + 1) (2 * j) = bitrev m j := by
  simp [bitrev]

theorem bitrev_double_succ (m j : Nat) : bitrev (m + 1) (2 * j + 1) = 2 ^ m + bitrev m j := by
  have h1 : (2 * j + 1) % 2 = 1 := by omega
  have h2 : (2 * j + 1) / 2 = j := by omega
  simp [bitrev, h1, h2]

/-- The dual recursion: the top bit of `k` becomes the bottom bit. -/
theorem bitrev_succ_top (m k : Nat) (hk : k < 2 ^ (m + 1)) :
    bitrev (m + 1) k = 2 * bitrev m (k % 2 ^ m) + k / 2 ^ m := by
  induction m generalizing k with
  | zero =>
    simp only [bitrev, pow_zero, Nat.mod_one, Nat.div_one] at *
    omega
  | succ m ih =>
    have hk2 : k / 2 < 2 ^ (m + 1) := by
      have : 2 ^ (m + 1 + 1) = 2 * 2 ^ (m + 1) := by ring
      omega
    have e1 : (k % 2 ^ (m + 1)) % 2 = k % 2 := by
      have : (2 : Nat) ∣ 2 ^ (m + 1) := Dvd.intro_left (2 ^ m) rfl
      exact Nat.mod_mod_of_dvd k this
    have e2 : (k % 2 ^ (m + 1)) / 2 = (k / 2) % 2 ^ m := by
      rw [pow_succ, Nat.mul_comm, Nat.mod_mul_right_div_self]
    have e3 : k / 2 ^ (m + 1) = (k / 2) / 2 ^ m := by
      rw [pow_succ, Nat.mul_comm, Nat.div_div_eq_div_mul]
    rw [bitrev, ih (k / 2) hk2]
    conv_rhs => rw [bitrev, e1, e2, e3]
    ring

theorem bitrev_bitrev (m k : Nat) (hk : k < 2 ^ m) : bitrev m (bitrev m k) = k := by
  induction m generalizing k with
  | zero => simp at hk; simp [bitrev, hk]
  | succ m ih =>
    have hk2 : k / 2 < 2 ^ m := by
      have : 2 ^ (m + 1) = 2 * 2 ^ m := by ring
      omega
    have hb := bitrev_lt m (k / 2)
    have hlt : bitrev (m + 1) k < 2 ^ (m + 1) := bitrev_lt _ _
    rw [bitrev_succ_top m _ hlt]
    have e1 : bitrev (m + 1) k % 2 ^ m = bitrev m (k / 2) := by
      rw [bitrev, Nat.add_comm, Nat.add_mul_mod_self_right, Nat.mod_eq_of_lt hb]
    have e2 : bitrev (m + 1) k / 2 ^ m = k % 2 := by
      rw [bitrev, Nat.add_comm, Nat.add_mul_div_right _ _ (Nat.two_pow_pos m), Nat.div_eq_of_lt hb]
      simp
    rw [e1, e2, ih _ hk2]
    omega

theorem testBit_bitrev (m k j : Nat) (hj : j < m) :
    (bitrev m k).testBit j = k.testBit (m - 1 - j) := by
  induction m generalizing k j with
  | zero => omega
  | succ m ih =>
    rw [bitrev, Nat.mul_comm, Nat.testBit_mul_pow_two_add _ (bitrev_lt m (k / 2))]
    by_cases hjm : j < m
    · rw [if_pos hjm, ih _ _ hjm, Nat.testBit_div_two]
      congr 1
      omega
    · have : j = m := by omega
      subst this
      rw [if_neg hjm]
      simp only [Nat.sub_self, Nat.add_sub_cancel]
      have h2 : k % 2 < 2 := Nat.mod_lt _ (by decide)
      rcases Nat.mod_two_eq_zero_or_one k with h | h <;> simp [h]

/-- The inner loop of `fft_init` started at bit `i` with accumulator `r`, when
`d` more bit positions remain below `size`. -/
theorem fft_init_rev_eq (size k : Nat) (d i r : Nat)
    (hlo : ∀ j, i ≤ j → j < i + d → 2 ^ j < size) (hhi : size ≤ 2 ^ (i + d)) :
    fft_init_rev size k i r = r * 2 ^ d + bitrev d (k / 2 ^ i) := by
  induction d generalizing i r with
  | zero =>
    rw [fft_init_rev]
    have : ¬ (1 <<< i < size) := by
      simp only [Nat.shiftLeft_eq, Nat.one_mul]
      simpa using hhi
    simp [this, bitrev]
  | succ d ih =>
    rw [fft_init_rev]
    have h1 : 1 <<< i < size := by
      simp only [Nat.shiftLeft_eq, Nat.one_mul]
      exact hlo i (le_refl _) (by omega)
    rw [dif_pos h1, ih (i + 1) _ (fun j h1 h2 => hlo j (by omega) (by omega)) (by
      have : i + 1 + d = i + (d + 1) := by omega
      rw [this]; exact hhi)]
    have hb : (k >>> i) &&& 1 < 2 ^ 1 := by
      rw [Nat.and_one_is_mod]; exact Nat.mod_lt _ (by decide)
    have e1 : (r <<< 1) ||| ((k >>> i) &&& 1) = 2 * r + (k / 2 ^ i) % 2 := by
      rw [Nat.shiftLeft_eq, ← Nat.and_one_is_mod, ← Nat.shiftRight_eq_div_pow, Nat.mul_comm r,
        Nat.mul_add_lt_is_or hb]
    have e2 : k / 2 ^ (i + 1) = k / 2 ^ i / 2 := by
      rw [pow_succ, Nat.div_div_eq_div_mul]
    rw [e1, e2, bitrev]
    ring

theorem forLoop_succ {σ : Type} (n : Nat) (body : Nat → σ → σ) (s : σ) :
    forLoop (n + 1) body s = body n (forLoop n body s) := rfl

theorem forLoop_set_length {α : Type} (f : Nat → α) (n : Nat) (l : List α) :
    (forLoop n (fun k l => l.set k (f k)) l).length = l.length := by
  induction n with
  | zero => rfl
  | succ n ih => simp [forLoop, ih]

theorem forLoop_set_get {α : Type} (f : Nat → α) (n : Nat) (l : List α) (k : Nat) :
    (forLoop n (fun k l => l.set k (f k)) l)[k]? =
      if k < n ∧ k < l.length then some (f k) else l[k]? := by
  induction n with
  | zero => simp [forLoop]
  | succ n ih =>
    simp only [forLoop, List.getElem?_set, forLoop_set_length]
    by_cases h : n = k
    · subst h
      by_cases h2 : n < l.length
      · simp [h2]
      · have : l[n]? = none := by simp; omega
        simp [h2, this]
    · rw [if_neg h, ih]
      have : (k < n + 1 ∧ k < l.length) ↔ (k < n ∧ k < l.length) := by omega
      simp only [this]

theorem forLoop_set2_length {α : Type} (f g : Nat → α) (n : Nat) (l : List α) :
    (forLoop n (fun k l => (l.set (2 * k) (f k)).set (2 * k + 1) (g k)) l).length = l.length := by
  induction n with
  | zero => rfl
  | succ n ih => simp [forLoop, ih]

theorem forLoop_set2_get {α : Type} (f g : Nat → α) (n : Nat) (l : List α)
    (hl : 2 * n ≤ l.length) (k : Nat) (hk : k < n) :
    (forLoop n (fun k l => (l.set (2 * k) (f k)).set (2 * k + 1) (g k)) l)[2 * k]? = some (f k) ∧
    (forLoop n (fun k l => (l.set (2 * k) (f k)).set (2 * k + 1) (g k)) l)[2 * k + 1]? = some (g k) := by
  induction n with
  | zero => omega
  | succ n ih =>
    simp only [forLoop, List.getElem?_set, forLoop_set2_length, List.length_set]
    by_cases h : k = n
    · subst h
      have h1 : 2 * k + 1 < l.length := by omega
      have h2 : 2 * k < l.length := by omega
      simp [h1, h2]
    · have hk2 : k < n := by omega
      obtain ⟨i1, i2⟩ := ih (by omega) hk2
      have a1 : ¬ (2 * n + 1 = 2 * k) := by omega
      have a2 : ¬ (2 * n = 2 * k) := by omega
      have a3 : ¬ (2 * n + 1 = 2 * k + 1) := by omega
      have a4 : ¬ (2 * n = 2 * k + 1) := by omega
      simp only [a1, a2, a3, a4, if_false]
      exact ⟨i1, i2⟩

theorem fft_init_size {K : Type} [Field K] (L : Libm K) (N : Nat) (σ : Machine K) :
    (fft_init L N σ).engine.size = N := rfl

theorem fft_init_heap {K : Type} [Field K] (L : Libm K) (N : Nat) (σ : Machine K) :
    (fft_init L N σ).heap = σ.heap := by
  simp only [fft_init, fft_close]
  split <;> rfl

theorem fft_init_rev_entry {K : Type} [Field K] (L : Libm K) (N : Nat) (σ : Machine K)
    (k : Nat) (hk : k < N) :
    (fft_init L N σ).engine.rev k = fft_init_rev N k 0 0 := by
  simp only [fft_init, fft_data.rev, fft_init_revidx, Option.getD_some, List.getD_eq_getElem?_getD,
    forLoop_set_get, List.length_replicate]
  simp [hk]

theorem fft_init_root_entry {K : Type} [Field K] (L : Libm K) (N : Nat) (σ : Machine K)
    (k : Nat) (hk : k < N) :
    (fft_init L N σ).engine.root (2 * k) = L.cos (2 * L.M_PI * (k : K) / (N : K)) ∧
    (fft_init L N σ).engine.root (2 * k + 1) = L.sin (2 * L.M_PI * (k : K) / (N : K)) := by
  have h := forLoop_set2_get (fun k : Nat => L.cos (2 * L.M_PI * (k : K) / (N : K)))
    (fun k : Nat => L.sin (2 * L.M_PI * (k : K) / (N : K))) N (List.replicate (2 * N) (0 : K))
    (by simp) k hk
  simp only [fft_init, fft_data.root, fft_init_uroots, Option.getD_some, List.getD_eq_getElem?_getD]
  rw [h.1, h.2]
  simp

theorem sum_range_even_odd {R : Type} [AddCommMonoid R] (f : Nat → R) (n : Nat) :
    ∑ q in Finset.range (2 * n), f q =
      ∑ q in Finset.range n, f (2 * q) + ∑ q in Finset.range n, f (2 * q + 1) := by
  induction n with
  | zero => simp
  | succ n ih =>
    have : 2 * (n + 1) = 2 * n + 1 + 1 := by ring
    rw [this, Finset.sum_range_succ, Finset.sum_range_succ, ih, Finset.sum_range_succ,
      Finset.sum_range_succ]
    abel

theorem blockDFT_low {R : Type} [CommRing R] (x : Nat → R) (ω : R) (d t j r : Nat) :
    blockDFT x ω d (t + 1) j r =
      blockDFT x ω (d + 1) t (2 * j) r + blockDFT x ω (d + 1) t (2 * j + 1) r * ω ^ (2 ^ d * r) := by
  unfold blockDFT
  rw [pow_succ, Nat.mul_comm (2 ^ t) 2, sum_range_even_odd, Finset.sum_mul]
  congr 1
  · refine Finset.sum_congr rfl fun q _ => ?_
    rw [bitrev_double]
    have e1 : 2 ^ d * (2 * q) = 2 ^ (d + 1) * q := by ring
    rw [e1]
  · refine Finset.sum_congr rfl fun q _ => ?_
    rw [bitrev_double_succ]
    have e1 : bitrev d j + 2 ^ d * (2 * q + 1) = 2 ^ d + bitrev d j + 2 ^ (d + 1) * q := by ring
    have e2 : 2 ^ d * (2 * q + 1) * r = 2 ^ (d + 1) * q * r + 2 ^ d * r := by ring
    rw [e1, e2, pow_add ω]
    ring

theorem blockDFT_high {R : Type} [CommRing R] (x : Nat → R) (ω : R) (d t j r : Nat)
    (hω : ω ^ (2 ^ (d + t)) = -1) :
    blockDFT x ω d (t + 1) j (r + 2 ^ t) =
      blockDFT x ω (d + 1) t (2 * j) r - blockDFT x ω (d + 1) t (2 * j + 1) r * ω ^ (2 ^ d * r) := by
  unfold blockDFT
  rw [pow_succ, Nat.mul_comm (2 ^ t) 2, sum_range_even_odd, Finset.sum_mul, sub_eq_add_neg,
    ← Finset.sum_neg_distrib]
  congr 1
  · refine Finset.sum_congr rfl fun q _ => ?_
    rw [bitrev_double]
    have e1 : 2 ^ d * (2 * q) = 2 ^ (d + 1) * q := by ring
    have e2 : 2 ^ d * (2 * q) * (r + 2 ^ t) = 2 ^ (d + 1) * q * r + 2 ^ (d + t) * (2 * q) := by ring
    rw [e2, e1, pow_add ω, pow_mul ω (2 ^ (d + t)), hω]
    simp
  · refine Finset.sum_congr rfl fun q _ => ?_
    rw [bitrev_double_succ]
    have e1 : bitrev d j + 2 ^ d * (2 * q + 1) = 2 ^ d + bitrev d j + 2 ^ (d + 1) * q := by ring
    have e2 : 2 ^ d * (2 * q + 1) * (r + 2 ^ t) =
        2 ^ (d + 1) * q * r + 2 ^ d * r + 2 ^ (d + t) * (2 * q + 1) := by ring
    rw [e1, e2, pow_add ω, pow_add ω, pow_mul ω (2 ^ (d + t)), hω]
    have : (-1 : R) ^ (2 * q + 1) = -1 := by
      rw [pow_succ, pow_mul]; simp
    rw [this]
    ring

theorem blockDFT_zero {R : Type} [CommRing R] (x : Nat → R) (ω : R) (d j : Nat) :
    blockDFT x ω d 0 j 0 = x (bitrev d j) := by
  simp [blockDFT]

theorem blockDFT_full {R : Type} [CommRing R] (x : Nat → R) (ω : R) (t r : Nat) :
    blockDFT x ω 0 t 0 r = ∑ q in Finset.range (2 ^ t), x q * ω ^ (q * r) := by
  simp [blockDFT, bitrev]

theorem store_apply {K : Type} (mem : Mem K) (a : Nat) (v : K) (b : Nat) :
    store mem a v b = if b = a then v else mem b := rfl

theorem pair_eq_iff (s j r j' r' : Nat) (hr : r < s) (hr' : r' < s) :
    j * s + r = j' * s + r' ↔ j = j' ∧ r = r' := by
  constructor
  · intro h
    have h1 : (j * s + r) / s = j := by
      rw [Nat.add_comm, Nat.add_mul_div_right _ _ (by omega), Nat.div_eq_of_lt hr]; simp
    have h2 : (j' * s + r') / s = j' := by
      rw [Nat.add_comm, Nat.add_mul_div_right _ _ (by omega), Nat.div_eq_of_lt hr']; simp
    have h3 : j = j' := by rw [← h1, ← h2, h]
    subst h3
    exact ⟨rfl, by omega⟩
  · rintro ⟨rfl, rfl⟩; rfl

theorem cplx_butterfly (res s k j p : Nat) (c sn : ℝ) (mem : Mem ℝ) :
    cplx (fft_butterfly res s k c sn j mem) res p =
      if p = j * s + k then cplx mem res (j * s + k) + cplx mem res (j * s + k + s / 2) * ⟨c, sn⟩
      else if p = j * s + k + s / 2 then
        cplx mem res (j * s + k) - cplx mem res (j * s + k + s / 2) * ⟨c, sn⟩
      else cplx mem res p := by
  simp only [fft_butterfly, cplx, store_apply]
  generalize j * s + k = v
  generalize s / 2 = h
  by_cases h1 : p = v
  · subst h1
    rw [if_pos rfl]
    apply Complex.ext
    · simp only [Complex.add_re, Complex.mul_re]
      rw [if_neg (by omega), if_pos (by omega)]
      ring_nf
    · simp only [Complex.add_im, Complex.mul_im]
      rw [if_pos (by omega)]
      ring_nf
  · rw [if_neg h1]
    by_cases h2 : p = v + h
    · subst h2
      rw [if_pos rfl]
      apply Complex.ext
      · simp only [Complex.sub_re, Complex.mul_re]
        rw [if_neg (by omega), if_neg (by omega), if_neg (by omega), if_pos (by omega)]
        ring_nf
      · simp only [Complex.sub_im, Complex.mul_im]
        rw [if_neg (by omega), if_neg (by omega), if_pos (by omega)]
        ring_nf
    · rw [if_neg h2]
      apply Complex.ext
      · simp only []
        rw [if_neg (by omega), if_neg (by omega), if_neg (by omega), if_neg (by omega)]
      · simp only []
        rw [if_neg (by omega), if_neg (by omega), if_neg (by omega), if_neg (by omega)]

theorem frame_butterfly (res s k j : Nat) (c sn : ℝ) (mem : Mem ℝ) (a : Nat)
    (ha : a < res ∨ res + 2 * (j * s + k + s / 2) + 2 ≤ a) :
    fft_butterfly res s k c sn j mem a = mem a := by
  unfold fft_butterfly
  simp only [store_apply]
  rw [if_neg (by omega), if_neg (by omega), if_neg (by omega), if_neg (by omega)]

theorem cplx_inner (res h k : Nat) (hk : k < h) (c sn : ℝ) (mem : Mem ℝ) (J j r : Nat)
    (hr : r < 2 * h) :
    cplx (forLoop J (fft_butterfly res (2 * h) k c sn) mem) res (j * (2 * h) + r) =
      if j < J ∧ r = k then
        cplx mem res (j * (2 * h) + k) + cplx mem res (j * (2 * h) + k + h) * ⟨c, sn⟩
      else if j < J ∧ r = k + h then
        cplx mem res (j * (2 * h) + k) - cplx mem res (j * (2 * h) + k + h) * ⟨c, sn⟩
      else cplx mem res (j * (2 * h) + r) := by
  induction J generalizing j r with
  | zero => simp [forLoop]
  | succ J ih =>
    have hh : 2 * h / 2 = h := by omega
    have ihv := ih J k (by omega)
    have ihu := ih J (k + h) (by omega)
    rw [if_neg (by omega), if_neg (by omega)] at ihv ihu
    rw [← Nat.add_assoc] at ihu
    rw [forLoop_succ, cplx_butterfly, hh, ihv, ihu]
    have e1 : j * (2 * h) + r = J * (2 * h) + k ↔ j = J ∧ r = k :=
      pair_eq_iff (2 * h) j r J k hr (by omega)
    have e2 : j * (2 * h) + r = J * (2 * h) + k + h ↔ j = J ∧ r = k + h := by
      rw [Nat.add_assoc]
      exact pair_eq_iff (2 * h) j r J (k + h) hr (by omega)
    by_cases c1 : j = J ∧ r = k
    · obtain ⟨rfl, rfl⟩ := c1
      rw [if_pos rfl, if_pos ⟨by omega, rfl⟩]
    · rw [if_neg (fun hp => c1 (e1.1 hp))]
      by_cases c2 : j = J ∧ r = k + h
      · obtain ⟨rfl, rfl⟩ := c2
        rw [if_pos (by omega), if_neg (by omega), if_pos ⟨by omega, rfl⟩]
      · rw [if_neg (fun hp => c2 (e2.1 hp)), ih j r hr]
        have a1 : (j < J + 1 ∧ r = k) ↔ (j < J ∧ r = k) := by omega
        have a2 : (j < J + 1 ∧ r = k + h) ↔ (j < J ∧ r = k + h) := by omega
        simp only [a1, a2]

theorem frame_inner (res s k : Nat) (c sn : ℝ) (mem : Mem ℝ) (J bound : Nat) (a : Nat)
    (hb : ∀ j, j < J → j * s + k + s / 2 < bound)
    (ha : a < res ∨ res + 2 * bound ≤ a) :
    forLoop J (fft_butterfly res s k c sn) mem a = mem a := by
  induction J with
  | zero => rfl
  | succ J ih =>
    have := hb J (by omega)
    rw [forLoop_succ, frame_butterfly _ _ _ _ _ _ _ _ (by omega)]
    exact ih (fun j hj => hb j (by omega))

/-- One butterfly stage of half-size `h` over `J` blocks, as a `forLoop` over
the twiddle index. -/
theorem cplx_stage (res h J : Nat) (c sn : Nat → ℝ) (mem : Mem ℝ) (K : Nat) (hK : K ≤ h)
    (j r : Nat) (hr : r < 2 * h) :
    cplx (forLoop K (fun k mem => forLoop J (fft_butterfly res (2 * h) k (c k) (sn k)) mem) mem)
        res (j * (2 * h) + r) =
      if j < J ∧ r < K then
        cplx mem res (j * (2 * h) + r) + cplx mem res (j * (2 * h) + r + h) * ⟨c r, sn r⟩
      else if j < J ∧ h ≤ r ∧ r < h + K then
        cplx mem res (j * (2 * h) + (r - h)) - cplx mem res (j * (2 * h) + r) * ⟨c (r - h), sn (r - h)⟩
      else cplx mem res (j * (2 * h) + r) := by
  induction K generalizing j r with
  | zero =>
    rw [if_neg (by omega), if_neg (by omega)]
    rfl
  | succ K ih =>
    have ihv := ih (by omega) j K (by omega)
    have ihu := ih (by omega) j (K + h) (by omega)
    rw [if_neg (by omega), if_neg (by omega)] at ihv ihu
    rw [← Nat.add_assoc] at ihu
    rw [forLoop_succ, cplx_inner res h K (by omega) _ _ _ J j r hr, ihv, ihu]
    by_cases c1 : j < J ∧ r = K
    · obtain ⟨hj, rfl⟩ := c1
      rw [if_pos ⟨hj, rfl⟩, if_pos ⟨hj, by omega⟩]
    · rw [if_neg c1]
      by_cases c2 : j < J ∧ r = K + h
      · obtain ⟨hj, rfl⟩ := c2
        have e : K + h - h = K := by omega
        rw [if_pos ⟨hj, rfl⟩, if_neg (by omega), if_pos ⟨hj, by omega, by omega⟩, e, ← Nat.add_assoc]
      · rw [if_neg c2, ih (by omega) j r hr]
        have a1 : (j < J ∧ r < K + 1) ↔ (j < J ∧ r < K) := by omega
        have a2 : (j < J ∧ h ≤ r ∧ r < h + (K + 1)) ↔ (j < J ∧ h ≤ r ∧ r < h + K) := by omega
        simp only [a1, a2]

theorem frame_stage (res s J : Nat) (c sn : Nat → ℝ) (mem : Mem ℝ) (K bound : Nat) (a : Nat)
    (hb : ∀ k j, k < K → j < J → j * s + k + s / 2 < bound)
    (ha : a < res ∨ res + 2 * bound ≤ a) :
    forLoop K (fun k mem => forLoop J (fft_butterfly res s k (c k) (sn k)) mem) mem a = mem a := by
  induction K with
  | zero => rfl
  | succ K ih =>
    rw [forLoop_succ, frame_inner res s K _ _ _ J bound a (fun j hj => hb K j (by omega) hj) ha]
    exact ih (fun k j hk hj => hb k j (by omega) hj)

/-- The loop over `k` at an even stage size `2 * H`, resumed at `k` after `k`
iterations, equals the counted loop of `H` iterations. -/
theorem fft_twiddle_loop_eq (e : fft_data ℝ) (res n H : Nat) (d k : Nat) (hd : k + d = H)
    (mem : Mem ℝ) :
    fft_twiddle_loop e res n (2 * H) k
        (forLoop k (fun k mem => forLoop (n / (2 * H))
          (fft_butterfly res (2 * H) k (e.root ((n / (2 * H) * k) % n * 2))
            (-e.root ((n / (2 * H) * k) % n * 2 + 1))) mem) mem) =
      forLoop H (fun k mem => forLoop (n / (2 * H))
          (fft_butterfly res (2 * H) k (e.root ((n / (2 * H) * k) % n * 2))
            (-e.root ((n / (2 * H) * k) % n * 2 + 1))) mem) mem := by
  induction d generalizing k with
  | zero =>
    have : k = H := by omega
    subst this
    rw [fft_twiddle_loop, if_neg (by omega)]
  | succ d ih =>
    rw [fft_twiddle_loop, if_pos (by omega)]
    exact ih (k + 1) (by omega)

/-- The loop over the stages, resumed at `s = 2 ^ (t + 1)` after `t` stages,
equals the counted loop of `m` stages when `2 ^ m ≤ n < 2 ^ (m + 1)`. -/
theorem fft_stage_loop_eq (e : fft_data ℝ) (res n m : Nat) (hlo : 2 ^ m ≤ n) (hhi : n < 2 ^ (m + 1))
    (d t : Nat) (hd : t + d = m) (s : Nat) (hs : 0 < s) (hst : s = 2 ^ (t + 1)) (mem : Mem ℝ) :
    fft_stage_loop e res n s hs
        (forLoop t (fun t mem => fft_twiddle_loop e res n (2 ^ (t + 1)) 0 mem) mem) =
      forLoop m (fun t mem => fft_twiddle_loop e res n (2 ^ (t + 1)) 0 mem) mem := by
  induction d generalizing t s with
  | zero =>
    have : t = m := by omega
    subst this
    subst hst
    rw [fft_stage_loop, if_neg (by omega)]
  | succ d ih =>
    subst hst
    have h1 : 2 ^ (t + 1) ≤ 2 ^ m := Nat.pow_le_pow_right (by decide) (by omega)
    rw [fft_stage_loop, if_pos (by omega)]
    exact ih (t + 1) (by omega) _ _ (by ring)

theorem perm_loop (e : fft_data ℝ) (src res n : Nat)
    (hlt : ∀ i, i < n → e.rev i < n)
    (hinj : ∀ i i', i < n → i' < n → e.rev i = e.rev i' → i = i')
    (hdisj : src + 2 * n ≤ res ∨ res + 2 * n ≤ src) (mem : Mem ℝ) (c : Nat) (hc : c ≤ n) :
    (∀ i, i < c → cplx (forLoop c (fft_permute_step e src res) mem) res (e.rev i) = cplx mem src i) ∧
    (∀ a, (∀ i, i < c → a ≠ res + 2 * e.rev i ∧ a ≠ res + 2 * e.rev i + 1) →
      forLoop c (fft_permute_step e src res) mem a = mem a) := by
  induction c with
  | zero => exact ⟨fun i hi => by omega, fun a _ => rfl⟩
  | succ c ih =>
    obtain ⟨ih1, ih2⟩ := ih (by omega)
    have hrc := hlt c (by omega)
    have hsrc : ∀ a, src ≤ a → a < src + 2 * n →
        forLoop c (fft_permute_step e src res) mem a = mem a := by
      intro a h1 h2
      apply ih2
      intro i hi
      have := hlt i (by omega)
      omega
    constructor
    · intro i hi
      rw [forLoop_succ]
      simp only [fft_permute_step, cplx, store_apply]
      by_cases hic : i = c
      · subst hic
        apply Complex.ext
        · simp only []
          rw [if_neg (by omega), if_pos (by omega), hsrc _ (by omega) (by omega)]
          congr 1
          omega
        · simp only []
          rw [if_pos (by omega), if_neg (by omega), hsrc _ (by omega) (by omega)]
          congr 1
          omega
      · have hne : e.rev i ≠ e.rev c := fun h => hic (hinj i c (by omega) (by omega) h)
        have h1 := ih1 i (by omega)
        simp only [cplx] at h1
        rw [← h1]
        apply Complex.ext
        · simp only []
          rw [if_neg (by omega), if_neg (by omega)]
        · simp only []
          rw [if_neg (by omega), if_neg (by omega)]
    · intro a ha
      rw [forLoop_succ]
      simp only [fft_permute_step, store_apply]
      have hac := ha c (by omega)
      rw [if_neg (by omega), if_neg (by omega)]
      exact ih2 a (fun i hi => ha i (by omega))

theorem scale_loop (res : Nat) (x : ℝ) (mem : Mem ℝ) (c a : Nat) :
    forLoop c (fun i mem => store mem (res + i) (mem (res + i) * x)) mem a =
      if res ≤ a ∧ a < res + c then mem a * x else mem a := by
  induction c with
  | zero => rw [if_neg (by omega)]; rfl
  | succ c ih =>
    rw [forLoop_succ]
    simp only [store_apply]
    by_cases h : a = res + c
    · subst h
      rw [if_pos rfl, ih, if_neg (by omega), if_pos (by omega)]
    · rw [if_neg h, ih]
      have : (res ≤ a ∧ a < res + (c + 1)) ↔ (res ≤ a ∧ a < res + c) := by omega
      simp only [this]

theorem conj_loop (src : Nat) (mem : Mem ℝ) (c a : Nat) :
    forLoop c (fun i mem => store mem (src + (2 * i + 1)) (mem (src + (2 * i + 1)) * (-1))) mem a =
      if src ≤ a ∧ a < src + 2 * c ∧ (a - src) % 2 = 1 then -mem a else mem a := by
  induction c with
  | zero => rw [if_neg (by omega)]; rfl
  | succ c ih =>
    rw [forLoop_succ]
    simp only [store_apply]
    by_cases h : a = src + (2 * c + 1)
    · subst h
      rw [if_pos rfl, ih, if_neg (by omega), if_pos (by omega)]
      ring
    · rw [if_neg h, ih]
      have : (src ≤ a ∧ a < src + 2 * (c + 1) ∧ (a - src) % 2 = 1) ↔
          (src ≤ a ∧ a < src + 2 * c ∧ (a - src) % 2 = 1) := by omega
      simp only [this]

theorem fft_conjugate_heap (src : Nat) (σ : Machine ℝ) (a : Nat) :
    (fft_conjugate src σ).heap a =
      if src ≤ a ∧ a < src + 2 * σ.engine.size ∧ (a - src) % 2 = 1 then -σ.heap a else σ.heap a := by
  simp only [fft_conjugate]
  exact conj_loop src σ.heap σ.engine.size a

theorem cplx_fft_conjugate (src : Nat) (σ : Machine ℝ) (i : Nat) (hi : i < σ.engine.size) :
    cplx (fft_conjugate src σ).heap src i = (starRingEnd ℂ) (cplx σ.heap src i) := by
  apply Complex.ext
  · simp only [cplx, Complex.conj_re, fft_conjugate_heap]
    rw [if_neg (by omega)]
  · simp only [cplx, Complex.conj_im, fft_conjugate_heap]
    rw [if_pos (by omega)]

/-- The stage invariant: after `t` stages, with `d` stages to go, cell
`j * 2 ^ t + r` of `res` holds the size-`2 ^ t` DFT of the subsequence of the
input that block `j` owns. -/
theorem stages_spec (e : fft_data ℝ) (m : Nat) (ω : ℂ) (hr : Ready e m ω) (res : Nat)
    (mem : Mem ℝ) (x : Nat → ℂ) (h0 : ∀ j, j < 2 ^ m → cplx mem res j = x (bitrev m j))
    (t d : Nat) (htd : t + d = m) (j r : Nat) (hj : j < 2 ^ d) (hrt : r < 2 ^ t) :
    cplx (forLoop t (fun t mem => fft_twiddle_loop e res (2 ^ m) (2 ^ (t + 1)) 0 mem) mem) res
        (j * 2 ^ t + r) = blockDFT x ω d t j r := by
  induction t generalizing d j r with
  | zero =>
    have hr0 : r = 0 := by simpa using hrt
    subst hr0
    have : d = m := by omega
    subst this
    rw [blockDFT_zero, ← h0 j hj]
    simp [forLoop]
  | succ t ih =>
    obtain ⟨_, _, hroot, hneg⟩ := hr
    have hp : (2 : Nat) ^ (t + 1) = 2 * 2 ^ t := by ring
    have hm : (2 : Nat) ^ m = 2 ^ d * (2 * 2 ^ t) := by
      rw [← htd]; ring
    have hpos : 0 < 2 * 2 ^ t := by positivity
    have hJ : 2 ^ m / (2 * 2 ^ t) = 2 ^ d := by
      rw [hm]; exact Nat.mul_div_cancel _ hpos
    rw [forLoop_succ]
    generalize hM : forLoop t (fun t mem => fft_twiddle_loop e res (2 ^ m) (2 ^ (t + 1)) 0 mem) mem = M
      at ih ⊢
    have key := fft_twiddle_loop_eq e res (2 ^ m) (2 ^ t) (2 ^ t) 0 (by omega) M
    simp only [forLoop] at key
    rw [hp] at hrt ⊢
    rw [key, hJ]
    rw [cplx_stage res (2 ^ t) (2 ^ d) _ _ M (2 ^ t) (le_refl _) j r hrt]
    have tw : ∀ r', r' < 2 ^ t →
        (⟨e.root (2 ^ d * r' % 2 ^ m * 2), -e.root (2 ^ d * r' % 2 ^ m * 2 + 1)⟩ : ℂ) =
          ω ^ (2 ^ d * r') := by
      intro r' hr'
      have hlt : 2 ^ d * r' < 2 ^ m := by
        rw [hm]
        have h2 : (0 : Nat) < 2 ^ d := Nat.two_pow_pos d
        have : r' < 2 * 2 ^ t := by omega
        exact (Nat.mul_lt_mul_left h2).2 this
      rw [Nat.mod_eq_of_lt hlt]
      exact hroot _ hlt
    have hj2 : 2 * j < 2 ^ (d + 1) := by rw [pow_succ]; omega
    have hj3 : 2 * j + 1 < 2 ^ (d + 1) := by rw [pow_succ]; omega
    by_cases hlow : r < 2 ^ t
    · rw [if_pos ⟨hj, hlow⟩, blockDFT_low, tw r hlow]
      have e1 : j * (2 * 2 ^ t) + r = (2 * j) * 2 ^ t + r := by ring
      have e2 : j * (2 * 2 ^ t) + r + 2 ^ t = (2 * j + 1) * 2 ^ t + r := by ring
      rw [e2, e1, ih (d + 1) (by omega) (2 * j) r hj2 hlow, ih (d + 1) (by omega) (2 * j + 1) r hj3 hlow]
    · have hr' : r - 2 ^ t < 2 ^ t := by omega
      rw [if_neg (by omega), if_pos ⟨hj, by omega, by omega⟩, tw _ hr']
      have e0 : r = (r - 2 ^ t) + 2 ^ t := by omega
      have e1 : j * (2 * 2 ^ t) + (r - 2 ^ t) = (2 * j) * 2 ^ t + (r - 2 ^ t) := by ring
      have e2 : j * (2 * 2 ^ t) + r = (2 * j + 1) * 2 ^ t + (r - 2 ^ t) := by
        have : j * (2 * 2 ^ t) + ((r - 2 ^ t) + 2 ^ t) = (2 * j + 1) * 2 ^ t + (r - 2 ^ t) := by ring
        rw [← e0] at this
        exact this
      rw [e1, e2, ih (d + 1) (by omega) (2 * j) _ hj2 hr',
        ih (d + 1) (by omega) (2 * j + 1) _ hj3 hr']
      conv_rhs => rw [e0]
      rw [blockDFT_high x ω d t j (r - 2 ^ t) (hneg (d + t) (by omega))]

theorem frame_stages (e : fft_data ℝ) (res m : Nat) (mem : Mem ℝ) (t : Nat) (a : Nat)
    (ha : a < res ∨ res + 2 * 2 ^ m ≤ a) :
    forLoop t (fun t mem => fft_twiddle_loop e res (2 ^ m) (2 ^ (t + 1)) 0 mem) mem a = mem a := by
  induction t with
  | zero => rfl
  | succ t ih =>
    rw [forLoop_succ]
    generalize forLoop t (fun t mem => fft_twiddle_loop e res (2 ^ m) (2 ^ (t + 1)) 0 mem) mem = M
      at ih ⊢
    have key := fft_twiddle_loop_eq e res (2 ^ m) (2 ^ t) (2 ^ t) 0 (by omega) M
    simp only [forLoop] at key
    have hp : (2 : Nat) ^ (t + 1) = 2 * 2 ^ t := by ring
    rw [hp, key, frame_stage res (2 * 2 ^ t) _ _ _ M (2 ^ t) (2 ^ m) a _ ha, ih]
    intro k j hk hj
    have h1 : 2 * 2 ^ t / 2 = 2 ^ t := by omega
    have h2 : (j + 1) * (2 * 2 ^ t) ≤ 2 ^ m / (2 * 2 ^ t) * (2 * 2 ^ t) :=
      Nat.mul_le_mul_right _ hj
    have h3 : 2 ^ m / (2 * 2 ^ t) * (2 * 2 ^ t) ≤ 2 ^ m := Nat.div_mul_le_self _ _
    have h4 : (j + 1) * (2 * 2 ^ t) = j * (2 * 2 ^ t) + 2 * 2 ^ t := by ring
    rw [h1]
    omega

theorem fft_transform_mem_stages (L : Libm ℝ) (e : fft_data ℝ) (m : Nat) (hsize : e.size = 2 ^ m)
    (src res : Nat) (mem : Mem ℝ) :
    fft_transform_mem L e src res mem =
      forLoop (2 * 2 ^ m)
        (fun i mem => store mem (res + i) (mem (res + i) * (1 / L.sqrtf ((2 ^ m : Nat) : ℝ))))
        (forLoop m (fun t mem => fft_twiddle_loop e res (2 ^ m) (2 ^ (t + 1)) 0 mem)
          (forLoop (2 ^ m) (fft_permute_step e src res) mem)) := by
  unfold fft_transform_mem
  simp only [hsize]
  have h := fft_stage_loop_eq e res (2 ^ m) m (le_refl _) (Nat.pow_lt_pow_right (by decide) (by omega))
    m 0 (by omega) 2 (by decide) (by simp) (forLoop (2 ^ m) (fft_permute_step e src res) mem)
  simp only [forLoop] at h
  rw [h]

/-- On an engine with the tables of size `2 ^ m`, `fft_transform` writes only
inside `res[0 .. 2n)`. -/
theorem fft_transform_mem_frame (L : Libm ℝ) (e : fft_data ℝ) (m : Nat) (ω : ℂ) (hr : Ready e m ω)
    (src res : Nat) (mem : Mem ℝ) (a : Nat) (ha : a < res ∨ res + 2 * 2 ^ m ≤ a) :
    fft_transform_mem L e src res mem a = mem a := by
  obtain ⟨hsize, hrev, _, _⟩ := hr
  rw [fft_transform_mem_stages L e m hsize, scale_loop, if_neg (by omega), frame_stages e res m _ m a ha]
  have hlt : ∀ i, i < 2 ^ m → e.rev i < 2 ^ m := fun i hi => by
    rw [hrev i hi]; exact bitrev_lt m i
  have hstep : ∀ c, forLoop c (fft_permute_step e src res) mem a = mem a ∨ ¬ c ≤ 2 ^ m := by
    intro c
    induction c with
    | zero => exact Or.inl rfl
    | succ c ih =>
      by_cases hc : c + 1 ≤ 2 ^ m
      · left
        have ih' := ih.resolve_right (by omega)
        have := hlt c (by omega)
        rw [forLoop_succ]
        simp only [fft_permute_step, store_apply]
        rw [if_neg (by omega), if_neg (by omega), ih']
      · exact Or.inr hc
  exact (hstep (2 ^ m)).resolve_right (by omega)

/-- The output of `fft_transform` on an engine with the tables of size
`2 ^ m`: the DFT sum with root `ω`, scaled by `1 / sqrtf(n)`. -/
theorem fft_transform_mem_spec (L : Libm ℝ) (e : fft_data ℝ) (m : Nat) (ω : ℂ) (hr : Ready e m ω)
    (src res : Nat) (hdisj : src + 2 * 2 ^ m ≤ res ∨ res + 2 * 2 ^ m ≤ src) (mem : Mem ℝ)
    (p : Nat) (hp : p < 2 ^ m) :
    cplx (fft_transform_mem L e src res mem) res p =
      (∑ q in Finset.range (2 ^ m), cplx mem src q * ω ^ (q * p)) *
        ((1 / L.sqrtf ((2 ^ m : Nat) : ℝ) : ℝ) : ℂ) := by
  have hr' := hr
  obtain ⟨hsize, hrev, _, _⟩ := hr'
  have hlt : ∀ i, i < 2 ^ m → e.rev i < 2 ^ m := fun i hi => by
    rw [hrev i hi]; exact bitrev_lt m i
  have hinj : ∀ i i', i < 2 ^ m → i' < 2 ^ m → e.rev i = e.rev i' → i = i' := by
    intro i i' hi hi' h
    rw [hrev i hi, hrev i' hi'] at h
    rw [← bitrev_bitrev m i hi, ← bitrev_bitrev m i' hi', h]
  obtain ⟨hperm, _⟩ := perm_loop e src res (2 ^ m) hlt hinj hdisj mem (2 ^ m) (le_refl _)
  have h0 : ∀ j, j < 2 ^ m →
      cplx (forLoop (2 ^ m) (fft_permute_step e src res) mem) res j = cplx mem src (bitrev m j) := by
    intro j hj
    have hb := bitrev_lt m j
    have := hperm (bitrev m j) hb
    rw [hrev _ hb, bitrev_bitrev m j hj] at this
    exact this
  have hst := stages_spec e m ω hr res _ (cplx mem src) h0 m 0 (by omega) 0 p (by simp) hp
  rw [blockDFT_full] at hst
  simp only [Nat.zero_mul, Nat.zero_add] at hst
  rw [fft_transform_mem_stages L e m hsize, ← hst]
  apply Complex.ext
  · simp only [cplx, scale_loop, Complex.mul_re, Complex.ofReal_re, Complex.ofReal_im]
    rw [if_pos (by omega)]
    ring
  · simp only [cplx, scale_loop, Complex.mul_im, Complex.ofReal_re, Complex.ofReal_im]
    rw [if_pos (by omega)]
    ring

theorem twiddle_eq_exp (θ : ℝ) :
    (⟨Real.cos θ, -Real.sin θ⟩ : ℂ) = Complex.exp (-(θ : ℂ) * Complex.I) := by
  apply Complex.ext
  · simp [Complex.exp_re]
  · simp [Complex.exp_im]

/-- The tables built by `fft_init(2 ^ m)` with the exact `cos`, `sin` and `π`
are those of size `2 ^ m`, with `ω = exp(-2πi / 2 ^ m)`. -/
theorem fft_init_ready (σ : Machine ℝ) (m : Nat) :
    Ready (fft_init ⟨Real.pi, Real.cos, Real.sin, Real.sqrt⟩ (2 ^ m) σ).engine m
      (Complex.exp (-(2 * Real.pi / ((2 ^ m : ℕ) : ℝ) : ℝ) * Complex.I)) := by
  refine ⟨rfl, ?_, ?_, ?_⟩
  · intro i hi
    rw [fft_init_rev_entry _ _ _ _ hi,
      fft_init_rev_eq (2 ^ m) i m 0 0 (fun j _ h => Nat.pow_lt_pow_right (by decide) (by omega))
        (by simp)]
    simp
  · intro k hk
    obtain ⟨h1, h2⟩ := fft_init_root_entry ⟨Real.pi, Real.cos, Real.sin, Real.sqrt⟩ (2 ^ m) σ k hk
    rw [Nat.mul_comm k 2, h1, h2, twiddle_eq_exp, ← Complex.exp_nat_mul]
    congr 1
    push_cast
    ring
  · intro m' hm'
    subst hm'
    rw [← Complex.exp_nat_mul]
    have h2 : ((2 : ℂ) ^ m') ≠ 0 := pow_ne_zero _ two_ne_zero
    have : ((2 ^ m' : ℕ) : ℂ) * (-((2 * Real.pi / ((2 ^ (m' + 1) : ℕ) : ℝ) : ℝ) : ℂ) * Complex.I) =
        -(Real.pi * Complex.I) := by
      push_cast
      field_simp
      ring
    rw [this, Complex.exp_neg, Complex.exp_pi_mul_I]
    norm_num

theorem root_orthogonality (ω : ℂ) (N : Nat) (hω : IsPrimitiveRoot ω N) (q n : Nat)
    (hq : q < N) (hn : n < N) :
    ∑ k in Finset.range N, ω ^ (q * k) * (ω⁻¹) ^ (k * n) = if q = n then (N : ℂ) else 0 := by
  have hN : N ≠ 0 := by omega
  have hω0 : ω ≠ 0 := hω.ne_zero hN
  have hterm : ∀ k, ω ^ (q * k) * (ω⁻¹) ^ (k * n) = (ω ^ q * (ω⁻¹) ^ n) ^ k := by
    intro k
    rw [mul_pow, ← pow_mul, ← pow_mul, Nat.mul_comm n k]
  simp only [hterm]
  by_cases h : q = n
  · subst h
    have : ω ^ q * (ω⁻¹) ^ q = 1 := by
      rw [← mul_pow, mul_inv_cancel₀ hω0, one_pow]
    rw [if_pos rfl, this]
    simp
  · rw [if_neg h]
    have hne : ω ^ q * (ω⁻¹) ^ n ≠ 1 := by
      intro h1
      apply h
      apply hω.pow_inj hq hn
      have : ω ^ q * (ω⁻¹) ^ n * ω ^ n = ω ^ n := by rw [h1, one_mul]
      rw [← this, mul_assoc, ← mul_pow, inv_mul_cancel₀ hω0, one_pow, mul_one]
    have hpow : (ω ^ q * (ω⁻¹) ^ n) ^ N = 1 := by
      rw [mul_pow, ← pow_mul, ← pow_mul, Nat.mul_comm q N, Nat.mul_comm n N, pow_mul, pow_mul,
        inv_pow, hω.pow_eq_one]
      simp
    rw [geom_sum_eq hne, hpow]
    simp

theorem dft_inversion (ω : ℂ) (N : Nat) (hω : IsPrimitiveRoot ω N) (c : ℂ) (hc : c * c * N = 1)
    (x : Nat → ℂ) (n : Nat) (hn : n < N) :
    (∑ k in Finset.range N, ((∑ q in Finset.range N, x q * ω ^ (q * k)) * c) * (ω⁻¹) ^ (k * n)) * c
      = x n := by
  have h1 : ∀ k, ((∑ q in Finset.range N, x q * ω ^ (q * k)) * c) * (ω⁻¹) ^ (k * n) =
      ∑ q in Finset.range N, c * (x q * (ω ^ (q * k) * (ω⁻¹) ^ (k * n))) := by
    intro k
    rw [Finset.sum_mul, Finset.sum_mul]
    refine Finset.sum_congr rfl fun q _ => ?_
    ring
  simp only [h1]
  rw [Finset.sum_comm]
  have h2 : ∀ q, q ∈ Finset.range N →
      ∑ k in Finset.range N, c * (x q * (ω ^ (q * k) * (ω⁻¹) ^ (k * n))) =
        if q = n then c * x n * (N : ℂ) else 0 := by
    intro q hq
    rw [← Finset.mul_sum, ← Finset.mul_sum, root_orthogonality ω N hω q n (Finset.mem_range.1 hq) hn]
    by_cases h : q = n
    · subst h; simp only [if_true]; ring
    · simp [h]
  rw [Finset.sum_congr rfl h2, Finset.sum_ite_eq' (Finset.range N) n, if_pos (Finset.mem_range.2 hn)]
  calc c * x n * (N : ℂ) * c = (c * c * N) * x n := by ring
    _ = x n := by rw [hc, one_mul]

theorem omega_eq_inv (N : Nat) :
    Complex.exp (-(2 * Real.pi / (N : ℝ) : ℝ) * Complex.I) =
      (Complex.exp (2 * Real.pi * Complex.I / N))⁻¹ := by
  rw [← Complex.exp_neg]
  congr 1
  push_cast
  ring

theorem omega_primitive (N : Nat) (hN : N ≠ 0) :
    IsPrimitiveRoot (Complex.exp (-(2 * Real.pi / (N : ℝ) : ℝ) * Complex.I)) N := by
  rw [omega_eq_inv, IsPrimitiveRoot.inv_iff]
  exact Complex.isPrimitiveRoot_exp N hN

theorem omega_conj (N : Nat) :
    (starRingEnd ℂ) (Complex.exp (-(2 * Real.pi / (N : ℝ) : ℝ) * Complex.I)) =
      (Complex.exp (-(2 * Real.pi / (N : ℝ) : ℝ) * Complex.I))⁻¹ := by
  rw [← Complex.exp_conj, ← Complex.exp_neg]
  congr 1
  rw [map_mul, map_neg, Complex.conj_ofReal, Complex.conj_I]
  ring

theorem omega_pow (N : Nat) (n k : Nat) :
    Complex.exp (-(2 * Real.pi / (N : ℝ) : ℝ) * Complex.I) ^ (n * k) =
      Complex.exp (-2 * Real.pi * Complex.I * n * k / N) := by
  rw [← Complex.exp_nat_mul]
  congr 1
  push_cast
  ring

theorem omega_inv_pow (N : Nat) (n k : Nat) :
    (Complex.exp (-(2 * Real.pi / (N : ℝ) : ℝ) * Complex.I))⁻¹ ^ (k * n) =
      Complex.exp (2 * Real.pi * Complex.I * n * k / N) := by
  rw [← Complex.exp_neg, ← Complex.exp_nat_mul]
  congr 1
  push_cast
  ring

theorem rsqrt_sq (N : Nat) (hN : 0 < N) :
    (((1 / Real.sqrt (N : ℝ) : ℝ) : ℂ)) * ((1 / Real.sqrt (N : ℝ) : ℝ) : ℂ) * (N : ℂ) = 1 := by
  have h0 : (0 : ℝ) < N := by exact_mod_cast hN
  have h1 : Real.sqrt (N : ℝ) * Real.sqrt (N : ℝ) = N := Real.mul_self_sqrt h0.le
  have h2 : Real.sqrt (N : ℝ) ≠ 0 := (Real.sqrt_pos.2 h0).ne'
  have : (1 / Real.sqrt (N : ℝ)) * (1 / Real.sqrt (N : ℝ)) * (N : ℝ) = 1 := by
    field_simp
  exact_mod_cast this

theorem fft_forward_cplx (L : Libm ℝ) (m : Nat) (ω : ℂ) (σ : Machine ℝ) (hr : Ready σ.engine m ω)
    (src res : Nat) (hdisj : src + 2 * 2 ^ m ≤ res ∨ res + 2 * 2 ^ m ≤ src)
    (p : Nat) (hp : p < 2 ^ m) :
    cplx (fft_forward L src res σ).heap res p =
      (∑ q in Finset.range (2 ^ m), cplx σ.heap src q * ω ^ (q * p)) *
        ((1 / L.sqrtf ((2 ^ m : Nat) : ℝ) : ℝ) : ℂ) :=
  fft_transform_mem_spec L σ.engine m ω hr src res hdisj σ.heap p hp

theorem fft_forward_frame (L : Libm ℝ) (m : Nat) (ω : ℂ) (σ : Machine ℝ) (hr : Ready σ.engine m ω)
    (src res : Nat) (a : Nat) (ha : a < res ∨ res + 2 * 2 ^ m ≤ a) :
    (fft_forward L src res σ).heap a = σ.heap a :=
  fft_transform_mem_frame L σ.engine m ω hr src res σ.heap a ha

theorem fft_forward_engine (L : Libm ℝ) (src res : Nat) (σ : Machine ℝ) :
    (fft_forward L src res σ).engine = σ.engine := rfl

theorem fft_conjugate_engine (src : Nat) (σ : Machine ℝ) :
    (fft_conjugate src σ).engine = σ.engine := rfl

theorem cplx_congr (mem mem' : Mem ℝ) (p i : Nat) (h0 : mem' (p + 2 * i) = mem (p + 2 * i))
    (h1 : mem' (p + (2 * i + 1)) = mem (p + (2 * i + 1))) : cplx mem' p i = cplx mem p i := by
  simp only [cplx, h0, h1]

theorem fft_inverse_cplx (L : Libm ℝ) (m : Nat) (ω : ℂ) (σ : Machine ℝ) (hr : Ready σ.engine m ω)
    (src res : Nat) (hdisj : src + 2 * 2 ^ m ≤ res ∨ res + 2 * 2 ^ m ≤ src)
    (n : Nat) (hn : n < 2 ^ m) :
    cplx (fft_inverse L src res σ).heap res n =
      (∑ k in Finset.range (2 ^ m), cplx σ.heap src k * ((starRingEnd ℂ) ω) ^ (k * n)) *
        ((1 / L.sqrtf ((2 ^ m : Nat) : ℝ) : ℝ) : ℂ) := by
  have hsize : σ.engine.size = 2 ^ m := hr.1
  unfold fft_inverse
  rw [cplx_fft_conjugate res _ n (by
    simp only [fft_conjugate_engine, fft_forward_engine]; omega)]
  have h3 : cplx (fft_conjugate src (fft_forward L src res (fft_conjugate src σ))).heap res n =
      cplx (fft_forward L src res (fft_conjugate src σ)).heap res n := by
    apply cplx_congr
    · rw [fft_conjugate_heap, if_neg]
      simp only [fft_forward_engine, fft_conjugate_engine, hsize]
      omega
    · rw [fft_conjugate_heap, if_neg]
      simp only [fft_forward_engine, fft_conjugate_engine, hsize]
      omega
  rw [h3, fft_forward_cplx L m ω (fft_conjugate src σ) hr src res hdisj n hn, map_mul, map_sum,
    Complex.conj_ofReal]
  congr 1
  refine Finset.sum_congr rfl fun k hk => ?_
  rw [map_mul, map_pow, cplx_fft_conjugate src σ k (by
    rw [hsize]; exact Finset.mem_range.1 hk), Complex.conj_conj]

theorem fft_inverse_frame (L : Libm ℝ) (m : Nat) (ω : ℂ) (σ : Machine ℝ) (hr : Ready σ.engine m ω)
    (src res : Nat) (a : Nat) (ha : a < res ∨ res + 2 * 2 ^ m ≤ a) :
    (fft_inverse L src res σ).heap a = σ.heap a := by
  have hsize : σ.engine.size = 2 ^ m := hr.1
  unfold fft_inverse
  have hfw : (fft_forward L src res (fft_conjugate src σ)).heap a = (fft_conjugate src σ).heap a :=
    fft_forward_frame L m ω (fft_conjugate src σ) hr src res a ha
  rw [fft_conjugate_heap res, if_neg (by
    simp only [fft_conjugate_engine, fft_forward_engine, hsize]; omega),
    fft_conjugate_heap src, hfw, fft_conjugate_heap src σ]
  simp only [fft_conjugate_engine, fft_forward_engine]
  split_ifs <;> simp

theorem fft_twiddle_loop_frame (e : fft_data ℝ) (res n s : Nat) (a : Nat)
    (ha : a < res ∨ res + 2 * n ≤ a) (d k : Nat) (mem : Mem ℝ) (hd : s - k * 2 ≤ d) :
    fft_twiddle_loop e res n s k mem a = mem a := by
  induction d generalizing k mem with
  | zero =>
    rw [fft_twiddle_loop, if_neg (by omega)]
  | succ d ih =>
    rw [fft_twiddle_loop]
    by_cases hk : k * 2 < s
    · rw [if_pos hk, ih (k + 1) _ (by omega)]
      apply frame_inner res s k _ _ mem (n / s) n a _ ha
      intro j hj
      have h2 : (j + 1) * s ≤ n / s * s := Nat.mul_le_mul_right _ hj
      have h3 : n / s * s ≤ n := Nat.div_mul_le_self _ _
      have h4 : (j + 1) * s = j * s + s := by ring
      omega
    · rw [if_neg hk]

theorem fft_stage_loop_frame (e : fft_data ℝ) (res n : Nat) (a : Nat)
    (ha : a < res ∨ res + 2 * n ≤ a) (d s : Nat) (hs : 0 < s) (mem : Mem ℝ) (hd : n + 1 - s ≤ d) :
    fft_stage_loop e res n s hs mem a = mem a := by
  induction d generalizing s mem with
  | zero =>
    rw [fft_stage_loop, if_neg (by omega)]
  | succ d ih =>
    rw [fft_stage_loop]
    by_cases hk : s ≤ n
    · rw [if_pos hk, ih (s * 2) (by omega) _ (by omega)]
      exact fft_twiddle_loop_frame e res n s a ha s 0 mem (by omega)
    · rw [if_neg hk]

/-- After the permutation loop, `fft_transform` writes only inside
`res[0 .. 2n)`, whatever the engine size. -/
theorem fft_transform_mem_tail (L : Libm ℝ) (e : fft_data ℝ) (src res : Nat) (mem : Mem ℝ)
    (a : Nat) (ha : a < res ∨ res + 2 * e.size ≤ a) :
    fft_transform_mem L e src res mem a = forLoop e.size (fft_permute_step e src res) mem a := by
  unfold fft_transform_mem
  rw [scale_loop, if_neg (by omega)]
  exact fft_stage_loop_frame e res e.size a ha (e.size + 1) 2 (by decide) _ (by omega)

theorem dft_parseval (ω : ℂ) (N : Nat) (hω : IsPrimitiveRoot ω N)
    (hconj : (starRingEnd ℂ) ω = ω⁻¹) (c : ℂ) (hc : c * c * N = 1)
    (hreal : (starRingEnd ℂ) c = c) (x : Nat → ℂ) :
    ∑ k in Finset.range N, ((∑ q in Finset.range N, x q * ω ^ (q * k)) * c) *
        (starRingEnd ℂ) ((∑ q in Finset.range N, x q * ω ^ (q * k)) * c) =
      ∑ n in Finset.range N, x n * (starRingEnd ℂ) (x n) := by
  have h1 : ∀ k, ((∑ q in Finset.range N, x q * ω ^ (q * k)) * c) *
        (starRingEnd ℂ) ((∑ q in Finset.range N, x q * ω ^ (q * k)) * c) =
      ∑ n in Finset.range N, (starRingEnd ℂ) (x n) *
        ((((∑ q in Finset.range N, x q * ω ^ (q * k)) * c) * (ω⁻¹) ^ (k * n)) * c) := by
    intro k
    have hA : (starRingEnd ℂ) ((∑ q in Finset.range N, x q * ω ^ (q * k)) * c) =
        (∑ n in Finset.range N, (starRingEnd ℂ) (x n) * (ω⁻¹) ^ (k * n)) * c := by
      rw [map_mul, map_sum, hreal]
      congr 1
      refine Finset.sum_congr rfl fun n _ => ?_
      rw [map_mul, map_pow, hconj, Nat.mul_comm n k]
    rw [hA]
    generalize (∑ q in Finset.range N, x q * ω ^ (q * k)) * c = A
    rw [Finset.sum_mul, Finset.mul_sum]
    refine Finset.sum_congr rfl fun n _ => ?_
    ring
  simp only [h1]
  rw [Finset.sum_comm]
  refine Finset.sum_congr rfl fun n hn => ?_
  rw [← Finset.mul_sum, ← Finset.sum_mul, dft_inversion ω N hω c hc x n (Finset.mem_range.1 hn)]
  ring

/-! ## The claims -/

/-- C1. For a power of two `N`, with the engine initialized to `N` and floats
read as exact reals, `fft_transform(src, dst)` on disjoint buffers leaves
`dst[k] = (1/sqrt N) * Σ_{n<N} x[n] * exp(-2πi·n·k/N)` for every `k < N`,
where `x` is the signal held in `src` before the call. -/
theorem fft_transform_is_unitary_dft (N : Nat) (hN : ∃ m, N = 2 ^ m) (src res : Nat)
    (hdisj : src + 2 * N ≤ res ∨ res + 2 * N ≤ src) (σ : Machine ℝ) (k : Nat) (hk : k < N) :
    cplx (fft_transform ⟨Real.pi, Real.cos, Real.sin, Real.sqrt⟩ src res
        (fft_init ⟨Real.pi, Real.cos, Real.sin, Real.sqrt⟩ N σ)).heap res k =
      ((1 / Real.sqrt (N : ℝ) : ℝ) : ℂ) *
        ∑ n in Finset.range N, cplx σ.heap src n *
          Complex.exp (-2 * Real.pi * Complex.I * n * k / N) := by
  obtain ⟨m, rfl⟩ := hN
  have hr := fft_init_ready σ m
  have h := fft_forward_cplx ⟨Real.pi, Real.cos, Real.sin, Real.sqrt⟩ m _ _ hr src res hdisj k hk
  rw [fft_init_heap] at h
  simp only [omega_pow] at h
  rw [mul_comm]
  exact h

theorem fft_transform_is_unitary_dft_witness :
    (∃ m, 2 = 2 ^ m) ∧ ((0 + 2 * 2 ≤ 4) ∨ (4 + 2 * 2 ≤ 0)) ∧ 1 < 2 ∧
    cplx (fft_transform ⟨Real.pi, Real.cos, Real.sin, Real.sqrt⟩ 0 4
        (fft_init ⟨Real.pi, Real.cos, Real.sin, Real.sqrt⟩ 2 rampMachine)).heap 4 1 =
      ((1 / Real.sqrt ((2 : ℕ) : ℝ) : ℝ) : ℂ) *
        ∑ n in Finset.range 2, cplx rampMachine.heap 0 n *
          Complex.exp (-2 * Real.pi * Complex.I * n * (1 : ℕ) / (2 : ℕ)) :=
  ⟨⟨1, rfl⟩, Or.inl (by decide), by decide,
    fft_transform_is_unitary_dft 2 ⟨1, rfl⟩ 0 4 (Or.inl (by decide)) rampMachine 1 (by decide)⟩

/-- C2. Round trip: for a power of two `N`, with the engine initialized to `N`
and exact arithmetic, `fft_forward(x, y)` followed by `fft_inverse(y, z)`, with
`y` disjoint from `x` and from `z`, leaves `z` equal to the original `x`,
scalar for scalar. -/
theorem fft_inverse_forward_roundtrip (N : Nat) (hN : ∃ m, N = 2 ^ m) (x y z : Nat)
    (hxy : x + 2 * N ≤ y ∨ y + 2 * N ≤ x) (hyz : y + 2 * N ≤ z ∨ z + 2 * N ≤ y)
    (σ : Machine ℝ) (n : Nat) (hn : n < N) :
    (fft_inverse ⟨Real.pi, Real.cos, Real.sin, Real.sqrt⟩ y z
      (fft_forward ⟨Real.pi, Real.cos, Real.sin, Real.sqrt⟩ x y
        (fft_init ⟨Real.pi, Real.cos, Real.sin, Real.sqrt⟩ N σ))).heap (z + 2 * n) =
        σ.heap (x + 2 * n) ∧
    (fft_inverse ⟨Real.pi, Real.cos, Real.sin, Real.sqrt⟩ y z
      (fft_forward ⟨Real.pi, Real.cos, Real.sin, Real.sqrt⟩ x y
        (fft_init ⟨Real.pi, Real.cos, Real.sin, Real.sqrt⟩ N σ))).heap (z + (2 * n + 1)) =
        σ.heap (x + (2 * n + 1)) := by
  obtain ⟨m, rfl⟩ := hN
  have hr := fft_init_ready σ m
  have key : cplx (fft_inverse ⟨Real.pi, Real.cos, Real.sin, Real.sqrt⟩ y z
      (fft_forward ⟨Real.pi, Real.cos, Real.sin, Real.sqrt⟩ x y
        (fft_init ⟨Real.pi, Real.cos, Real.sin, Real.sqrt⟩ (2 ^ m) σ))).heap z n =
      cplx σ.heap x n := by
    rw [fft_inverse_cplx _ m _ (fft_forward ⟨Real.pi, Real.cos, Real.sin, Real.sqrt⟩ x y
      (fft_init ⟨Real.pi, Real.cos, Real.sin, Real.sqrt⟩ (2 ^ m) σ)) hr y z hyz n hn, omega_conj]
    have hfw : ∀ k, k ∈ Finset.range (2 ^ m) →
        cplx (fft_forward ⟨Real.pi, Real.cos, Real.sin, Real.sqrt⟩ x y
          (fft_init ⟨Real.pi, Real.cos, Real.sin, Real.sqrt⟩ (2 ^ m) σ)).heap y k *
          (Complex.exp (-(2 * Real.pi / ((2 ^ m : ℕ) : ℝ) : ℝ) * Complex.I))⁻¹ ^ (k * n) =
        ((∑ q in Finset.range (2 ^ m), cplx σ.heap x q *
          Complex.exp (-(2 * Real.pi / ((2 ^ m : ℕ) : ℝ) : ℝ) * Complex.I) ^ (q * k)) *
          ((1 / Real.sqrt ((2 ^ m : ℕ) : ℝ) : ℝ) : ℂ)) *
          (Complex.exp (-(2 * Real.pi / ((2 ^ m : ℕ) : ℝ) : ℝ) * Complex.I))⁻¹ ^ (k * n) := by
      intro k hk
      rw [fft_forward_cplx _ m _ _ hr x y hxy k (Finset.mem_range.1 hk), fft_init_heap]
    rw [Finset.sum_congr rfl hfw]
    exact dft_inversion _ (2 ^ m) (omega_primitive (2 ^ m) (by positivity)) _
      (rsqrt_sq (2 ^ m) (by positivity)) (cplx σ.heap x) n hn
  exact ⟨congrArg Complex.re key, congrArg Complex.im key⟩

theorem fft_inverse_forward_roundtrip_witness :
    (∃ m, 2 = 2 ^ m) ∧ ((0 + 2 * 2 ≤ 4) ∨ (4 + 2 * 2 ≤ 0)) ∧ ((4 + 2 * 2 ≤ 8) ∨ (8 + 2 * 2 ≤ 4)) ∧
    1 < 2 ∧
    ((fft_inverse ⟨Real.pi, Real.cos, Real.sin, Real.sqrt⟩ 4 8
      (fft_forward ⟨Real.pi, Real.cos, Real.sin, Real.sqrt⟩ 0 4
        (fft_init ⟨Real.pi, Real.cos, Real.sin, Real.sqrt⟩ 2 rampMachine))).heap (8 + 2 * 1) =
        rampMachine.heap (0 + 2 * 1) ∧
    (fft_inverse ⟨Real.pi, Real.cos, Real.sin, Real.sqrt⟩ 4 8
      (fft_forward ⟨Real.pi, Real.cos, Real.sin, Real.sqrt⟩ 0 4
        (fft_init ⟨Real.pi, Real.cos, Real.sin, Real.sqrt⟩ 2 rampMachine))).heap (8 + (2 * 1 + 1)) =
        rampMachine.heap (0 + (2 * 1 + 1))) :=
  ⟨⟨1, rfl⟩, Or.inl (by decide), Or.inl (by decide), by decide,
    fft_inverse_forward_roundtrip 2 ⟨1, rfl⟩ 0 4 8 (Or.inl (by decide)) (Or.inl (by decide))
      rampMachine 1 (by decide)⟩

/-- C3. For a power of two `N`, with the engine initialized to `N` and exact
arithmetic, `fft_inverse(src, dst)` on disjoint buffers leaves
`dst[n] = (1/sqrt N) * Σ_{k<N} X[k] * exp(+2πi·n·k/N)` for every `n < N`,
where `X` is the signal held in `src` before the call. -/
theorem fft_inverse_is_unitary_idft (N : Nat) (hN : ∃ m, N = 2 ^ m) (src res : Nat)
    (hdisj : src + 2 * N ≤ res ∨ res + 2 * N ≤ src) (σ : Machine ℝ) (n : Nat) (hn : n < N) :
    cplx (fft_inverse ⟨Real.pi, Real.cos, Real.sin, Real.sqrt⟩ src res
        (fft_init ⟨Real.pi, Real.cos, Real.sin, Real.sqrt⟩ N σ)).heap res n =
      ((1 / Real.sqrt (N : ℝ) : ℝ) : ℂ) *
        ∑ k in Finset.range N, cplx σ.heap src k *
          Complex.exp (2 * Real.pi * Complex.I * n * k / N) := by
  obtain ⟨m, rfl⟩ := hN
  have hr := fft_init_ready σ m
  have h := fft_inverse_cplx ⟨Real.pi, Real.cos, Real.sin, Real.sqrt⟩ m _ _ hr src res hdisj n hn
  rw [fft_init_heap, omega_conj] at h
  simp only [omega_inv_pow] at h
  rw [mul_comm]
  exact h

theorem fft_inverse_is_unitary_idft_witness :
    (∃ m, 2 = 2 ^ m) ∧ ((0 + 2 * 2 ≤ 4) ∨ (4 + 2 * 2 ≤ 0)) ∧ 1 < 2 ∧
    cplx (fft_inverse ⟨Real.pi, Real.cos, Real.sin, Real.sqrt⟩ 0 4
        (fft_init ⟨Real.pi, Real.cos, Real.sin, Real.sqrt⟩ 2 rampMachine)).heap 4 1 =
      ((1 / Real.sqrt ((2 : ℕ) : ℝ) : ℝ) : ℂ) *
        ∑ k in Finset.range 2, cplx rampMachine.heap 0 k *
          Complex.exp (2 * Real.pi * Complex.I * (1 : ℕ) * k / (2 : ℕ)) :=
  ⟨⟨1, rfl⟩, Or.inl (by decide), by decide,
    fft_inverse_is_unitary_idft 2 ⟨1, rfl⟩ 0 4 (Or.inl (by decide)) rampMachine 1 (by decide)⟩

/-- C4, as stated, fails: with the engine initialized to the size 5 (not a
power of two) `revidx[3] = 6`, so the permutation loop of `fft_transform`
writes `res[12]`; with `src = res + 10` that cell is `src[2]`, and after
`fft_inverse` it holds the old `src[6]`. -/
theorem fft_inverse_not_restores_src_size5 :
    ¬ (∀ (N src res : Nat) (σ : Machine ℝ), (src + 2 * N ≤ res ∨ res + 2 * N ≤ src) →
        ∀ i, i < 2 * N →
          (fft_inverse ⟨Real.pi, Real.cos, Real.sin, Real.sqrt⟩ src res
            (fft_init ⟨Real.pi, Real.cos, Real.sin, Real.sqrt⟩ N σ)).heap (src + i) =
            σ.heap (src + i)) := by
  intro h
  have h1 := h 5 10 0 rampMachine (Or.inr (by decide)) 2 (by decide)
  have hrev : ∀ i, i < 5 →
      (fft_init ⟨Real.pi, Real.cos, Real.sin, Real.sqrt⟩ 5 rampMachine).engine.rev i =
        bitrev 3 i := by
    intro i hi
    rw [fft_init_rev_entry _ _ _ _ hi, fft_init_rev_eq 5 i 3 0 0 (by
      intro j _ hj
      have : j = 0 ∨ j = 1 ∨ j = 2 := by omega
      rcases this with rfl | rfl | rfl <;> decide) (by decide)]
    simp
  have r0 := hrev 0 (by decide)
  have r1 := hrev 1 (by decide)
  have r2 := hrev 2 (by decide)
  have r3 := hrev 3 (by decide)
  have r4 := hrev 4 (by decide)
  have b0 : bitrev 3 0 = 0 := by decide
  have b1 : bitrev 3 1 = 4 := by decide
  have b2 : bitrev 3 2 = 2 := by decide
  have b3 : bitrev 3 3 = 6 := by decide
  have b4 : bitrev 3 4 = 1 := by decide
  rw [b0] at r0
  rw [b1] at r1
  rw [b2] at r2
  rw [b3] at r3
  rw [b4] at r4
  have e : (fft_inverse ⟨Real.pi, Real.cos, Real.sin, Real.sqrt⟩ 10 0
      (fft_init ⟨Real.pi, Real.cos, Real.sin, Real.sqrt⟩ 5 rampMachine)).heap (10 + 2) = 16 := by
    unfold fft_inverse
    rw [fft_conjugate_heap 0, if_neg (by
        simp only [fft_conjugate_engine, fft_forward_engine, fft_init_size]; omega),
      fft_conjugate_heap 10, if_neg (by
        simp only [fft_conjugate_engine, fft_forward_engine, fft_init_size]; omega)]
    show fft_transform_mem _ _ 10 0 _ (10 + 2) = 16
    rw [fft_transform_mem_tail _ _ _ _ _ _ (Or.inr (by
      simp only [fft_conjugate_engine, fft_init_size]; omega))]
    simp only [fft_conjugate_engine, fft_init_size, forLoop, fft_permute_step, store_apply,
      r0, r1, r2, r3, r4]
    norm_num
    rw [fft_conjugate_heap, if_neg (by
      simp only [fft_init_size]; omega), fft_init_heap]
    simp [rampMachine]
  rw [e] at h1
  simp [rampMachine] at h1

/-- C4, amended. For a power of two `N`, with the engine initialized to `N`,
and `src` and `dst` disjoint buffers of `2N` scalars, after
`fft_inverse(src, dst)` every scalar of `src` equals its value before the
call. -/
theorem fft_inverse_restores_src (N : Nat) (hN : ∃ m, N = 2 ^ m) (src res : Nat)
    (hdisj : src + 2 * N ≤ res ∨ res + 2 * N ≤ src) (σ : Machine ℝ) (i : Nat) (hi : i < 2 * N) :
    (fft_inverse ⟨Real.pi, Real.cos, Real.sin, Real.sqrt⟩ src res
      (fft_init ⟨Real.pi, Real.cos, Real.sin, Real.sqrt⟩ N σ)).heap (src + i) =
      σ.heap (src + i) := by
  obtain ⟨m, rfl⟩ := hN
  have hr := fft_init_ready σ m
  rw [fft_inverse_frame _ m _ _ hr src res (src + i) (by omega), fft_init_heap]

theorem fft_inverse_restores_src_witness :
    (∃ m, 4 = 2 ^ m) ∧ ((8 + 2 * 4 ≤ 0) ∨ (0 + 2 * 4 ≤ 8)) ∧ 3 < 2 * 4 ∧
    (fft_inverse ⟨Real.pi, Real.cos, Real.sin, Real.sqrt⟩ 8 0
      (fft_init ⟨Real.pi, Real.cos, Real.sin, Real.sqrt⟩ 4 rampMachine)).heap (8 + 3) =
      rampMachine.heap (8 + 3) :=
  ⟨⟨2, rfl⟩, Or.inr (by decide), by decide,
    fft_inverse_restores_src 4 ⟨2, rfl⟩ 8 0 (Or.inr (by decide)) rampMachine 3 (by decide)⟩

/-- C5. Parseval: for a power of two `N`, with the engine initialized to `N`
and exact arithmetic, the sum of the squared magnitudes of the `N` outputs of
`fft_forward` equals the sum of the squared magnitudes of the `N` inputs. -/
theorem fft_forward_parseval (N : Nat) (hN : ∃ m, N = 2 ^ m) (src res : Nat)
    (hdisj : src + 2 * N ≤ res ∨ res + 2 * N ≤ src) (σ : Machine ℝ) :
    ∑ k in Finset.range N,
      (((fft_forward ⟨Real.pi, Real.cos, Real.sin, Real.sqrt⟩ src res
          (fft_init ⟨Real.pi, Real.cos, Real.sin, Real.sqrt⟩ N σ)).heap (res + 2 * k)) ^ 2 +
       ((fft_forward ⟨Real.pi, Real.cos, Real.sin, Real.sqrt⟩ src res
          (fft_init ⟨Real.pi, Real.cos, Real.sin, Real.sqrt⟩ N σ)).heap (res + (2 * k + 1))) ^ 2) =
    ∑ n in Finset.range N, ((σ.heap (src + 2 * n)) ^ 2 + (σ.heap (src + (2 * n + 1))) ^ 2) := by
  obtain ⟨m, rfl⟩ := hN
  have hr := fft_init_ready σ m
  have hsq : ∀ (mem : Mem ℝ) (p i : Nat),
      cplx mem p i * (starRingEnd ℂ) (cplx mem p i) =
        (((mem (p + 2 * i)) ^ 2 + (mem (p + (2 * i + 1))) ^ 2 : ℝ) : ℂ) := by
    intro mem p i
    rw [Complex.mul_conj, Complex.normSq_apply]
    simp only [cplx]
    congr 1
    ring
  have hC := dft_parseval _ (2 ^ m) (omega_primitive (2 ^ m) (by positivity)) (omega_conj (2 ^ m)) _
    (rsqrt_sq (2 ^ m) (by positivity)) (Complex.conj_ofReal _) (cplx σ.heap src)
  have hfw : ∀ k, k ∈ Finset.range (2 ^ m) →
      ((∑ q in Finset.range (2 ^ m), cplx σ.heap src q *
          Complex.exp (-(2 * Real.pi / ((2 ^ m : ℕ) : ℝ) : ℝ) * Complex.I) ^ (q * k)) *
          ((1 / Real.sqrt ((2 ^ m : ℕ) : ℝ) : ℝ) : ℂ)) =
      cplx (fft_forward ⟨Real.pi, Real.cos, Real.sin, Real.sqrt⟩ src res
          (fft_init ⟨Real.pi, Real.cos, Real.sin, Real.sqrt⟩ (2 ^ m) σ)).heap res k := by
    intro k hk
    rw [fft_forward_cplx _ m _ _ hr src res hdisj k (Finset.mem_range.1 hk), fft_init_heap]
  have hC2 : ∑ k in Finset.range (2 ^ m),
      cplx (fft_forward ⟨Real.pi, Real.cos, Real.sin, Real.sqrt⟩ src res
          (fft_init ⟨Real.pi, Real.cos, Real.sin, Real.sqrt⟩ (2 ^ m) σ)).heap res k *
        (starRingEnd ℂ) (cplx (fft_forward ⟨Real.pi, Real.cos, Real.sin, Real.sqrt⟩ src res
          (fft_init ⟨Real.pi, Real.cos, Real.sin, Real.sqrt⟩ (2 ^ m) σ)).heap res k) =
      ∑ n in Finset.range (2 ^ m), cplx σ.heap src n * (starRingEnd ℂ) (cplx σ.heap src n) := by
    rw [← hC]
    refine Finset.sum_congr rfl fun k hk => ?_
    rw [hfw k hk]
  simp only [hsq] at hC2
  rw [← Complex.ofReal_sum, ← Complex.ofReal_sum] at hC2
  exact Complex.ofReal_injective hC2

theorem fft_forward_parseval_witness :
    (∃ m, 2 = 2 ^ m) ∧ ((0 + 2 * 2 ≤ 4) ∨ (4 + 2 * 2 ≤ 0)) ∧
    ∑ k in Finset.range 2,
      (((fft_forward ⟨Real.pi, Real.cos, Real.sin, Real.sqrt⟩ 0 4
          (fft_init ⟨Real.pi, Real.cos, Real.sin, Real.sqrt⟩ 2 rampMachine)).heap (4 + 2 * k)) ^ 2 +
       ((fft_forward ⟨Real.pi, Real.cos, Real.sin, Real.sqrt⟩ 0 4
          (fft_init ⟨Real.pi, Real.cos, Real.sin, Real.sqrt⟩ 2 rampMachine)).heap
            (4 + (2 * k + 1))) ^ 2) =
    ∑ n in Finset.range 2,
      ((rampMachine.heap (0 + 2 * n)) ^ 2 + (rampMachine.heap (0 + (2 * n + 1))) ^ 2) :=
  ⟨⟨1, rfl⟩, Or.inl (by decide),
    fft_forward_parseval 2 ⟨1, rfl⟩ 0 4 (Or.inl (by decide)) rampMachine⟩

/-- C6. Known pair: with the engine initialized to `N = 4`, `fft_forward`
applied to the unit impulse `[1,0, 0,0, 0,0, 0,0]` writes
`[0.5,0, 0.5,0, 0.5,0, 0.5,0]` into `dst`. -/
theorem fft_forward_unit_impulse (src res : Nat) (hdisj : src + 8 ≤ res ∨ res + 8 ≤ src)
    (σ : Machine ℝ)
    (hsrc : ∀ i, i < 8 → σ.heap (src + i) = ([1, 0, 0, 0, 0, 0, 0, 0] : List ℝ).getD i 0)
    (i : Nat) (hi : i < 8) :
    (fft_forward ⟨Real.pi, Real.cos, Real.sin, Real.sqrt⟩ src res
      (fft_init ⟨Real.pi, Real.cos, Real.sin, Real.sqrt⟩ 4 σ)).heap (res + i) =
      ([0.5, 0, 0.5, 0, 0.5, 0, 0.5, 0] : List ℝ).getD i 0 := by
  have hr := fft_init_ready σ 2
  have hx0 : cplx σ.heap src 0 = 1 := by
    apply Complex.ext
    · simpa [cplx] using hsrc 0 (by decide)
    · simpa [cplx] using hsrc 1 (by decide)
  have hxq : ∀ q, q = 1 ∨ q = 2 ∨ q = 3 → cplx σ.heap src q = 0 := by
    intro q hq
    apply Complex.ext
    · rcases hq with rfl | rfl | rfl
      · simpa [cplx] using hsrc 2 (by decide)
      · simpa [cplx] using hsrc 4 (by decide)
      · simpa [cplx] using hsrc 6 (by decide)
    · rcases hq with rfl | rfl | rfl
      · simpa [cplx] using hsrc 3 (by decide)
      · simpa [cplx] using hsrc 5 (by decide)
      · simpa [cplx] using hsrc 7 (by decide)
  have hsqrt : Real.sqrt (((4 : ℕ) : ℝ)) = 2 := by
    have : (((4 : ℕ) : ℝ)) = 2 ^ 2 := by norm_num
    rw [this, Real.sqrt_sq (by norm_num)]
  have key : ∀ k, k < 4 →
      cplx (fft_forward ⟨Real.pi, Real.cos, Real.sin, Real.sqrt⟩ src res
        (fft_init ⟨Real.pi, Real.cos, Real.sin, Real.sqrt⟩ 4 σ)).heap res k = ((1 / 2 : ℝ) : ℂ) := by
    intro k hk
    have h : cplx (fft_forward ⟨Real.pi, Real.cos, Real.sin, Real.sqrt⟩ src res
        (fft_init ⟨Real.pi, Real.cos, Real.sin, Real.sqrt⟩ 4 σ)).heap res k =
        (∑ q in Finset.range 4, cplx
          (fft_init ⟨Real.pi, Real.cos, Real.sin, Real.sqrt⟩ 4 σ).heap src q *
          Complex.exp (-(2 * Real.pi / ((4 : ℕ) : ℝ) : ℝ) * Complex.I) ^ (q * k)) *
          ((1 / Real.sqrt ((4 : ℕ) : ℝ) : ℝ) : ℂ) :=
      fft_forward_cplx ⟨Real.pi, Real.cos, Real.sin, Real.sqrt⟩ 2 _ _ hr src res (by omega) k hk
    rw [h, fft_init_heap, hsqrt]
    simp only [Finset.sum_range_succ, Finset.sum_range_zero, hx0, hxq 1 (Or.inl rfl),
      hxq 2 (Or.inr (Or.inl rfl)), hxq 3 (Or.inr (Or.inr rfl))]
    simp
  have hre : ∀ k, k < 4 →
      (fft_forward ⟨Real.pi, Real.cos, Real.sin, Real.sqrt⟩ src res
        (fft_init ⟨Real.pi, Real.cos, Real.sin, Real.sqrt⟩ 4 σ)).heap (res + 2 * k) = 1 / 2 :=
    fun k hk => by simpa [cplx] using congrArg Complex.re (key k hk)
  have him : ∀ k, k < 4 →
      (fft_forward ⟨Real.pi, Real.cos, Real.sin, Real.sqrt⟩ src res
        (fft_init ⟨Real.pi, Real.cos, Real.sin, Real.sqrt⟩ 4 σ)).heap (res + (2 * k + 1)) = 0 :=
    fun k hk => by simpa [cplx] using congrArg Complex.im (key k hk)
  have hcases : i = 0 ∨ i = 1 ∨ i = 2 ∨ i = 3 ∨ i = 4 ∨ i = 5 ∨ i = 6 ∨ i = 7 := by omega
  rcases hcases with rfl | rfl | rfl | rfl | rfl | rfl | rfl | rfl
  · have := hre 0 (by decide); norm_num at this ⊢; exact this
  · have := him 0 (by decide); norm_num at this ⊢; exact this
  · have := hre 1 (by decide); norm_num at this ⊢; exact this
  · have := him 1 (by decide); norm_num at this ⊢; exact this
  · have := hre 2 (by decide); norm_num at this ⊢; exact this
  · have := him 2 (by decide); norm_num at this ⊢; exact this
  · have := hre 3 (by decide); norm_num at this ⊢; exact this
  · have := him 3 (by decide); norm_num at this ⊢; exact this

theorem fft_forward_unit_impulse_witness :
    ((0 + 8 ≤ 8) ∨ (8 + 8 ≤ 0)) ∧
    (∀ i, i < 8 → impulseMachine.heap (0 + i) = ([1, 0, 0, 0, 0, 0, 0, 0] : List ℝ).getD i 0) ∧
    2 < 8 ∧
    (fft_forward ⟨Real.pi, Real.cos, Real.sin, Real.sqrt⟩ 0 8
      (fft_init ⟨Real.pi, Real.cos, Real.sin, Real.sqrt⟩ 4 impulseMachine)).heap (8 + 2) =
      ([0.5, 0, 0.5, 0, 0.5, 0, 0.5, 0] : List ℝ).getD 2 0 :=
  have hsrc : ∀ i, i < 8 →
      impulseMachine.heap (0 + i) = ([1, 0, 0, 0, 0, 0, 0, 0] : List ℝ).getD i 0 := by
    intro i hi
    have hcases : i = 0 ∨ i = 1 ∨ i = 2 ∨ i = 3 ∨ i = 4 ∨ i = 5 ∨ i = 6 ∨ i = 7 := by omega
    rcases hcases with rfl | rfl | rfl | rfl | rfl | rfl | rfl | rfl <;> simp [impulseMachine]
  ⟨Or.inl (by decide), hsrc, by decide,
    fft_forward_unit_impulse 0 8 (Or.inl (by decide)) impulseMachine hsrc 2 (by decide)⟩

/-- C7. Linearity: for a power of two `N`, with the engine initialized to `N`
and exact arithmetic, if the input signal is `a*x + b*y` sample for sample
then the output of `fft_forward` is `a*forward(x) + b*forward(y)` sample for
sample (`a`, `b` complex scalars, real ones included). -/
theorem fft_forward_linear (N : Nat) (hN : ∃ m, N = 2 ^ m) (src res : Nat)
    (hdisj : src + 2 * N ≤ res ∨ res + 2 * N ≤ src) (σx σy σz : Machine ℝ) (a b : ℂ)
    (hz : ∀ n, n < N → cplx σz.heap src n = a * cplx σx.heap src n + b * cplx σy.heap src n)
    (k : Nat) (hk : k < N) :
    cplx (fft_forward ⟨Real.pi, Real.cos, Real.sin, Real.sqrt⟩ src res
        (fft_init ⟨Real.pi, Real.cos, Real.sin, Real.sqrt⟩ N σz)).heap res k =
      a * cplx (fft_forward ⟨Real.pi, Real.cos, Real.sin, Real.sqrt⟩ src res
        (fft_init ⟨Real.pi, Real.cos, Real.sin, Real.sqrt⟩ N σx)).heap res k +
      b * cplx (fft_forward ⟨Real.pi, Real.cos, Real.sin, Real.sqrt⟩ src res
        (fft_init ⟨Real.pi, Real.cos, Real.sin, Real.sqrt⟩ N σy)).heap res k := by
  obtain ⟨m, rfl⟩ := hN
  rw [fft_forward_cplx _ m _ _ (fft_init_ready σz m) src res hdisj k hk,
    fft_forward_cplx _ m _ _ (fft_init_ready σx m) src res hdisj k hk,
    fft_forward_cplx _ m _ _ (fft_init_ready σy m) src res hdisj k hk,
    fft_init_heap, fft_init_heap, fft_init_heap,
    Finset.sum_congr rfl (fun n hn => by rw [hz n (Finset.mem_range.1 hn)])]
  simp only [add_mul, Finset.sum_add_distrib, Finset.mul_sum, Finset.sum_mul, mul_assoc]

theorem fft_forward_linear_witness :
    (∃ m, 2 = 2 ^ m) ∧ ((0 + 2 * 2 ≤ 4) ∨ (4 + 2 * 2 ≤ 0)) ∧
    (∀ n, n < 2 → cplx rampMachine.heap 0 n =
      1 * cplx rampMachine.heap 0 n + 0 * cplx impulseMachine.heap 0 n) ∧ 1 < 2 ∧
    cplx (fft_forward ⟨Real.pi, Real.cos, Real.sin, Real.sqrt⟩ 0 4
        (fft_init ⟨Real.pi, Real.cos, Real.sin, Real.sqrt⟩ 2 rampMachine)).heap 4 1 =
      1 * cplx (fft_forward ⟨Real.pi, Real.cos, Real.sin, Real.sqrt⟩ 0 4
        (fft_init ⟨Real.pi, Real.cos, Real.sin, Real.sqrt⟩ 2 rampMachine)).heap 4 1 +
      0 * cplx (fft_forward ⟨Real.pi, Real.cos, Real.sin, Real.sqrt⟩ 0 4
        (fft_init ⟨Real.pi, Real.cos, Real.sin, Real.sqrt⟩ 2 impulseMachine)).heap 4 1 :=
  ⟨⟨1, rfl⟩, Or.inl (by decide), fun n _ => by simp, by decide,
    fft_forward_linear 2 ⟨1, rfl⟩ 0 4 (Or.inl (by decide)) rampMachine impulseMachine rampMachine
      1 0 (fun n _ => by simp) 1 (by decide)⟩

/-- C8. Conjugate symmetry: for a power of two `N`, with the engine
initialized to `N` and exact arithmetic, if every imaginary part of the input
is zero then `forward(x)[k]` is the complex conjugate of
`forward(x)[(N - k) mod N]` for every `k < N`. -/
theorem fft_forward_conj_symmetry (N : Nat) (hN : ∃ m, N = 2 ^ m) (src res : Nat)
    (hdisj : src + 2 * N ≤ res ∨ res + 2 * N ≤ src) (σ : Machine ℝ)
    (hreal : ∀ n, n < N → σ.heap (src + (2 * n + 1)) = 0) (k : Nat) (hk : k < N) :
    cplx (fft_forward ⟨Real.pi, Real.cos, Real.sin, Real.sqrt⟩ src res
        (fft_init ⟨Real.pi, Real.cos, Real.sin, Real.sqrt⟩ N σ)).heap res k =
      (starRingEnd ℂ) (cplx (fft_forward ⟨Real.pi, Real.cos, Real.sin, Real.sqrt⟩ src res
        (fft_init ⟨Real.pi, Real.cos, Real.sin, Real.sqrt⟩ N σ)).heap res ((N - k) % N)) := by
  obtain ⟨m, rfl⟩ := hN
  have hr := fft_init_ready σ m
  have hpos : 0 < 2 ^ m := Nat.two_pow_pos m
  have hk' : (2 ^ m - k) % 2 ^ m < 2 ^ m := Nat.mod_lt _ hpos
  have hprim := omega_primitive (2 ^ m) (by positivity)
  have hω0 : Complex.exp (-(2 * Real.pi / ((2 ^ m : ℕ) : ℝ) : ℝ) * Complex.I) ≠ 0 :=
    Complex.exp_ne_zero _
  rw [fft_forward_cplx _ m _ _ hr src res hdisj k hk,
    fft_forward_cplx _ m _ _ hr src res hdisj _ hk', fft_init_heap, map_mul, map_sum,
    Complex.conj_ofReal]
  congr 1
  refine Finset.sum_congr rfl fun q hq => ?_
  have hx : (starRingEnd ℂ) (cplx σ.heap src q) = cplx σ.heap src q := by
    apply Complex.ext
    · simp
    · simp [cplx, hreal q (Finset.mem_range.1 hq)]
  rw [map_mul, map_pow, hx, omega_conj]
  congr 1
  have hdvd : 2 ^ m ∣ q * k + q * ((2 ^ m - k) % 2 ^ m) := by
    rw [← Nat.mul_add]
    apply Dvd.dvd.mul_left
    by_cases h0 : k = 0
    · subst h0; simp
    · rw [Nat.mod_eq_of_lt (by omega)]
      have : k + (2 ^ m - k) = 2 ^ m := by omega
      rw [this]
  have h1 := (hprim.pow_eq_one_iff_dvd _).2 hdvd
  rw [pow_add] at h1
  rw [inv_pow]
  exact eq_inv_of_mul_eq_one_left h1

theorem fft_forward_conj_symmetry_witness :
    (∃ m, 2 = 2 ^ m) ∧ ((0 + 2 * 2 ≤ 4) ∨ (4 + 2 * 2 ≤ 0)) ∧
    (∀ n, n < 2 → impulseMachine.heap (0 + (2 * n + 1)) = 0) ∧ 1 < 2 ∧
    cplx (fft_forward ⟨Real.pi, Real.cos, Real.sin, Real.sqrt⟩ 0 4
        (fft_init ⟨Real.pi, Real.cos, Real.sin, Real.sqrt⟩ 2 impulseMachine)).heap 4 1 =
      (starRingEnd ℂ) (cplx (fft_forward ⟨Real.pi, Real.cos, Real.sin, Real.sqrt⟩ 0 4
        (fft_init ⟨Real.pi, Real.cos, Real.sin, Real.sqrt⟩ 2 impulseMachine)).heap 4 ((2 - 1) % 2)) :=
  ⟨⟨1, rfl⟩, Or.inl (by decide), fun n _ => by simp [impulseMachine], by decide,
    fft_forward_conj_symmetry 2 ⟨1, rfl⟩ 0 4 (Or.inl (by decide)) impulseMachine
      (fun n _ => by simp [impulseMachine]) 1 (by decide)⟩

/-- C9. For every size `N >= 1` and `k < N`, after `fft_init(N)` the entry
`revidx[k]` is the reversal of the bits of `k` across `m` positions, `m` the
least integer with `2^m >= N`: bit `j` of `revidx[k]` is bit `m-1-j` of `k`
for `j < m`, and no bit at position `m` or above is set. -/
theorem fft_init_revidx_reverses_bits {K : Type} [Field K] (L : Libm K) (σ : Machine K)
    (N m k : Nat) (hN : 1 ≤ N) (hm : N ≤ 2 ^ m) (hmin : ∀ m', m' < m → 2 ^ m' < N) (hk : k < N) :
    (∀ j, j < m → ((fft_init L N σ).engine.rev k).testBit j = k.testBit (m - 1 - j)) ∧
    (∀ j, m ≤ j → ((fft_init L N σ).engine.rev k).testBit j = false) := by
  have _ := hN
  have e : (fft_init L N σ).engine.rev k = bitrev m k := by
    rw [fft_init_rev_entry L N σ k hk,
      fft_init_rev_eq N k m 0 0 (fun j _ h => hmin j (by omega)) (by simpa using hm)]
    simp
  rw [e]
  refine ⟨fun j hj => testBit_bitrev m k j hj, fun j hj => ?_⟩
  exact Nat.testBit_lt_two_pow (lt_of_lt_of_le (bitrev_lt m k) (Nat.pow_le_pow_right (by decide) hj))

theorem fft_init_revidx_reverses_bits_witness :
    1 ≤ 6 ∧ 6 ≤ 2 ^ 3 ∧ (∀ m', m' < 3 → 2 ^ m' < 6) ∧ 3 < 6 ∧
    (∀ j, j < 3 → ((fft_init ⟨Real.pi, Real.cos, Real.sin, Real.sqrt⟩ 6 rampMachine).engine.rev
      3).testBit j = Nat.testBit 3 (3 - 1 - j)) ∧
    (∀ j, 3 ≤ j → ((fft_init ⟨Real.pi, Real.cos, Real.sin, Real.sqrt⟩ 6 rampMachine).engine.rev
      3).testBit j = false) :=
  have hmin : ∀ m', m' < 3 → 2 ^ m' < 6 := by
    intro m' h
    have : m' = 0 ∨ m' = 1 ∨ m' = 2 := by omega
    rcases this with rfl | rfl | rfl <;> decide
  ⟨by decide, by decide, hmin, by decide,
    fft_init_revidx_reverses_bits ⟨Real.pi, Real.cos, Real.sin, Real.sqrt⟩ rampMachine 6 3 3
      (by decide) (by decide) hmin (by decide)⟩

/-- C10. After `fft_init(N)` the engine's size is `N`, the unit-root table
holds exactly `2N` scalars, and entry `k < N` is
`(cos(2πk/N), sin(2πk/N))` with the exact real `cos` and `sin`. -/
theorem fft_init_unit_roots (N : Nat) (σ : Machine ℝ) :
    (fft_init ⟨Real.pi, Real.cos, Real.sin, Real.sqrt⟩ N σ).engine.size = N ∧
    ∃ tbl : List ℝ,
      (fft_init ⟨Real.pi, Real.cos, Real.sin, Real.sqrt⟩ N σ).engine.uroots = some tbl ∧
      tbl.length = 2 * N ∧
      ∀ k, k < N → tbl[2 * k]? = some (Real.cos (2 * Real.pi * k / N)) ∧
        tbl[2 * k + 1]? = some (Real.sin (2 * Real.pi * k / N)) := by
  refine ⟨rfl, _, rfl, ?_, ?_⟩
  · simp [fft_init_uroots, forLoop_set2_length]
  · intro k hk
    exact forLoop_set2_get _ _ N (List.replicate (2 * N) (0 : ℝ)) (by simp) k hk

/-- C11. Idempotent close: `fft_close` always leaves `size = 0`; on an engine
whose size is already 0 it changes nothing; hence closing twice is the same
as closing once. -/
theorem fft_close_idempotent {K : Type} (σ : Machine K) :
    (fft_close σ).engine.size = 0 ∧ (σ.engine.size = 0 → fft_close σ = σ) ∧
    fft_close (fft_close σ) = fft_close σ := by
  have hsize : (fft_close σ).engine.size = 0 := by
    unfold fft_close
    split
    · assumption
    · rfl
  have hnoop : ∀ τ : Machine K, τ.engine.size = 0 → fft_close τ = τ := by
    intro τ h
    unfold fft_close
    rw [if_pos h]
  exact ⟨hsize, hnoop σ, hnoop (fft_close σ) hsize⟩

/-- C13. For every engine size `N` and every buffer `buf`, after
`fft_conjugate(buf)` each `buf[2i+1]` with `i < N` is the negation of its
previous value and each `buf[2i]` is unchanged. -/
theorem fft_conjugate_negates_imag (N : Nat) (σ : Machine ℝ) (hN : σ.engine.size = N)
    (buf i : Nat) (hi : i < N) :
    (fft_conjugate buf σ).heap (buf + (2 * i + 1)) = -σ.heap (buf + (2 * i + 1)) ∧
    (fft_conjugate buf σ).heap (buf + 2 * i) = σ.heap (buf + 2 * i) := by
  subst hN
  constructor
  · rw [fft_conjugate_heap, if_pos (by omega)]
  · rw [fft_conjugate_heap, if_neg (by omega)]

theorem fft_conjugate_negates_imag_witness :
    (fft_init ⟨Real.pi, Real.cos, Real.sin, Real.sqrt⟩ 4 rampMachine).engine.size = 4 ∧ 3 < 4 ∧
    (fft_conjugate 8 (fft_init ⟨Real.pi, Real.cos, Real.sin, Real.sqrt⟩ 4 rampMachine)).heap
        (8 + (2 * 3 + 1)) =
      -(fft_init ⟨Real.pi, Real.cos, Real.sin, Real.sqrt⟩ 4 rampMachine).heap (8 + (2 * 3 + 1)) ∧
    (fft_conjugate 8 (fft_init ⟨Real.pi, Real.cos, Real.sin, Real.sqrt⟩ 4 rampMachine)).heap
        (8 + 2 * 3) =
      (fft_init ⟨Real.pi, Real.cos, Real.sin, Real.sqrt⟩ 4 rampMachine).heap (8 + 2 * 3) :=
  ⟨rfl, by decide,
    fft_conjugate_negates_imag 4 (fft_init ⟨Real.pi, Real.cos, Real.sin, Real.sqrt⟩ 4 rampMachine)
      rfl 8 3 (by decide)⟩

theorem runCalls_invariant {K : Type} [Field K] (L : Libm K) (calls : List EngineCall)
    (hpos : ∀ size, EngineCall.init size ∈ calls → 0 < size) (σ : Machine K)
    (hσ : (∃ r u, σ.engine.revidx = some r ∧ σ.engine.uroots = some u ∧
        r.length = σ.engine.size ∧ u.length = 2 * σ.engine.size) ↔ σ.engine.size ≠ 0) :
    (∃ r u, (runCalls L calls σ).engine.revidx = some r ∧
        (runCalls L calls σ).engine.uroots = some u ∧
        r.length = (runCalls L calls σ).engine.size ∧
        u.length = 2 * (runCalls L calls σ).engine.size) ↔
      (runCalls L calls σ).engine.size ≠ 0 := by
  induction calls generalizing σ with
  | nil => exact hσ
  | cons c cs ih =>
    apply ih (fun size h => hpos size (List.mem_cons_of_mem _ h))
    cases c with
    | init size =>
      have hs : 0 < size := hpos size (List.mem_cons_self _ _)
      constructor
      · intro _
        show size ≠ 0
        omega
      · intro _
        refine ⟨_, _, rfl, rfl, ?_, ?_⟩
        · show (fft_init_revidx size (List.replicate size 0)).length = size
          simp [fft_init_revidx, forLoop_set_length]
        · show (fft_init_uroots L size (List.replicate (2 * size) 0)).length = 2 * size
          simp [fft_init_uroots, forLoop_set2_length]
    | close =>
      show (∃ r u, (fft_close σ).engine.revidx = some r ∧ (fft_close σ).engine.uroots = some u ∧
        r.length = (fft_close σ).engine.size ∧ u.length = 2 * (fft_close σ).engine.size) ↔
        (fft_close σ).engine.size ≠ 0
      unfold fft_close
      split
      · exact hσ
      · constructor
        · rintro ⟨r, u, h1, _⟩
          simp at h1
        · intro h
          exact absurd rfl h

/-- C14. State invariant: in every engine state reached from the initial
closed state by a sequence of `fft_init(size)` calls with `size > 0` and
`fft_close` calls, both tables exist with exactly `size` entries (`size`
integers, `size` complex roots = `2 * size` scalars) if and only if
`size != 0`. -/
theorem engine_tables_iff_size_ne_zero {K : Type} [Field K] (L : Libm K)
    (calls : List EngineCall) (hpos : ∀ size, EngineCall.init size ∈ calls → 0 < size)
    (h : Mem K) :
    (∃ r u, (runCalls L calls ⟨fft_data.zero K, h⟩).engine.revidx = some r ∧
        (runCalls L calls ⟨fft_data.zero K, h⟩).engine.uroots = some u ∧
        r.length = (runCalls L calls ⟨fft_data.zero K, h⟩).engine.size ∧
        u.length = 2 * (runCalls L calls ⟨fft_data.zero K, h⟩).engine.size) ↔
      (runCalls L calls ⟨fft_data.zero K, h⟩).engine.size ≠ 0 := by
  apply runCalls_invariant L calls hpos
  constructor
  · rintro ⟨r, u, h1, _⟩
    simp [fft_data.zero] at h1
  · intro h
    exact absurd rfl h

theorem engine_tables_iff_size_ne_zero_witness :
    (∀ size, EngineCall.init size ∈
        [EngineCall.init 4, EngineCall.close, EngineCall.init 2] → 0 < size) ∧
    ((∃ r u, (runCalls ⟨Real.pi, Real.cos, Real.sin, Real.sqrt⟩
          [EngineCall.init 4, EngineCall.close, EngineCall.init 2]
          ⟨fft_data.zero ℝ, rampMachine.heap⟩).engine.revidx = some r ∧
        (runCalls ⟨Real.pi, Real.cos, Real.sin, Real.sqrt⟩
          [EngineCall.init 4, EngineCall.close, EngineCall.init 2]
          ⟨fft_data.zero ℝ, rampMachine.heap⟩).engine.uroots = some u ∧
        r.length = (runCalls ⟨Real.pi, Real.cos, Real.sin, Real.sqrt⟩
          [EngineCall.init 4, EngineCall.close, EngineCall.init 2]
          ⟨fft_data.zero ℝ, rampMachine.heap⟩).engine.size ∧
        u.length = 2 * (runCalls ⟨Real.pi, Real.cos, Real.sin, Real.sqrt⟩
          [EngineCall.init 4, EngineCall.close, EngineCall.init 2]
          ⟨fft_data.zero ℝ, rampMachine.heap⟩).engine.size) ↔
      (runCalls ⟨Real.pi, Real.cos, Real.sin, Real.sqrt⟩
          [EngineCall.init 4, EngineCall.close, EngineCall.init 2]
          ⟨fft_data.zero ℝ, rampMachine.heap⟩).engine.size ≠ 0) :=
  have hpos : ∀ size, EngineCall.init size ∈
      [EngineCall.init 4, EngineCall.close, EngineCall.init 2] → 0 < size := by
    intro size h
    simp at h
    omega
  ⟨hpos, engine_tables_iff_size_ne_zero ⟨Real.pi, Real.cos, Real.sin, Real.sqrt⟩
    [EngineCall.init 4, EngineCall.close, EngineCall.init 2] hpos rampMachine.heap⟩

/-- The output of `fft_transform` on an engine with the tables of size
`2 ^ m`, given what the permutation loop left in `res`, whether or not `src`
and `res` overlap. -/
theorem fft_transform_mem_spec_of_perm (L : Libm ℝ) (e : fft_data ℝ) (m : Nat) (ω : ℂ)
    (hr : Ready e m ω) (src res : Nat) (mem : Mem ℝ) (x : Nat → ℂ)
    (h0 : ∀ j, j < 2 ^ m →
      cplx (forLoop (2 ^ m) (fft_permute_step e src res) mem) res j = x (bitrev m j))
    (p : Nat) (hp : p < 2 ^ m) :
    cplx (fft_transform_mem L e src res mem) res p =
      (∑ q in Finset.range (2 ^ m), x q * ω ^ (q * p)) *
        ((1 / L.sqrtf ((2 ^ m : Nat) : ℝ) : ℝ) : ℂ) := by
  have hst := stages_spec e m ω hr res _ x h0 m 0 (by omega) 0 p (by simp) hp
  rw [blockDFT_full] at hst
  simp only [Nat.zero_mul, Nat.zero_add] at hst
  rw [fft_transform_mem_stages L e m hr.1, ← hst]
  apply Complex.ext
  · simp only [cplx, scale_loop, Complex.mul_re, Complex.ofReal_re, Complex.ofReal_im]
    rw [if_pos (by omega)]
    ring
  · simp only [cplx, scale_loop, Complex.mul_im, Complex.ofReal_re, Complex.ofReal_im]
    rw [if_pos (by omega)]
    ring

/-- Where `revidx` is the identity, the permutation loop run in place changes
nothing. -/
theorem perm_loop_identity (e : fft_data ℝ) (p n : Nat) (hid : ∀ i, i < n → e.rev i = i)
    (mem : Mem ℝ) (c : Nat) (hc : c ≤ n) :
    forLoop c (fft_permute_step e p p) mem = mem := by
  induction c with
  | zero => rfl
  | succ c ih =>
    rw [forLoop_succ, ih (by omega)]
    funext a
    simp only [fft_permute_step, store_apply, hid c (by omega)]
    by_cases h1 : a = p + (c * 2 + 1)
    · rw [if_pos h1, if_neg (by omega), h1]
    · rw [if_neg h1]
      by_cases h2 : a = p + (c * 2 + 0)
      · rw [if_pos h2, h2]
      · rw [if_neg h2]

/-- An in-place permutation step whose target slot already holds the values
of its source slot changes nothing. -/
theorem perm_step_noop (e : fft_data ℝ) (p i j : Nat) (mem : Mem ℝ) (h : e.rev i = j)
    (h0 : mem (p + (i * 2 + 0)) = mem (p + (j * 2 + 0)))
    (h1 : mem (p + (i * 2 + 1)) = mem (p + (j * 2 + 1))) :
    fft_permute_step e p p i mem = mem := by
  funext a
  simp only [fft_permute_step, store_apply, h]
  by_cases c1 : a = p + (j * 2 + 1)
  · rw [if_pos c1, if_neg (by omega), c1, h1]
  · rw [if_neg c1]
    by_cases c2 : a = p + (j * 2 + 0)
    · rw [if_pos c2, c2, h0]
    · rw [if_neg c2]

/-- C15, as stated, fails: with the engine initialized to `N = 4`
(`revidx = [0, 2, 1, 3]`) and the signal `x = (0, 0, 1, 0)`, the permutation
loop run in place overwrites slot 2 with `x[1] = 0` before it is read, so the
in-place result is all zero, while a separate `dst` receives `dst[0] = 0.5`. -/
theorem fft_transform_in_place_differs_size4 :
    ¬ (∀ (N buf res : Nat) (σ : Machine ℝ), (∃ m, N = 2 ^ m) →
        (buf + 2 * N ≤ res ∨ res + 2 * N ≤ buf) → ∀ i, i < 2 * N →
          (fft_transform ⟨Real.pi, Real.cos, Real.sin, Real.sqrt⟩ buf buf
            (fft_init ⟨Real.pi, Real.cos, Real.sin, Real.sqrt⟩ N σ)).heap (buf + i) =
          (fft_transform ⟨Real.pi, Real.cos, Real.sin, Real.sqrt⟩ buf res
            (fft_init ⟨Real.pi, Real.cos, Real.sin, Real.sqrt⟩ N σ)).heap (res + i)) := by
  intro h
  have h1 := h 4 0 8 slot2Machine ⟨2, rfl⟩ (Or.inl (by decide)) 0 (by decide)
  have hr := fft_init_ready slot2Machine 2
  have hrev := hr.2.1
  have r0 := hrev 0 (by decide)
  have r1 := hrev 1 (by decide)
  have r2 := hrev 2 (by decide)
  have r3 := hrev 3 (by decide)
  have b0 : bitrev 2 0 = 0 := by decide
  have b1 : bitrev 2 1 = 2 := by decide
  have b2 : bitrev 2 2 = 1 := by decide
  have b3 : bitrev 2 3 = 3 := by decide
  rw [b0] at r0
  rw [b1] at r1
  rw [b2] at r2
  rw [b3] at r3
  have hsqrt : Real.sqrt (((2 ^ 2 : ℕ) : ℝ)) = 2 := by
    have : (((2 ^ 2 : ℕ) : ℝ)) = 2 ^ 2 := by norm_num
    rw [this, Real.sqrt_sq (by norm_num)]
  have hperm : forLoop (2 ^ 2) (fft_permute_step
      (fft_init ⟨Real.pi, Real.cos, Real.sin, Real.sqrt⟩ (2 ^ 2) slot2Machine).engine 0 0)
      slot2Machine.heap = fun _ => 0 := by
    generalize (fft_init ⟨Real.pi, Real.cos, Real.sin, Real.sqrt⟩ (2 ^ 2) slot2Machine).engine = e
      at r0 r1 r2 r3
    have s0 : fft_permute_step e 0 0 0 slot2Machine.heap = slot2Machine.heap :=
      perm_step_noop e 0 0 0 _ r0 rfl rfl
    have s1 : fft_permute_step e 0 0 1 slot2Machine.heap = fun _ => 0 := by
      funext a
      simp only [fft_permute_step, store_apply, r1, slot2Machine]
      split_ifs <;> first | rfl | omega
    have s2 : fft_permute_step e 0 0 2 (fun _ => (0 : ℝ)) = fun _ => 0 :=
      perm_step_noop e 0 2 1 _ r2 rfl rfl
    have s3 : fft_permute_step e 0 0 3 (fun _ => (0 : ℝ)) = fun _ => 0 :=
      perm_step_noop e 0 3 3 _ r3 rfl rfl
    show fft_permute_step e 0 0 3 (fft_permute_step e 0 0 2 (fft_permute_step e 0 0 1
      (fft_permute_step e 0 0 0 slot2Machine.heap))) = fun _ => 0
    rw [s0, s1, s2, s3]
  have hin : cplx (fft_transform ⟨Real.pi, Real.cos, Real.sin, Real.sqrt⟩ 0 0
      (fft_init ⟨Real.pi, Real.cos, Real.sin, Real.sqrt⟩ (2 ^ 2) slot2Machine)).heap 0 0 = 0 := by
    have := fft_transform_mem_spec_of_perm ⟨Real.pi, Real.cos, Real.sin, Real.sqrt⟩ _ 2 _ hr 0 0
      (fft_init ⟨Real.pi, Real.cos, Real.sin, Real.sqrt⟩ (2 ^ 2) slot2Machine).heap
      (fun _ => 0) (by
        intro j _
        rw [fft_init_heap, hperm]
        rfl) 0 (by decide)
    simp only [zero_mul, Finset.sum_const_zero] at this
    exact this
  have hout : cplx (fft_transform ⟨Real.pi, Real.cos, Real.sin, Real.sqrt⟩ 0 8
      (fft_init ⟨Real.pi, Real.cos, Real.sin, Real.sqrt⟩ (2 ^ 2) slot2Machine)).heap 8 0 =
      ((1 / 2 : ℝ) : ℂ) := by
    have hx2 : cplx slot2Machine.heap 0 2 = 1 := by
      apply Complex.ext <;> simp [cplx, slot2Machine]
    have hx : ∀ q, q = 0 ∨ q = 1 ∨ q = 3 → cplx slot2Machine.heap 0 q = 0 := by
      intro q hq
      rcases hq with rfl | rfl | rfl <;> apply Complex.ext <;> simp [cplx, slot2Machine]
    have h2 : cplx (fft_transform ⟨Real.pi, Real.cos, Real.sin, Real.sqrt⟩ 0 8
        (fft_init ⟨Real.pi, Real.cos, Real.sin, Real.sqrt⟩ (2 ^ 2) slot2Machine)).heap 8 0 =
        (∑ q in Finset.range 4, cplx
          (fft_init ⟨Real.pi, Real.cos, Real.sin, Real.sqrt⟩ (2 ^ 2) slot2Machine).heap 0 q *
          Complex.exp (-(2 * Real.pi / ((2 ^ 2 : ℕ) : ℝ) : ℝ) * Complex.I) ^ (q * 0)) *
          ((1 / Real.sqrt ((2 ^ 2 : ℕ) : ℝ) : ℝ) : ℂ) :=
      fft_forward_cplx ⟨Real.pi, Real.cos, Real.sin, Real.sqrt⟩ 2 _ _ hr 0 8
        (Or.inl (by decide)) 0 (by decide)
    rw [h2, fft_init_heap, hsqrt]
    simp only [Finset.sum_range_succ, Finset.sum_range_zero, hx2, hx 0 (Or.inl rfl),
      hx 1 (Or.inr (Or.inl rfl)), hx 3 (Or.inr (Or.inr rfl))]
    simp
  have e1 := congrArg Complex.re hin
  have e2 := congrArg Complex.re hout
  simp only [cplx, Complex.zero_re, Complex.ofReal_re] at e1 e2
  have e1' : (fft_transform ⟨Real.pi, Real.cos, Real.sin, Real.sqrt⟩ 0 0
      (fft_init ⟨Real.pi, Real.cos, Real.sin, Real.sqrt⟩ 4 slot2Machine)).heap (0 + 0) = 0 := e1
  have e2' : (fft_transform ⟨Real.pi, Real.cos, Real.sin, Real.sqrt⟩ 0 8
      (fft_init ⟨Real.pi, Real.cos, Real.sin, Real.sqrt⟩ 4 slot2Machine)).heap (8 + 0) =
        1 / 2 := e2
  rw [e1', e2'] at h1
  norm_num at h1

/-- C15, amended. For `N = 1` and `N = 2`, the sizes whose `revidx` table is
the identity, `fft_transform` called with `src` and `dst` the identical buffer
leaves in that buffer the same values that it writes into a separate `dst`. -/
theorem fft_transform_in_place_small (N : Nat) (hN : N = 1 ∨ N = 2) (buf res : Nat)
    (hdisj : buf + 2 * N ≤ res ∨ res + 2 * N ≤ buf) (σ : Machine ℝ) (i : Nat) (hi : i < 2 * N) :
    (fft_transform ⟨Real.pi, Real.cos, Real.sin, Real.sqrt⟩ buf buf
      (fft_init ⟨Real.pi, Real.cos, Real.sin, Real.sqrt⟩ N σ)).heap (buf + i) =
    (fft_transform ⟨Real.pi, Real.cos, Real.sin, Real.sqrt⟩ buf res
      (fft_init ⟨Real.pi, Real.cos, Real.sin, Real.sqrt⟩ N σ)).heap (res + i) := by
  obtain ⟨m, hm, rfl⟩ : ∃ m, m ≤ 1 ∧ N = 2 ^ m := by
    rcases hN with rfl | rfl
    · exact ⟨0, by decide, rfl⟩
    · exact ⟨1, by decide, rfl⟩
  have hr := fft_init_ready σ m
  have hbit : ∀ j, j < 2 ^ m → bitrev m j = j := by
    intro j hj
    have hm' : m = 0 ∨ m = 1 := by omega
    rcases hm' with rfl | rfl
    · simp at hj; subst hj; rfl
    · have : j = 0 ∨ j = 1 := by
        simp at hj; omega
      rcases this with rfl | rfl <;> decide
  have hid : ∀ j, j < 2 ^ m →
      (fft_init ⟨Real.pi, Real.cos, Real.sin, Real.sqrt⟩ (2 ^ m) σ).engine.rev j = j :=
    fun j hj => by rw [hr.2.1 j hj, hbit j hj]
  have key : ∀ p, p < 2 ^ m →
      cplx (fft_transform ⟨Real.pi, Real.cos, Real.sin, Real.sqrt⟩ buf buf
        (fft_init ⟨Real.pi, Real.cos, Real.sin, Real.sqrt⟩ (2 ^ m) σ)).heap buf p =
      cplx (fft_transform ⟨Real.pi, Real.cos, Real.sin, Real.sqrt⟩ buf res
        (fft_init ⟨Real.pi, Real.cos, Real.sin, Real.sqrt⟩ (2 ^ m) σ)).heap res p := by
    intro p hp
    have h1 := fft_transform_mem_spec_of_perm ⟨Real.pi, Real.cos, Real.sin, Real.sqrt⟩ _ m _ hr
      buf buf (fft_init ⟨Real.pi, Real.cos, Real.sin, Real.sqrt⟩ (2 ^ m) σ).heap
      (cplx (fft_init ⟨Real.pi, Real.cos, Real.sin, Real.sqrt⟩ (2 ^ m) σ).heap buf) (by
        intro j hj
        rw [perm_loop_identity _ buf (2 ^ m) hid _ (2 ^ m) (le_refl _), hbit j hj]) p hp
    have h2 := fft_forward_cplx ⟨Real.pi, Real.cos, Real.sin, Real.sqrt⟩ m _ _ hr buf res
      hdisj p hp
    exact h1.trans h2.symm
  have hk := key (i / 2) (by omega)
  rcases Nat.mod_two_eq_zero_or_one i with h | h
  · have e : i = 2 * (i / 2) := by omega
    have := congrArg Complex.re hk
    simp only [cplx] at this
    rw [e]
    exact this
  · have e : i = 2 * (i / 2) + 1 := by omega
    have := congrArg Complex.im hk
    simp only [cplx] at this
    rw [e]
    exact this

theorem fft_transform_in_place_small_witness :
    (2 = 1 ∨ 2 = 2) ∧ ((0 + 2 * 2 ≤ 4) ∨ (4 + 2 * 2 ≤ 0)) ∧ 3 < 2 * 2 ∧
    (fft_transform ⟨Real.pi, Real.cos, Real.sin, Real.sqrt⟩ 0 0
      (fft_init ⟨Real.pi, Real.cos, Real.sin, Real.sqrt⟩ 2 rampMachine)).heap (0 + 3) =
    (fft_transform ⟨Real.pi, Real.cos, Real.sin, Real.sqrt⟩ 0 4
      (fft_init ⟨Real.pi, Real.cos, Real.sin, Real.sqrt⟩ 2 rampMachine)).heap (4 + 3) :=
  ⟨Or.inr rfl, Or.inl (by decide), by decide,
    fft_transform_in_place_small 2 (Or.inr rfl) 0 4 (Or.inl (by decide)) rampMachine 3
      (by decide)⟩

theorem bitrev_ones (m : Nat) : bitrev m (2 ^ m - 1) = 2 ^ m - 1 := by
  induction m with
  | zero => simp [bitrev]
  | succ m ih =>
    have hpos : 0 < 2 ^ m := Nat.two_pow_pos m
    have hp : 2 ^ (m + 1) = 2 * 2 ^ m := by ring
    have h1 : (2 ^ (m + 1) - 1) % 2 = 1 := by omega
    have h2 : (2 ^ (m + 1) - 1) / 2 = 2 ^ m - 1 := by omega
    rw [bitrev, h1, h2, ih]
    omega

theorem bitrev_low_ones (m : Nat) : bitrev (m + 1) (2 ^ m - 1) = 2 ^ (m + 1) - 2 := by
  have hpos : 0 < 2 ^ m := Nat.two_pow_pos m
  have hp : 2 ^ (m + 1) = 2 * 2 ^ m := by ring
  rw [bitrev_succ_top m _ (by omega), Nat.mod_eq_of_lt (by omega), Nat.div_eq_of_lt (by omega),
    bitrev_ones]
  omega

/-- The entry `revidx[k]` after `fft_init(N)` when `2 ^ m` is the least power
of two that is at least `N`. -/
theorem fft_init_rev_bitrev {K : Type} [Field K] (L : Libm K) (σ : Machine K) (N m k : Nat)
    (hm : N ≤ 2 ^ m) (hmin : ∀ m', m' < m → 2 ^ m' < N) (hk : k < N) :
    (fft_init L N σ).engine.rev k = bitrev m k := by
  rw [fft_init_rev_entry L N σ k hk,
    fft_init_rev_eq N k m 0 0 (fun j _ h => hmin j (by omega)) (by simpa using hm)]
  simp

/-- C16, as stated, fails: for `N = 3`, which is not a power of two,
`fft_init` builds `revidx = [0, 2, 1]`, a permutation of `0..2`: no entry is
`>= 3` and no value is repeated. -/
theorem fft_init_revidx_size3_is_permutation :
    ¬ (∀ (N : Nat) (σ : Machine ℝ), 1 < N → (¬ ∃ m, N = 2 ^ m) →
        (∃ k, k < N ∧ N ≤ (fft_init ⟨Real.pi, Real.cos, Real.sin, Real.sqrt⟩ N σ).engine.rev k) ∨
        (∃ k k', k < N ∧ k' < N ∧ k ≠ k' ∧
          (fft_init ⟨Real.pi, Real.cos, Real.sin, Real.sqrt⟩ N σ).engine.rev k =
            (fft_init ⟨Real.pi, Real.cos, Real.sin, Real.sqrt⟩ N σ).engine.rev k')) := by
  intro h
  have hnp : ¬ ∃ m, 3 = 2 ^ m := by
    rintro ⟨m, hm⟩
    have h2 : m = 0 ∨ m = 1 ∨ 2 ≤ m := by omega
    rcases h2 with rfl | rfl | h2
    · simp at hm
    · simp at hm
    · have : 2 ^ 2 ≤ 2 ^ m := Nat.pow_le_pow_right (by decide) h2
      omega
  have hrev : ∀ k, k < 3 →
      (fft_init ⟨Real.pi, Real.cos, Real.sin, Real.sqrt⟩ 3 rampMachine).engine.rev k =
        bitrev 2 k := by
    intro k hk
    apply fft_init_rev_bitrev _ _ 3 2 k (by decide) _ hk
    intro m' hm'
    have : m' = 0 ∨ m' = 1 := by omega
    rcases this with rfl | rfl <;> decide
  have b0 : bitrev 2 0 = 0 := by decide
  have b1 : bitrev 2 1 = 2 := by decide
  have b2 : bitrev 2 2 = 1 := by decide
  rcases h 3 rampMachine (by decide) hnp with ⟨k, hk, hge⟩ | ⟨k, k', hk, hk', hne, heq⟩
  · rw [hrev k hk] at hge
    have : k = 0 ∨ k = 1 ∨ k = 2 := by omega
    rcases this with rfl | rfl | rfl
    · rw [b0] at hge; omega
    · rw [b1] at hge; omega
    · rw [b2] at hge; omega
  · rw [hrev k hk, hrev k' hk'] at heq
    have c1 : k = 0 ∨ k = 1 ∨ k = 2 := by omega
    have c2 : k' = 0 ∨ k' = 1 ∨ k' = 2 := by omega
    rcases c1 with rfl | rfl | rfl <;> rcases c2 with rfl | rfl | rfl <;>
      simp only [b0, b1, b2] at heq <;> omega

/-- C16, amended. For every size `N > 1` that is neither a power of two nor
one less than a power of two, the `revidx` table built by `fft_init(N)` is
not a permutation of `0..N-1`: some entry is `>= N`. -/
theorem fft_init_revidx_junk {K : Type} [Field K] (L : Libm K) (σ : Machine K) (N : Nat)
    (hN : 1 < N) (hnp : ¬ ∃ m, N = 2 ^ m) (hnm : ¬ ∃ m, N + 1 = 2 ^ m) :
    ∃ k, k < N ∧ N ≤ (fft_init L N σ).engine.rev k := by
  have hlo : 2 ^ Nat.log 2 N ≤ N := Nat.pow_log_le_self 2 (by omega)
  have hhi : N < 2 ^ (Nat.log 2 N + 1) := Nat.lt_pow_succ_log_self (by decide) N
  generalize Nat.log 2 N = m at hlo hhi
  have hlo' : 2 ^ m < N := by
    rcases Nat.lt_or_eq_of_le hlo with h | h
    · exact h
    · exact absurd ⟨m, h.symm⟩ hnp
  have hhi' : N + 2 ≤ 2 ^ (m + 1) := by
    have : N + 1 ≠ 2 ^ (m + 1) := fun h => hnm ⟨m + 1, h⟩
    omega
  have hpos : 0 < 2 ^ m := Nat.two_pow_pos m
  refine ⟨2 ^ m - 1, by omega, ?_⟩
  rw [fft_init_rev_bitrev L σ N (m + 1) (2 ^ m - 1) (by omega) (fun m' hm' =>
    lt_of_le_of_lt (Nat.pow_le_pow_right (by decide) (by omega)) hlo') (by omega),
    bitrev_low_ones]
  omega

theorem fft_init_revidx_junk_witness :
    1 < 5 ∧ (¬ ∃ m, 5 = 2 ^ m) ∧ (¬ ∃ m, 5 + 1 = 2 ^ m) ∧
    ∃ k, k < 5 ∧
      5 ≤ (fft_init ⟨Real.pi, Real.cos, Real.sin, Real.sqrt⟩ 5 rampMachine).engine.rev k :=
  have hnp : ¬ ∃ m, 5 = 2 ^ m := by
    rintro ⟨m, hm⟩
    have h2 : m = 0 ∨ m = 1 ∨ m = 2 ∨ 3 ≤ m := by omega
    rcases h2 with rfl | rfl | rfl | h2
    · simp at hm
    · simp at hm
    · simp at hm
    · have : 2 ^ 3 ≤ 2 ^ m := Nat.pow_le_pow_right (by decide) h2
      omega
  have hnm : ¬ ∃ m, 5 + 1 = 2 ^ m := by
    rintro ⟨m, hm⟩
    have h2 : m = 0 ∨ m = 1 ∨ m = 2 ∨ 3 ≤ m := by omega
    rcases h2 with rfl | rfl | rfl | h2
    · simp at hm
    · simp at hm
    · simp at hm
    · have : 2 ^ 3 ≤ 2 ^ m := Nat.pow_le_pow_right (by decide) h2
      omega
  ⟨by decide, hnp, hnm,
    fft_init_revidx_junk ⟨Real.pi, Real.cos, Real.sin, Real.sqrt⟩ rampMachine 5 (by decide)
      hnp hnm⟩

/-- C19. For a power of two `N` the table `revidx` built by `fft_init(N)` is
an involutive permutation of `[0, N)`: `revidx[k] < N` and
`revidx[revidx[k]] = k`; every slot `p < N` is the target `revidx[i]` of
exactly one `i < N`; and after the permutation loop of `fft_transform` on
disjoint buffers slot `p` of `dst` holds `src[revidx[p]]`. -/
theorem fft_init_revidx_involution (N : Nat) (hN : ∃ m, N = 2 ^ m) (σ : Machine ℝ) :
    (∀ k, k < N →
      (fft_init ⟨Real.pi, Real.cos, Real.sin, Real.sqrt⟩ N σ).engine.rev k < N ∧
      (fft_init ⟨Real.pi, Real.cos, Real.sin, Real.sqrt⟩ N σ).engine.rev
        ((fft_init ⟨Real.pi, Real.cos, Real.sin, Real.sqrt⟩ N σ).engine.rev k) = k) ∧
    (∀ p, p < N → ∃! i, i < N ∧
      (fft_init ⟨Real.pi, Real.cos, Real.sin, Real.sqrt⟩ N σ).engine.rev i = p) ∧
    (∀ (src res : Nat) (mem : Mem ℝ), (src + 2 * N ≤ res ∨ res + 2 * N ≤ src) →
      ∀ p, p < N →
        cplx (forLoop N (fft_permute_step
          (fft_init ⟨Real.pi, Real.cos, Real.sin, Real.sqrt⟩ N σ).engine src res) mem) res p =
        cplx mem src ((fft_init ⟨Real.pi, Real.cos, Real.sin, Real.sqrt⟩ N σ).engine.rev p)) := by
  obtain ⟨m, rfl⟩ := hN
  have hr := fft_init_ready σ m
  have hrev := hr.2.1
  have hlt : ∀ i, i < 2 ^ m →
      (fft_init ⟨Real.pi, Real.cos, Real.sin, Real.sqrt⟩ (2 ^ m) σ).engine.rev i < 2 ^ m :=
    fun i hi => by rw [hrev i hi]; exact bitrev_lt m i
  have hinv : ∀ k, k < 2 ^ m →
      (fft_init ⟨Real.pi, Real.cos, Real.sin, Real.sqrt⟩ (2 ^ m) σ).engine.rev
        ((fft_init ⟨Real.pi, Real.cos, Real.sin, Real.sqrt⟩ (2 ^ m) σ).engine.rev k) = k := by
    intro k hk
    rw [hrev k hk, hrev _ (bitrev_lt m k), bitrev_bitrev m k hk]
  have hinj : ∀ i i', i < 2 ^ m → i' < 2 ^ m →
      (fft_init ⟨Real.pi, Real.cos, Real.sin, Real.sqrt⟩ (2 ^ m) σ).engine.rev i =
        (fft_init ⟨Real.pi, Real.cos, Real.sin, Real.sqrt⟩ (2 ^ m) σ).engine.rev i' → i = i' := by
    intro i i' hi hi' h
    rw [← hinv i hi, ← hinv i' hi', h]
  refine ⟨fun k hk => ⟨hlt k hk, hinv k hk⟩, ?_, ?_⟩
  · intro p hp
    refine ⟨_, ⟨hlt p hp, hinv p hp⟩, ?_⟩
    rintro i ⟨hi, hip⟩
    rw [← hip, hinv i hi]
  · intro src res mem hdisj p hp
    obtain ⟨hperm, _⟩ := perm_loop _ src res (2 ^ m) hlt hinj hdisj mem (2 ^ m) (le_refl _)
    have := hperm _ (hlt p hp)
    rw [hinv p hp] at this
    exact this

theorem fft_init_revidx_involution_witness :
    (∃ m, 8 = 2 ^ m) ∧
    ((∀ k, k < 8 →
      (fft_init ⟨Real.pi, Real.cos, Real.sin, Real.sqrt⟩ 8 rampMachine).engine.rev k < 8 ∧
      (fft_init ⟨Real.pi, Real.cos, Real.sin, Real.sqrt⟩ 8 rampMachine).engine.rev
        ((fft_init ⟨Real.pi, Real.cos, Real.sin, Real.sqrt⟩ 8 rampMachine).engine.rev k) = k) ∧
    (∀ p, p < 8 → ∃! i, i < 8 ∧
      (fft_init ⟨Real.pi, Real.cos, Real.sin, Real.sqrt⟩ 8 rampMachine).engine.rev i = p) ∧
    (∀ (src res : Nat) (mem : Mem ℝ), (src + 2 * 8 ≤ res ∨ res + 2 * 8 ≤ src) →
      ∀ p, p < 8 →
        cplx (forLoop 8 (fft_permute_step
          (fft_init ⟨Real.pi, Real.cos, Real.sin, Real.sqrt⟩ 8 rampMachine).engine src res)
            mem) res p =
        cplx mem src
          ((fft_init ⟨Real.pi, Real.cos, Real.sin, Real.sqrt⟩ 8 rampMachine).engine.rev p))) :=
  ⟨⟨3, rfl⟩, fft_init_revidx_involution 8 ⟨3, rfl⟩ rampMachine⟩

/-- C20. For a power of two `N`, the output of `fft_transform` does not depend
on what `dst` held before the call: two runs whose memories agree on the `2N`
scalars of `src` (with `dst` disjoint from `src`) end with the same `2N`
scalars in `dst`. -/
theorem fft_transform_independent_of_dst (N : Nat) (hN : ∃ m, N = 2 ^ m) (src res : Nat)
    (hdisj : src + 2 * N ≤ res ∨ res + 2 * N ≤ src) (σ₁ σ₂ : Machine ℝ)
    (hsrc : ∀ i, i < 2 * N → σ₁.heap (src + i) = σ₂.heap (src + i)) (i : Nat) (hi : i < 2 * N) :
    (fft_transform ⟨Real.pi, Real.cos, Real.sin, Real.sqrt⟩ src res
      (fft_init ⟨Real.pi, Real.cos, Real.sin, Real.sqrt⟩ N σ₁)).heap (res + i) =
    (fft_transform ⟨Real.pi, Real.cos, Real.sin, Real.sqrt⟩ src res
      (fft_init ⟨Real.pi, Real.cos, Real.sin, Real.sqrt⟩ N σ₂)).heap (res + i) := by
  obtain ⟨m, rfl⟩ := hN
  have key : ∀ p, p < 2 ^ m →
      cplx (fft_transform ⟨Real.pi, Real.cos, Real.sin, Real.sqrt⟩ src res
        (fft_init ⟨Real.pi, Real.cos, Real.sin, Real.sqrt⟩ (2 ^ m) σ₁)).heap res p =
      cplx (fft_transform ⟨Real.pi, Real.cos, Real.sin, Real.sqrt⟩ src res
        (fft_init ⟨Real.pi, Real.cos, Real.sin, Real.sqrt⟩ (2 ^ m) σ₂)).heap res p := by
    intro p hp
    have h1 := fft_forward_cplx ⟨Real.pi, Real.cos, Real.sin, Real.sqrt⟩ m _ _
      (fft_init_ready σ₁ m) src res hdisj p hp
    have h2 := fft_forward_cplx ⟨Real.pi, Real.cos, Real.sin, Real.sqrt⟩ m _ _
      (fft_init_ready σ₂ m) src res hdisj p hp
    rw [fft_init_heap] at h1 h2
    have hx : ∀ q, q ∈ Finset.range (2 ^ m) → cplx σ₁.heap src q = cplx σ₂.heap src q := by
      intro q hq
      have hq' := Finset.mem_range.1 hq
      exact cplx_congr _ _ src q (hsrc _ (by omega)) (hsrc _ (by omega))
    rw [Finset.sum_congr rfl (fun q hq => by rw [hx q hq])] at h1
    exact h1.trans h2.symm
  have hk := key (i / 2) (by omega)
  rcases Nat.mod_two_eq_zero_or_one i with h | h
  · have e : i = 2 * (i / 2) := by omega
    have := congrArg Complex.re hk
    simp only [cplx] at this
    rw [e]
    exact this
  · have e : i = 2 * (i / 2) + 1 := by omega
    have := congrArg Complex.im hk
    simp only [cplx] at this
    rw [e]
    exact this

theorem fft_transform_independent_of_dst_witness :
    (∃ m, 2 = 2 ^ m) ∧ ((0 + 2 * 2 ≤ 4) ∨ (4 + 2 * 2 ≤ 0)) ∧
    (∀ i, i < 2 * 2 → impulseMachine.heap (0 + i) =
      (⟨fft_data.zero ℝ, fun a => if a = 0 then 1 else if a < 4 then 0 else 7⟩ :
        Machine ℝ).heap (0 + i)) ∧ 3 < 2 * 2 ∧
    (fft_transform ⟨Real.pi, Real.cos, Real.sin, Real.sqrt⟩ 0 4
      (fft_init ⟨Real.pi, Real.cos, Real.sin, Real.sqrt⟩ 2 impulseMachine)).heap (4 + 3) =
    (fft_transform ⟨Real.pi, Real.cos, Real.sin, Real.sqrt⟩ 0 4
      (fft_init ⟨Real.pi, Real.cos, Real.sin, Real.sqrt⟩ 2
        ⟨fft_data.zero ℝ, fun a => if a = 0 then 1 else if a < 4 then 0 else 7⟩)).heap (4 + 3) :=
  have hsrc : ∀ i, i < 2 * 2 → impulseMachine.heap (0 + i) =
      (⟨fft_data.zero ℝ, fun a => if a = 0 then 1 else if a < 4 then 0 else 7⟩ :
        Machine ℝ).heap (0 + i) := by
    intro i hi
    have hcases : i = 0 ∨ i = 1 ∨ i = 2 ∨ i = 3 := by omega
    rcases hcases with rfl | rfl | rfl | rfl <;> simp [impulseMachine]
  ⟨⟨1, rfl⟩, Or.inl (by decide), hsrc, by decide,
    fft_transform_independent_of_dst 2 ⟨1, rfl⟩ 0 4 (Or.inl (by decide)) impulseMachine
      ⟨fft_data.zero ℝ, fun a => if a = 0 then 1 else if a < 4 then 0 else 7⟩ hsrc 3
      (by decide)⟩

/-! ## Size 5: the permutation loop and slot 2 of the output -/

/-- The permutation loop when the table entries are below a bound `B` that
may exceed `n`: the cells it writes lie in `res[0 .. 2B)`. -/
theorem perm_loop_wide (e : fft_data ℝ) (src res n B : Nat)
    (hlt : ∀ i, i < n → e.rev i < B)
    (hinj : ∀ i i', i < n → i' < n → e.rev i = e.rev i' → i = i')
    (hdisj : src + 2 * n ≤ res ∨ res + 2 * B ≤ src) (mem : Mem ℝ) (c : Nat) (hc : c ≤ n) :
    (∀ i, i < c → cplx (forLoop c (fft_permute_step e src res) mem) res (e.rev i) = cplx mem src i) ∧
    (∀ a, (∀ i, i < c → a ≠ res + 2 * e.rev i ∧ a ≠ res + 2 * e.rev i + 1) →
      forLoop c (fft_permute_step e src res) mem a = mem a) := by
  induction c with
  | zero => exact ⟨fun i hi => by omega, fun a _ => rfl⟩
  | succ c ih =>
    obtain ⟨ih1, ih2⟩ := ih (by omega)
    have hrc := hlt c (by omega)
    have hsrc : ∀ a, src ≤ a → a < src + 2 * n →
        forLoop c (fft_permute_step e src res) mem a = mem a := by
      intro a h1 h2
      apply ih2
      intro i hi
      have := hlt i (by omega)
      omega
    constructor
    · intro i hi
      rw [forLoop_succ]
      simp only [fft_permute_step, cplx, store_apply]
      by_cases hic : i = c
      · subst hic
        apply Complex.ext
        · simp only []
          rw [if_neg (by omega), if_pos (by omega), hsrc _ (by omega) (by omega)]
          congr 1
          omega
        · simp only []
          rw [if_pos (by omega), if_neg (by omega), hsrc _ (by omega) (by omega)]
          congr 1
          omega
      · have hne : e.rev i ≠ e.rev c := fun h => hic (hinj i c (by omega) (by omega) h)
        have h1 := ih1 i (by omega)
        simp only [cplx] at h1
        rw [← h1]
        apply Complex.ext
        · simp only []
          rw [if_neg (by omega), if_neg (by omega)]
        · simp only []
          rw [if_neg (by omega), if_neg (by omega)]
    · intro a ha
      rw [forLoop_succ]
      simp only [fft_permute_step, store_apply]
      have hac := ha c (by omega)
      rw [if_neg (by omega), if_neg (by omega)]
      exact ih2 a (fun i hi => ha i (by omega))

/-- The table `revidx` built by `fft_init(5)` is `[0, 4, 2, 6, 1]`. -/
theorem fft_init_rev_size5 {K : Type} [Field K] (L : Libm K) (σ : Machine K) :
    (fft_init L 5 σ).engine.rev 0 = 0 ∧ (fft_init L 5 σ).engine.rev 1 = 4 ∧
    (fft_init L 5 σ).engine.rev 2 = 2 ∧ (fft_init L 5 σ).engine.rev 3 = 6 ∧
    (fft_init L 5 σ).engine.rev 4 = 1 := by
  have h := fun k hk => fft_init_rev_bitrev L σ 5 3 k (by decide) (by decide) hk
  refine ⟨?_, ?_, ?_, ?_, ?_⟩
  · rw [h 0 (by decide)]; rfl
  · rw [h 1 (by decide)]; rfl
  · rw [h 2 (by decide)]; rfl
  · rw [h 3 (by decide)]; rfl
  · rw [h 4 (by decide)]; rfl

/-- The permutation loop of size 5: slots 0, 1, 2 of `res` receive the inputs
0, 4, 2, slot 6 (past the buffer) receives input 3, and slot 3 is not
written. -/
theorem perm_loop_size5 (e : fft_data ℝ)
    (hrev : e.rev 0 = 0 ∧ e.rev 1 = 4 ∧ e.rev 2 = 2 ∧ e.rev 3 = 6 ∧ e.rev 4 = 1)
    (src res : Nat) (hdisj : src + 10 ≤ res ∨ res + 16 ≤ src) (mem : Mem ℝ) :
    cplx (forLoop 5 (fft_permute_step e src res) mem) res 0 = cplx mem src 0 ∧
    cplx (forLoop 5 (fft_permute_step e src res) mem) res 1 = cplx mem src 4 ∧
    cplx (forLoop 5 (fft_permute_step e src res) mem) res 2 = cplx mem src 2 ∧
    cplx (forLoop 5 (fft_permute_step e src res) mem) res 3 = cplx mem res 3 ∧
    cplx (forLoop 5 (fft_permute_step e src res) mem) res 6 = cplx mem src 3 := by
  obtain ⟨r0, r1, r2, r3, r4⟩ := hrev
  have hlt : ∀ i, i < 5 → e.rev i < 8 := by
    intro i hi
    interval_cases i <;> simp [r0, r1, r2, r3, r4]
  have hinj : ∀ i i', i < 5 → i' < 5 → e.rev i = e.rev i' → i = i' := by
    intro i i' hi hi'
    interval_cases i <;> interval_cases i' <;> simp [r0, r1, r2, r3, r4]
  obtain ⟨h1, h2⟩ := perm_loop_wide e src res 5 8 hlt hinj (by omega) mem 5 (le_refl _)
  have a0 := h1 0 (by decide)
  have a1 := h1 4 (by decide)
  have a2 := h1 2 (by decide)
  have a3 := h1 3 (by decide)
  rw [r0] at a0
  rw [r4] at a1
  rw [r2] at a2
  rw [r3] at a3
  refine ⟨a0, a1, a2, ?_, a3⟩
  apply cplx_congr
  · apply h2
    intro i hi
    interval_cases i <;> simp only [r0, r1, r2, r3, r4] <;> omega
  · apply h2
    intro i hi
    interval_cases i <;> simp only [r0, r1, r2, r3, r4] <;> omega

/-- At size 5 the stage loop runs the stages `s = 2` and `s = 4`. -/
theorem fft_stage_loop_size5 (e : fft_data ℝ) (res : Nat) (mem : Mem ℝ) :
    fft_stage_loop e res 5 2 (by decide) mem =
      fft_twiddle_loop e res 5 (2 * 2) 0 (fft_twiddle_loop e res 5 (2 * 1) 0 mem) := by
  rw [fft_stage_loop, if_pos (by decide), fft_stage_loop, if_pos (by decide), fft_stage_loop,
    if_neg (by decide)]

/-- Slot 2 of the output of the size-5 transform: only the twiddle `uroots[0],
uroots[1]` enters, and slot 3 of `res`, which the permutation loop never
writes, is read with its value from before the call. -/
theorem fft_transform_size5_slot2 (L : Libm ℝ) (e : fft_data ℝ) (hsize : e.size = 5)
    (hrev : e.rev 0 = 0 ∧ e.rev 1 = 4 ∧ e.rev 2 = 2 ∧ e.rev 3 = 6 ∧ e.rev 4 = 1)
    (h0 : e.root 0 = 1) (h1 : e.root 1 = 0)
    (src res : Nat) (hdisj : src + 10 ≤ res ∨ res + 16 ≤ src) (mem : Mem ℝ) :
    cplx (fft_transform_mem L e src res mem) res 2 =
      (cplx mem src 0 + cplx mem src 4 - cplx mem src 2 - cplx mem res 3) *
        ((1 / L.sqrtf ((5 : Nat) : ℝ) : ℝ) : ℂ) := by
  obtain ⟨p0, p1, p2, p3, _⟩ := perm_loop_size5 e hrev src res hdisj mem
  have hscale : ∀ M : Mem ℝ, cplx (forLoop (2 * 5)
      (fun i mem => store mem (res + i) (mem (res + i) * (1 / L.sqrtf ((5 : Nat) : ℝ)))) M) res 2 =
      cplx M res 2 * ((1 / L.sqrtf ((5 : Nat) : ℝ) : ℝ) : ℂ) := by
    intro M
    apply Complex.ext
    · simp only [cplx, scale_loop, Complex.mul_re, Complex.ofReal_re, Complex.ofReal_im, mul_zero,
        sub_zero]
      rw [if_pos (by omega)]
    · simp only [cplx, scale_loop, Complex.mul_im, Complex.ofReal_re, Complex.ofReal_im, mul_zero,
        zero_add]
      rw [if_pos (by omega)]
  have hw : (⟨e.root ((5 / (2 * 1) * 0) % 5 * 2), -e.root ((5 / (2 * 1) * 0) % 5 * 2 + 1)⟩ : ℂ) = 1 := by
    have : (5 / (2 * 1) * 0) % 5 * 2 = 0 := by decide
    rw [this, h0, h1]
    apply Complex.ext <;> simp
  have hw2 : (⟨e.root ((5 / (2 * 2) * 0) % 5 * 2), -e.root ((5 / (2 * 2) * 0) % 5 * 2 + 1)⟩ : ℂ) = 1 := by
    have : (5 / (2 * 2) * 0) % 5 * 2 = 0 := by decide
    rw [this, h0, h1]
    apply Complex.ext <;> simp
  -- stage s = 2
  have key1 : ∀ M : Mem ℝ, fft_twiddle_loop e res 5 (2 * 1) 0 M =
      forLoop 1 (fun k mem => forLoop (5 / (2 * 1))
        (fft_butterfly res (2 * 1) k (e.root ((5 / (2 * 1) * k) % 5 * 2))
          (-e.root ((5 / (2 * 1) * k) % 5 * 2 + 1))) mem) M :=
    fun M => fft_twiddle_loop_eq e res 5 1 1 0 rfl M
  have s1 : ∀ (M : Mem ℝ) (j : Nat), j < 2 →
      cplx (fft_twiddle_loop e res 5 (2 * 1) 0 M) res (j * (2 * 1) + 0) =
        cplx M res (j * (2 * 1) + 0) + cplx M res (j * (2 * 1) + 0 + 1) := by
    intro M j hj
    rw [key1, cplx_stage res 1 (5 / (2 * 1)) _ _ M 1 (le_refl _) j 0 (by decide),
      if_pos ⟨by simpa using hj, by decide⟩, hw, mul_one (cplx M res _)]
  -- stage s = 4
  have key2 : ∀ M : Mem ℝ, fft_twiddle_loop e res 5 (2 * 2) 0 M =
      forLoop 2 (fun k mem => forLoop (5 / (2 * 2))
        (fft_butterfly res (2 * 2) k (e.root ((5 / (2 * 2) * k) % 5 * 2))
          (-e.root ((5 / (2 * 2) * k) % 5 * 2 + 1))) mem) M :=
    fun M => fft_twiddle_loop_eq e res 5 2 2 0 rfl M
  have s2 : ∀ M : Mem ℝ, cplx (fft_twiddle_loop e res 5 (2 * 2) 0 M) res (0 * (2 * 2) + 2) =
      cplx M res (0 * (2 * 2) + (2 - 2)) - cplx M res (0 * (2 * 2) + 2) := by
    intro M
    rw [key2, cplx_stage res 2 (5 / (2 * 2)) _ _ M 2 (le_refl _) 0 2 (by decide),
      if_neg (by decide), if_pos ⟨by decide, by decide, by decide⟩]
    have : (2 : Nat) - 2 = 0 := rfl
    rw [this, hw2, mul_one (cplx M res _)]
  unfold fft_transform_mem
  simp only [hsize]
  rw [hscale, fft_stage_loop_size5]
  have e2 := s2 (fft_twiddle_loop e res 5 (2 * 1) 0 (forLoop 5 (fft_permute_step e src res) mem))
  have e10 := s1 (forLoop 5 (fft_permute_step e src res) mem) 0 (by decide)
  have e11 := s1 (forLoop 5 (fft_permute_step e src res) mem) 1 (by decide)
  simp only [Nat.zero_mul, Nat.one_mul, Nat.zero_add, Nat.add_zero, Nat.sub_self, Nat.mul_one] at e2 e10 e11
  rw [e2, e10, e11, p0, p1, p2, p3]
  ring

/-! ## Re-initialisation (C12) -/

/-- The first twiddle factor of every table is `cos 0 = 1`, `sin 0 = 0`. -/
theorem fft_init_root_zero (N : Nat) (hN : 0 < N) (σ : Machine ℝ) :
    (fft_init ⟨Real.pi, Real.cos, Real.sin, Real.sqrt⟩ N σ).engine.root 0 = 1 ∧
    (fft_init ⟨Real.pi, Real.cos, Real.sin, Real.sqrt⟩ N σ).engine.root 1 = 0 := by
  obtain ⟨h1, h2⟩ := fft_init_root_entry ⟨Real.pi, Real.cos, Real.sin, Real.sqrt⟩ N σ 0 hN
  simp only [Nat.mul_zero, Nat.zero_add, Nat.cast_zero, mul_zero, zero_div, Real.cos_zero,
    Real.sin_zero] at h1 h2
  exact ⟨h1, h2⟩

/-- The size-4 forward transform of a unit impulse, slot by slot. -/
theorem fft_forward_impulse_cplx (src res : Nat) (hdisj : src + 8 ≤ res ∨ res + 8 ≤ src)
    (σ : Machine ℝ) (hx0 : cplx σ.heap src 0 = 1)
    (hxq : ∀ q, 0 < q → q < 4 → cplx σ.heap src q = 0) (k : Nat) (hk : k < 4) :
    cplx (fft_forward ⟨Real.pi, Real.cos, Real.sin, Real.sqrt⟩ src res
      (fft_init ⟨Real.pi, Real.cos, Real.sin, Real.sqrt⟩ 4 σ)).heap res k = ((1 / 2 : ℝ) : ℂ) := by
  have hr := fft_init_ready σ 2
  have hsqrt : Real.sqrt (((4 : ℕ) : ℝ)) = 2 := by
    have : (((4 : ℕ) : ℝ)) = 2 ^ 2 := by norm_num
    rw [this, Real.sqrt_sq (by norm_num)]
  have h : cplx (fft_forward ⟨Real.pi, Real.cos, Real.sin, Real.sqrt⟩ src res
      (fft_init ⟨Real.pi, Real.cos, Real.sin, Real.sqrt⟩ 4 σ)).heap res k =
      (∑ q in Finset.range 4, cplx
        (fft_init ⟨Real.pi, Real.cos, Real.sin, Real.sqrt⟩ 4 σ).heap src q *
        Complex.exp (-(2 * Real.pi / ((4 : ℕ) : ℝ) : ℝ) * Complex.I) ^ (q * k)) *
        ((1 / Real.sqrt ((4 : ℕ) : ℝ) : ℝ) : ℂ) :=
    fft_forward_cplx ⟨Real.pi, Real.cos, Real.sin, Real.sqrt⟩ 2 _ _ hr src res (by omega) k hk
  rw [h, fft_init_heap, hsqrt]
  simp only [Finset.sum_range_succ, Finset.sum_range_zero, hx0, hxq 1 (by decide) (by decide),
    hxq 2 (by decide) (by decide), hxq 3 (by decide) (by decide)]
  simp

/-- C12, as stated, fails for `B = 5`.  Both histories start from the same
memory, a unit impulse at address 0, and use `src = 0`, `dst = 20`; the first
transform (size 4) leaves the signal in `src[0 .. 10)` as it was.  At size 5
`revidx = [0, 4, 2, 6, 1]`, so the permutation loop never writes slot 3 of
`dst`, and the butterflies read it: after `fft_init(4); fft_transform;
fft_init(5); fft_transform` it still holds the `0.5` of the first transform,
on the engine that only saw `fft_init(5)` it holds `0`, and `dst[4]` comes
out as `0.5 / sqrt 5` in one history and `1 / sqrt 5` in the other. -/
theorem fft_reinit_output_differs_size5 :
    ¬ (∀ (A B srcA resA src res : Nat) (σ : Machine ℝ), 0 < A → 0 < B →
        (srcA + 2 * A ≤ resA ∨ resA + 2 * A ≤ srcA) →
        (src + 2 * B ≤ res ∨ res + 2 * B ≤ src) →
        (∀ i, i < 2 * B →
          (fft_transform ⟨Real.pi, Real.cos, Real.sin, Real.sqrt⟩ srcA resA
            (fft_init ⟨Real.pi, Real.cos, Real.sin, Real.sqrt⟩ A σ)).heap (src + i) =
            σ.heap (src + i)) →
        (fft_init ⟨Real.pi, Real.cos, Real.sin, Real.sqrt⟩ B
          (fft_transform ⟨Real.pi, Real.cos, Real.sin, Real.sqrt⟩ srcA resA
            (fft_init ⟨Real.pi, Real.cos, Real.sin, Real.sqrt⟩ A σ))).engine =
          (fft_init ⟨Real.pi, Real.cos, Real.sin, Real.sqrt⟩ B ⟨fft_data.zero ℝ, σ.heap⟩).engine ∧
        ∀ i, i < 2 * B →
          (fft_transform ⟨Real.pi, Real.cos, Real.sin, Real.sqrt⟩ src res
            (fft_init ⟨Real.pi, Real.cos, Real.sin, Real.sqrt⟩ B
              (fft_transform ⟨Real.pi, Real.cos, Real.sin, Real.sqrt⟩ srcA resA
                (fft_init ⟨Real.pi, Real.cos, Real.sin, Real.sqrt⟩ A σ)))).heap (res + i) =
          (fft_transform ⟨Real.pi, Real.cos, Real.sin, Real.sqrt⟩ src res
            (fft_init ⟨Real.pi, Real.cos, Real.sin, Real.sqrt⟩ B
              ⟨fft_data.zero ℝ, σ.heap⟩)).heap (res + i)) := by
  intro hall
  -- the first transform does not touch the cells below `dst = 20`
  have hframe : ∀ a, a < 20 →
      (fft_transform ⟨Real.pi, Real.cos, Real.sin, Real.sqrt⟩ 0 20
        (fft_init ⟨Real.pi, Real.cos, Real.sin, Real.sqrt⟩ 4 impulseMachine)).heap a =
        impulseMachine.heap a := by
    intro a ha
    have := fft_forward_frame ⟨Real.pi, Real.cos, Real.sin, Real.sqrt⟩ 2 _ _
      (fft_init_ready impulseMachine 2) 0 20 a (Or.inl ha)
    rw [fft_init_heap] at this
    exact this
  obtain ⟨_, hout⟩ := hall 4 5 0 20 0 20 impulseMachine (by decide) (by decide)
    (Or.inl (by decide)) (Or.inl (by decide)) (fun i hi => hframe (0 + i) (by omega))
  have h4 := hout 4 (by decide)
  generalize hτ : fft_transform ⟨Real.pi, Real.cos, Real.sin, Real.sqrt⟩ 0 20
    (fft_init ⟨Real.pi, Real.cos, Real.sin, Real.sqrt⟩ 4 impulseMachine) = τ at h4 hframe
  -- slot 3 of `dst` after the first transform
  have hd3 : cplx τ.heap 20 3 = ((1 / 2 : ℝ) : ℂ) := by
    rw [← hτ]
    refine fft_forward_impulse_cplx 0 20 (Or.inl (by decide)) impulseMachine ?_ ?_ 3 (by decide)
    · apply Complex.ext <;> simp [cplx, impulseMachine]
    · intro q h0 _
      have hq : q ≠ 0 := by omega
      apply Complex.ext <;> simp [cplx, impulseMachine, hq]
  have hx0 : cplx τ.heap 0 0 = 1 := by
    apply Complex.ext
    · simp only [cplx]; rw [hframe _ (by decide)]; simp [impulseMachine]
    · simp only [cplx]; rw [hframe _ (by decide)]; simp [impulseMachine]
  have hx4 : cplx τ.heap 0 4 = 0 := by
    apply Complex.ext
    · simp only [cplx]; rw [hframe _ (by decide)]; simp [impulseMachine]
    · simp only [cplx]; rw [hframe _ (by decide)]; simp [impulseMachine]
  have hx2 : cplx τ.heap 0 2 = 0 := by
    apply Complex.ext
    · simp only [cplx]; rw [hframe _ (by decide)]; simp [impulseMachine]
    · simp only [cplx]; rw [hframe _ (by decide)]; simp [impulseMachine]
  have hy0 : cplx impulseMachine.heap 0 0 = 1 := by
    apply Complex.ext <;> simp [cplx, impulseMachine]
  have hy4 : cplx impulseMachine.heap 0 4 = 0 := by
    apply Complex.ext <;> simp [cplx, impulseMachine]
  have hy2 : cplx impulseMachine.heap 0 2 = 0 := by
    apply Complex.ext <;> simp [cplx, impulseMachine]
  have hy3 : cplx impulseMachine.heap 20 3 = 0 := by
    apply Complex.ext <;> simp [cplx, impulseMachine]
  -- slot 2 of the output in the two histories
  have o1 := fft_transform_size5_slot2 ⟨Real.pi, Real.cos, Real.sin, Real.sqrt⟩
    (fft_init ⟨Real.pi, Real.cos, Real.sin, Real.sqrt⟩ 5 τ).engine rfl
    (fft_init_rev_size5 _ τ) (fft_init_root_zero 5 (by decide) τ).1
    (fft_init_root_zero 5 (by decide) τ).2 0 20 (Or.inl (by decide)) τ.heap
  have o2 := fft_transform_size5_slot2 ⟨Real.pi, Real.cos, Real.sin, Real.sqrt⟩
    (fft_init ⟨Real.pi, Real.cos, Real.sin, Real.sqrt⟩ 5
      ⟨fft_data.zero ℝ, impulseMachine.heap⟩).engine rfl
    (fft_init_rev_size5 _ _) (fft_init_root_zero 5 (by decide) _).1
    (fft_init_root_zero 5 (by decide) _).2 0 20 (Or.inl (by decide)) impulseMachine.heap
  rw [hx0, hx4, hx2, hd3] at o1
  rw [hy0, hy4, hy2, hy3] at o2
  have r1 := congrArg Complex.re o1
  have r2 := congrArg Complex.re o2
  simp only [cplx] at r1 r2
  have e1 : (fft_transform ⟨Real.pi, Real.cos, Real.sin, Real.sqrt⟩ 0 20
      (fft_init ⟨Real.pi, Real.cos, Real.sin, Real.sqrt⟩ 5 τ)).heap (20 + 4) =
      fft_transform_mem ⟨Real.pi, Real.cos, Real.sin, Real.sqrt⟩
        (fft_init ⟨Real.pi, Real.cos, Real.sin, Real.sqrt⟩ 5 τ).engine 0 20 τ.heap (20 + 2 * 2) := by
    simp only [fft_transform, fft_init_heap]
  have e2 : (fft_transform ⟨Real.pi, Real.cos, Real.sin, Real.sqrt⟩ 0 20
      (fft_init ⟨Real.pi, Real.cos, Real.sin, Real.sqrt⟩ 5
        ⟨fft_data.zero ℝ, impulseMachine.heap⟩)).heap (20 + 4) =
      fft_transform_mem ⟨Real.pi, Real.cos, Real.sin, Real.sqrt⟩
        (fft_init ⟨Real.pi, Real.cos, Real.sin, Real.sqrt⟩ 5
          ⟨fft_data.zero ℝ, impulseMachine.heap⟩).engine 0 20 impulseMachine.heap (20 + 2 * 2) := by
    simp only [fft_transform, fft_init_heap]
  rw [e1, e2, r1, r2] at h4
  have hpos : (0 : ℝ) < Real.sqrt ((5 : ℕ) : ℝ) := Real.sqrt_pos.2 (by norm_num)
  have hne : (1 / Real.sqrt ((5 : ℕ) : ℝ)) ≠ 0 := by positivity
  simp only [Complex.mul_re, Complex.ofReal_re, Complex.ofReal_im, mul_zero, sub_zero,
    Complex.sub_re, Complex.add_re, Complex.one_re, Complex.zero_re, add_zero] at h4
  apply hne
  linarith

/-- C12, amended.  For all sizes `A` and `B` the engine (size, `revidx`,
`uroots`) after `fft_init(A)`, a transform of length `A`, then `fft_init(B)`
equals the engine after `fft_init(B)` alone on a fresh engine.  For a power of
two `B`, a subsequent `fft_transform` of a length-`B` signal, held in a `src`
disjoint from `dst` and left as it was by the first transform, writes the same
`2B` scalars into `dst` in both histories. -/
theorem fft_reinit_same_output (A B : Nat) (hB : ∃ m, B = 2 ^ m) (srcA resA src res : Nat)
    (σ : Machine ℝ) (hdisj : src + 2 * B ≤ res ∨ res + 2 * B ≤ src)
    (hsig : ∀ i, i < 2 * B →
      (fft_transform ⟨Real.pi, Real.cos, Real.sin, Real.sqrt⟩ srcA resA
        (fft_init ⟨Real.pi, Real.cos, Real.sin, Real.sqrt⟩ A σ)).heap (src + i) =
        σ.heap (src + i)) :
    (∀ B' : Nat,
      (fft_init ⟨Real.pi, Real.cos, Real.sin, Real.sqrt⟩ B'
        (fft_transform ⟨Real.pi, Real.cos, Real.sin, Real.sqrt⟩ srcA resA
          (fft_init ⟨Real.pi, Real.cos, Real.sin, Real.sqrt⟩ A σ))).engine =
        (fft_init ⟨Real.pi, Real.cos, Real.sin, Real.sqrt⟩ B' ⟨fft_data.zero ℝ, σ.heap⟩).engine) ∧
    ∀ i, i < 2 * B →
      (fft_transform ⟨Real.pi, Real.cos, Real.sin, Real.sqrt⟩ src res
        (fft_init ⟨Real.pi, Real.cos, Real.sin, Real.sqrt⟩ B
          (fft_transform ⟨Real.pi, Real.cos, Real.sin, Real.sqrt⟩ srcA resA
            (fft_init ⟨Real.pi, Real.cos, Real.sin, Real.sqrt⟩ A σ)))).heap (res + i) =
      (fft_transform ⟨Real.pi, Real.cos, Real.sin, Real.sqrt⟩ src res
        (fft_init ⟨Real.pi, Real.cos, Real.sin, Real.sqrt⟩ B
          ⟨fft_data.zero ℝ, σ.heap⟩)).heap (res + i) := by
  refine ⟨fun _ => rfl, ?_⟩
  obtain ⟨m, rfl⟩ := hB
  generalize fft_transform ⟨Real.pi, Real.cos, Real.sin, Real.sqrt⟩ srcA resA
    (fft_init ⟨Real.pi, Real.cos, Real.sin, Real.sqrt⟩ A σ) = τ at hsig ⊢
  have key : ∀ p, p < 2 ^ m →
      cplx (fft_transform ⟨Real.pi, Real.cos, Real.sin, Real.sqrt⟩ src res
        (fft_init ⟨Real.pi, Real.cos, Real.sin, Real.sqrt⟩ (2 ^ m) τ)).heap res p =
      cplx (fft_transform ⟨Real.pi, Real.cos, Real.sin, Real.sqrt⟩ src res
        (fft_init ⟨Real.pi, Real.cos, Real.sin, Real.sqrt⟩ (2 ^ m)
          ⟨fft_data.zero ℝ, σ.heap⟩)).heap res p := by
    intro p hp
    have h1 := fft_forward_cplx ⟨Real.pi, Real.cos, Real.sin, Real.sqrt⟩ m _ _
      (fft_init_ready τ m) src res hdisj p hp
    have h2 := fft_forward_cplx ⟨Real.pi, Real.cos, Real.sin, Real.sqrt⟩ m _ _
      (fft_init_ready ⟨fft_data.zero ℝ, σ.heap⟩ m) src res hdisj p hp
    rw [fft_init_heap] at h1 h2
    have hx : ∀ q, q ∈ Finset.range (2 ^ m) → cplx τ.heap src q = cplx σ.heap src q := by
      intro q hq
      have hq' := Finset.mem_range.1 hq
      exact cplx_congr _ _ src q (hsig _ (by omega)) (hsig _ (by omega))
    rw [Finset.sum_congr rfl (fun q hq => by rw [hx q hq])] at h1
    exact h1.trans h2.symm
  intro i hi
  have hk := key (i / 2) (by omega)
  rcases Nat.mod_two_eq_zero_or_one i with h | h
  · have e : i = 2 * (i / 2) := by omega
    have := congrArg Complex.re hk
    simp only [cplx] at this
    rw [e]
    exact this
  · have e : i = 2 * (i / 2) + 1 := by omega
    have := congrArg Complex.im hk
    simp only [cplx] at this
    rw [e]
    exact this

theorem fft_reinit_same_output_witness :
    (∃ m, 4 = 2 ^ m) ∧ ((0 + 2 * 4 ≤ 8) ∨ (8 + 2 * 4 ≤ 0)) ∧
    (∀ i, i < 2 * 4 →
      (fft_transform ⟨Real.pi, Real.cos, Real.sin, Real.sqrt⟩ 0 8
        (fft_init ⟨Real.pi, Real.cos, Real.sin, Real.sqrt⟩ 2 rampMachine)).heap (0 + i) =
        rampMachine.heap (0 + i)) ∧
    ((∀ B' : Nat,
      (fft_init ⟨Real.pi, Real.cos, Real.sin, Real.sqrt⟩ B'
        (fft_transform ⟨Real.pi, Real.cos, Real.sin, Real.sqrt⟩ 0 8
          (fft_init ⟨Real.pi, Real.cos, Real.sin, Real.sqrt⟩ 2 rampMachine))).engine =
        (fft_init ⟨Real.pi, Real.cos, Real.sin, Real.sqrt⟩ B'
          ⟨fft_data.zero ℝ, rampMachine.heap⟩).engine) ∧
    ∀ i, i < 2 * 4 →
      (fft_transform ⟨Real.pi, Real.cos, Real.sin, Real.sqrt⟩ 0 8
        (fft_init ⟨Real.pi, Real.cos, Real.sin, Real.sqrt⟩ 4
          (fft_transform ⟨Real.pi, Real.cos, Real.sin, Real.sqrt⟩ 0 8
            (fft_init ⟨Real.pi, Real.cos, Real.sin, Real.sqrt⟩ 2 rampMachine)))).heap (8 + i) =
      (fft_transform ⟨Real.pi, Real.cos, Real.sin, Real.sqrt⟩ 0 8
        (fft_init ⟨Real.pi, Real.cos, Real.sin, Real.sqrt⟩ 4
          ⟨fft_data.zero ℝ, rampMachine.heap⟩)).heap (8 + i)) :=
  have hsig : ∀ i, i < 2 * 4 →
      (fft_transform ⟨Real.pi, Real.cos, Real.sin, Real.sqrt⟩ 0 8
        (fft_init ⟨Real.pi, Real.cos, Real.sin, Real.sqrt⟩ 2 rampMachine)).heap (0 + i) =
        rampMachine.heap (0 + i) := by
    intro i hi
    have := fft_forward_frame ⟨Real.pi, Real.cos, Real.sin, Real.sqrt⟩ 1 _ _
      (fft_init_ready rampMachine 1) 0 8 (0 + i) (Or.inl (by omega))
    rw [fft_init_heap] at this
    exact this
  ⟨⟨2, rfl⟩, Or.inl (by decide), hsig,
    fft_reinit_same_output 2 4 ⟨2, rfl⟩ 0 8 0 8 rampMachine (Or.inl (by decide)) hsig⟩

/-! ## Where the tables are stored (C17) -/

/-- C17, as stated, fails for size 5.  Take `dst` at `0 .. 10`, the `uroots`
table stored right behind it at `10 .. 20`, and `src` at `20 .. 30`.  Since
`revidx[3] = 6`, the permutation loop executes `res[12] = src[6]`, which
overwrites the table entry `uroots[2] = cos (2 pi / 5)` with the input
value 26.  No later step of the call writes that cell, so it holds 26 when
the call returns. -/
theorem fft_transform_overwrites_uroots_size5 :
    ¬ (∀ (N src res U : Nat) (σ : Machine ℝ), 0 < N →
        (src + 2 * N ≤ res ∨ res + 2 * N ≤ src) →
        (U + 2 * N ≤ src ∨ src + 2 * N ≤ U) →
        (U + 2 * N ≤ res ∨ res + 2 * N ≤ U) →
        uroots_stored_at (fft_init ⟨Real.pi, Real.cos, Real.sin, Real.sqrt⟩ N σ).engine U
          (fft_init ⟨Real.pi, Real.cos, Real.sin, Real.sqrt⟩ N σ).heap →
        ((fft_transform ⟨Real.pi, Real.cos, Real.sin, Real.sqrt⟩ src res
            (fft_init ⟨Real.pi, Real.cos, Real.sin, Real.sqrt⟩ N σ)).engine =
            (fft_init ⟨Real.pi, Real.cos, Real.sin, Real.sqrt⟩ N σ).engine ∧
          uroots_stored_at (fft_init ⟨Real.pi, Real.cos, Real.sin, Real.sqrt⟩ N σ).engine U
            (fft_transform ⟨Real.pi, Real.cos, Real.sin, Real.sqrt⟩ src res
              (fft_init ⟨Real.pi, Real.cos, Real.sin, Real.sqrt⟩ N σ)).heap) ∧
        ((fft_forward ⟨Real.pi, Real.cos, Real.sin, Real.sqrt⟩ src res
            (fft_init ⟨Real.pi, Real.cos, Real.sin, Real.sqrt⟩ N σ)).engine =
            (fft_init ⟨Real.pi, Real.cos, Real.sin, Real.sqrt⟩ N σ).engine ∧
          uroots_stored_at (fft_init ⟨Real.pi, Real.cos, Real.sin, Real.sqrt⟩ N σ).engine U
            (fft_forward ⟨Real.pi, Real.cos, Real.sin, Real.sqrt⟩ src res
              (fft_init ⟨Real.pi, Real.cos, Real.sin, Real.sqrt⟩ N σ)).heap) ∧
        ((fft_conjugate src
            (fft_init ⟨Real.pi, Real.cos, Real.sin, Real.sqrt⟩ N σ)).engine =
            (fft_init ⟨Real.pi, Real.cos, Real.sin, Real.sqrt⟩ N σ).engine ∧
          uroots_stored_at (fft_init ⟨Real.pi, Real.cos, Real.sin, Real.sqrt⟩ N σ).engine U
            (fft_conjugate src
              (fft_init ⟨Real.pi, Real.cos, Real.sin, Real.sqrt⟩ N σ)).heap) ∧
        ((fft_inverse ⟨Real.pi, Real.cos, Real.sin, Real.sqrt⟩ src res
            (fft_init ⟨Real.pi, Real.cos, Real.sin, Real.sqrt⟩ N σ)).engine =
            (fft_init ⟨Real.pi, Real.cos, Real.sin, Real.sqrt⟩ N σ).engine ∧
          uroots_stored_at (fft_init ⟨Real.pi, Real.cos, Real.sin, Real.sqrt⟩ N σ).engine U
            (fft_inverse ⟨Real.pi, Real.cos, Real.sin, Real.sqrt⟩ src res
              (fft_init ⟨Real.pi, Real.cos, Real.sin, Real.sqrt⟩ N σ)).heap)) := by
  intro hall
  have hst : uroots_stored_at
      (fft_init ⟨Real.pi, Real.cos, Real.sin, Real.sqrt⟩ 5
        ⟨fft_data.zero ℝ, fun a => if 10 ≤ a ∧ a < 20 then
          (fft_init ⟨Real.pi, Real.cos, Real.sin, Real.sqrt⟩ 5 rampMachine).engine.root (a - 10)
          else (a : ℝ)⟩).engine 10
      (fft_init ⟨Real.pi, Real.cos, Real.sin, Real.sqrt⟩ 5
        ⟨fft_data.zero ℝ, fun a => if 10 ≤ a ∧ a < 20 then
          (fft_init ⟨Real.pi, Real.cos, Real.sin, Real.sqrt⟩ 5 rampMachine).engine.root (a - 10)
          else (a : ℝ)⟩).heap := by
    intro i hi
    have hi' : i < 10 := hi
    rw [fft_init_heap]
    show (if 10 ≤ 10 + i ∧ 10 + i < 20 then
      (fft_init ⟨Real.pi, Real.cos, Real.sin, Real.sqrt⟩ 5 rampMachine).engine.root (10 + i - 10)
      else ((10 + i : Nat) : ℝ)) = _
    rw [if_pos (by omega), Nat.add_sub_cancel_left]
    rfl
  obtain ⟨⟨_, h⟩, _⟩ := hall 5 20 0 10 _ (by decide) (Or.inr (by decide)) (Or.inl (by decide))
    (Or.inr (by decide)) hst
  have h2 := h 2 (by decide)
  generalize hτ : fft_init ⟨Real.pi, Real.cos, Real.sin, Real.sqrt⟩ 5
    (⟨fft_data.zero ℝ, fun a => if 10 ≤ a ∧ a < 20 then
      (fft_init ⟨Real.pi, Real.cos, Real.sin, Real.sqrt⟩ 5 rampMachine).engine.root (a - 10)
      else (a : ℝ)⟩ : Machine ℝ) = τ at h2
  have hsz : τ.engine.size = 5 := by rw [← hτ]; rfl
  have hrev : τ.engine.rev 0 = 0 ∧ τ.engine.rev 1 = 4 ∧ τ.engine.rev 2 = 2 ∧
      τ.engine.rev 3 = 6 ∧ τ.engine.rev 4 = 1 := by
    rw [← hτ]; exact fft_init_rev_size5 _ _
  have hroot : τ.engine.root 2 = Real.cos (2 * Real.pi * ((1 : Nat) : ℝ) / ((5 : Nat) : ℝ)) := by
    rw [← hτ]
    exact (fft_init_root_entry ⟨Real.pi, Real.cos, Real.sin, Real.sqrt⟩ 5 _ 1 (by decide)).1
  have hheap : τ.heap 26 = 26 := by
    rw [← hτ, fft_init_heap]
    norm_num
  have hcell : (fft_transform ⟨Real.pi, Real.cos, Real.sin, Real.sqrt⟩ 20 0 τ).heap (10 + 2) =
      τ.heap 26 := by
    show fft_transform_mem ⟨Real.pi, Real.cos, Real.sin, Real.sqrt⟩ τ.engine 20 0 τ.heap (10 + 2) = _
    rw [fft_transform_mem_tail _ _ _ _ _ _ (Or.inr (by rw [hsz]; omega)), hsz]
    have := (perm_loop_size5 τ.engine hrev 20 0 (Or.inr (by decide)) τ.heap).2.2.2.2
    have := congrArg Complex.re this
    simp only [cplx] at this
    exact this
  rw [hcell, hheap, hroot] at h2
  have := Real.cos_le_one (2 * Real.pi * ((1 : Nat) : ℝ) / ((5 : Nat) : ℝ))
  rw [← h2] at this
  norm_num at this

/-- C17, amended to power-of-two sizes.  On an engine initialized to a power
of two `N`, `fft_transform`, `fft_forward`, `fft_conjugate` and `fft_inverse`
leave the engine (size, `revidx`, `uroots`) as it was, and the `uroots` table
is still in its storage afterwards, wherever outside the buffers `src` and
`dst` of `2N` floats that storage lies.  More generally every cell outside
`dst` is unchanged by the transform, the forward transform and the inverse;
the conjugation leaves every cell outside its buffer unchanged at every
engine size. -/
theorem engine_tables_immutable_pow2 (N : Nat) (hN : ∃ m, N = 2 ^ m) (src res U : Nat)
    (σ : Machine ℝ)
    (hUs : U + 2 * N ≤ src ∨ src + 2 * N ≤ U)
    (hUr : U + 2 * N ≤ res ∨ res + 2 * N ≤ U)
    (hst : uroots_stored_at (fft_init ⟨Real.pi, Real.cos, Real.sin, Real.sqrt⟩ N σ).engine U
      (fft_init ⟨Real.pi, Real.cos, Real.sin, Real.sqrt⟩ N σ).heap) :
    (((fft_transform ⟨Real.pi, Real.cos, Real.sin, Real.sqrt⟩ src res
        (fft_init ⟨Real.pi, Real.cos, Real.sin, Real.sqrt⟩ N σ)).engine =
        (fft_init ⟨Real.pi, Real.cos, Real.sin, Real.sqrt⟩ N σ).engine ∧
      uroots_stored_at (fft_init ⟨Real.pi, Real.cos, Real.sin, Real.sqrt⟩ N σ).engine U
        (fft_transform ⟨Real.pi, Real.cos, Real.sin, Real.sqrt⟩ src res
          (fft_init ⟨Real.pi, Real.cos, Real.sin, Real.sqrt⟩ N σ)).heap) ∧
    ((fft_forward ⟨Real.pi, Real.cos, Real.sin, Real.sqrt⟩ src res
        (fft_init ⟨Real.pi, Real.cos, Real.sin, Real.sqrt⟩ N σ)).engine =
        (fft_init ⟨Real.pi, Real.cos, Real.sin, Real.sqrt⟩ N σ).engine ∧
      uroots_stored_at (fft_init ⟨Real.pi, Real.cos, Real.sin, Real.sqrt⟩ N σ).engine U
        (fft_forward ⟨Real.pi, Real.cos, Real.sin, Real.sqrt⟩ src res
          (fft_init ⟨Real.pi, Real.cos, Real.sin, Real.sqrt⟩ N σ)).heap) ∧
    ((fft_conjugate src
        (fft_init ⟨Real.pi, Real.cos, Real.sin, Real.sqrt⟩ N σ)).engine =
        (fft_init ⟨Real.pi, Real.cos, Real.sin, Real.sqrt⟩ N σ).engine ∧
      uroots_stored_at (fft_init ⟨Real.pi, Real.cos, Real.sin, Real.sqrt⟩ N σ).engine U
        (fft_conjugate src
          (fft_init ⟨Real.pi, Real.cos, Real.sin, Real.sqrt⟩ N σ)).heap) ∧
    ((fft_inverse ⟨Real.pi, Real.cos, Real.sin, Real.sqrt⟩ src res
        (fft_init ⟨Real.pi, Real.cos, Real.sin, Real.sqrt⟩ N σ)).engine =
        (fft_init ⟨Real.pi, Real.cos, Real.sin, Real.sqrt⟩ N σ).engine ∧
      uroots_stored_at (fft_init ⟨Real.pi, Real.cos, Real.sin, Real.sqrt⟩ N σ).engine U
        (fft_inverse ⟨Real.pi, Real.cos, Real.sin, Real.sqrt⟩ src res
          (fft_init ⟨Real.pi, Real.cos, Real.sin, Real.sqrt⟩ N σ)).heap)) ∧
    (∀ a, (a < res ∨ res + 2 * N ≤ a) →
      (fft_transform ⟨Real.pi, Real.cos, Real.sin, Real.sqrt⟩ src res
        (fft_init ⟨Real.pi, Real.cos, Real.sin, Real.sqrt⟩ N σ)).heap a =
        (fft_init ⟨Real.pi, Real.cos, Real.sin, Real.sqrt⟩ N σ).heap a ∧
      (fft_forward ⟨Real.pi, Real.cos, Real.sin, Real.sqrt⟩ src res
        (fft_init ⟨Real.pi, Real.cos, Real.sin, Real.sqrt⟩ N σ)).heap a =
        (fft_init ⟨Real.pi, Real.cos, Real.sin, Real.sqrt⟩ N σ).heap a ∧
      (fft_inverse ⟨Real.pi, Real.cos, Real.sin, Real.sqrt⟩ src res
        (fft_init ⟨Real.pi, Real.cos, Real.sin, Real.sqrt⟩ N σ)).heap a =
        (fft_init ⟨Real.pi, Real.cos, Real.sin, Real.sqrt⟩ N σ).heap a) ∧
    (∀ (τ : Machine ℝ) (a : Nat), (a < src ∨ src + 2 * τ.engine.size ≤ a) →
      (fft_conjugate src τ).heap a = τ.heap a) := by
  obtain ⟨m, rfl⟩ := hN
  have hconjall : ∀ (τ : Machine ℝ) (a : Nat), (a < src ∨ src + 2 * τ.engine.size ≤ a) →
      (fft_conjugate src τ).heap a = τ.heap a := by
    intro τ a ha
    rw [fft_conjugate_heap, if_neg (by omega)]
  have hr := fft_init_ready σ m
  generalize fft_init ⟨Real.pi, Real.cos, Real.sin, Real.sqrt⟩ (2 ^ m) σ = τ at hst hr ⊢
  have hsz : τ.engine.size = 2 ^ m := hr.1
  have hfw : ∀ a, (a < res ∨ res + 2 * 2 ^ m ≤ a) →
      (fft_forward ⟨Real.pi, Real.cos, Real.sin, Real.sqrt⟩ src res τ).heap a = τ.heap a :=
    fun a ha => fft_forward_frame _ m _ τ hr src res a ha
  have hinv : ∀ a, (a < res ∨ res + 2 * 2 ^ m ≤ a) →
      (fft_inverse ⟨Real.pi, Real.cos, Real.sin, Real.sqrt⟩ src res τ).heap a = τ.heap a :=
    fun a ha => fft_inverse_frame _ m _ τ hr src res a ha
  have hconj : ∀ a, (a < src ∨ src + 2 * 2 ^ m ≤ a) → (fft_conjugate src τ).heap a = τ.heap a := by
    intro a ha
    rw [fft_conjugate_heap, if_neg (by rw [hsz]; omega)]
  refine ⟨⟨⟨rfl, ?_⟩, ⟨rfl, ?_⟩, ⟨rfl, ?_⟩, ⟨rfl, ?_⟩⟩, fun a ha => ⟨hfw a ha, hfw a ha, hinv a ha⟩,
    hconjall⟩
  · intro i hi
    rw [hsz] at hi
    have := hfw (U + i) (by omega)
    exact this.trans (hst i (by rw [hsz]; exact hi))
  · intro i hi
    rw [hsz] at hi
    exact (hfw (U + i) (by omega)).trans (hst i (by rw [hsz]; exact hi))
  · intro i hi
    rw [hsz] at hi
    exact (hconj (U + i) (by omega)).trans (hst i (by rw [hsz]; exact hi))
  · intro i hi
    rw [hsz] at hi
    exact (hinv (U + i) (by omega)).trans (hst i (by rw [hsz]; exact hi))

theorem engine_tables_immutable_pow2_witness :
    (∃ m, 2 = 2 ^ m) ∧ ((8 + 2 * 2 ≤ 0) ∨ (0 + 2 * 2 ≤ 8)) ∧ ((8 + 2 * 2 ≤ 4) ∨ (4 + 2 * 2 ≤ 8)) ∧
    uroots_stored_at (fft_init ⟨Real.pi, Real.cos, Real.sin, Real.sqrt⟩ 2 uroots2Machine).engine 8
      (fft_init ⟨Real.pi, Real.cos, Real.sin, Real.sqrt⟩ 2 uroots2Machine).heap ∧
    ((((fft_transform ⟨Real.pi, Real.cos, Real.sin, Real.sqrt⟩ 0 4
          (fft_init ⟨Real.pi, Real.cos, Real.sin, Real.sqrt⟩ 2 uroots2Machine)).engine =
        (fft_init ⟨Real.pi, Real.cos, Real.sin, Real.sqrt⟩ 2 uroots2Machine).engine ∧
      uroots_stored_at (fft_init ⟨Real.pi, Real.cos, Real.sin, Real.sqrt⟩ 2 uroots2Machine).engine 8
        (fft_transform ⟨Real.pi, Real.cos, Real.sin, Real.sqrt⟩ 0 4
          (fft_init ⟨Real.pi, Real.cos, Real.sin, Real.sqrt⟩ 2 uroots2Machine)).heap) ∧
    ((fft_forward ⟨Real.pi, Real.cos, Real.sin, Real.sqrt⟩ 0 4
          (fft_init ⟨Real.pi, Real.cos, Real.sin, Real.sqrt⟩ 2 uroots2Machine)).engine =
        (fft_init ⟨Real.pi, Real.cos, Real.sin, Real.sqrt⟩ 2 uroots2Machine).engine ∧
      uroots_stored_at (fft_init ⟨Real.pi, Real.cos, Real.sin, Real.sqrt⟩ 2 uroots2Machine).engine 8
        (fft_forward ⟨Real.pi, Real.cos, Real.sin, Real.sqrt⟩ 0 4
          (fft_init ⟨Real.pi, Real.cos, Real.sin, Real.sqrt⟩ 2 uroots2Machine)).heap) ∧
    ((fft_conjugate 0
          (fft_init ⟨Real.pi, Real.cos, Real.sin, Real.sqrt⟩ 2 uroots2Machine)).engine =
        (fft_init ⟨Real.pi, Real.cos, Real.sin, Real.sqrt⟩ 2 uroots2Machine).engine ∧
      uroots_stored_at (fft_init ⟨Real.pi, Real.cos, Real.sin, Real.sqrt⟩ 2 uroots2Machine).engine 8
        (fft_conjugate 0
          (fft_init ⟨Real.pi, Real.cos, Real.sin, Real.sqrt⟩ 2 uroots2Machine)).heap) ∧
    ((fft_inverse ⟨Real.pi, Real.cos, Real.sin, Real.sqrt⟩ 0 4
          (fft_init ⟨Real.pi, Real.cos, Real.sin, Real.sqrt⟩ 2 uroots2Machine)).engine =
        (fft_init ⟨Real.pi, Real.cos, Real.sin, Real.sqrt⟩ 2 uroots2Machine).engine ∧
      uroots_stored_at (fft_init ⟨Real.pi, Real.cos, Real.sin, Real.sqrt⟩ 2 uroots2Machine).engine 8
        (fft_inverse ⟨Real.pi, Real.cos, Real.sin, Real.sqrt⟩ 0 4
          (fft_init ⟨Real.pi, Real.cos, Real.sin, Real.sqrt⟩ 2 uroots2Machine)).heap)) ∧
    (∀ a, (a < 4 ∨ 4 + 2 * 2 ≤ a) →
      (fft_transform ⟨Real.pi, Real.cos, Real.sin, Real.sqrt⟩ 0 4
          (fft_init ⟨Real.pi, Real.cos, Real.sin, Real.sqrt⟩ 2 uroots2Machine)).heap a =
        (fft_init ⟨Real.pi, Real.cos, Real.sin, Real.sqrt⟩ 2 uroots2Machine).heap a ∧
      (fft_forward ⟨Real.pi, Real.cos, Real.sin, Real.sqrt⟩ 0 4
          (fft_init ⟨Real.pi, Real.cos, Real.sin, Real.sqrt⟩ 2 uroots2Machine)).heap a =
        (fft_init ⟨Real.pi, Real.cos, Real.sin, Real.sqrt⟩ 2 uroots2Machine).heap a ∧
      (fft_inverse ⟨Real.pi, Real.cos, Real.sin, Real.sqrt⟩ 0 4
          (fft_init ⟨Real.pi, Real.cos, Real.sin, Real.sqrt⟩ 2 uroots2Machine)).heap a =
        (fft_init ⟨Real.pi, Real.cos, Real.sin, Real.sqrt⟩ 2 uroots2Machine).heap a) ∧
    (∀ (τ : Machine ℝ) (a : Nat), (a < 0 ∨ 0 + 2 * τ.engine.size ≤ a) →
      (fft_conjugate 0 τ).heap a = τ.heap a)) :=
  have hst : uroots_stored_at (fft_init ⟨Real.pi, Real.cos, Real.sin, Real.sqrt⟩ 2 uroots2Machine).engine 8
      (fft_init ⟨Real.pi, Real.cos, Real.sin, Real.sqrt⟩ 2 uroots2Machine).heap := by
    intro i hi
    have hi4 : i < 4 := hi
    obtain ⟨c0, s0⟩ := fft_init_root_entry ⟨Real.pi, Real.cos, Real.sin, Real.sqrt⟩ 2 uroots2Machine 0 (by decide)
    obtain ⟨c1, s1⟩ := fft_init_root_entry ⟨Real.pi, Real.cos, Real.sin, Real.sqrt⟩ 2 uroots2Machine 1 (by decide)
    have hpi : 2 * Real.pi * ((1 : Nat) : ℝ) / ((2 : Nat) : ℝ) = Real.pi := by
      push_cast
      ring
    simp only [Nat.mul_zero, Nat.mul_one, Nat.zero_add, Nat.cast_zero, mul_zero, zero_div,
      Real.cos_zero, Real.sin_zero] at c0 s0
    rw [hpi] at c1 s1
    simp only [Real.cos_pi, Real.sin_pi] at c1 s1
    rw [fft_init_heap]
    have hcases : i = 0 ∨ i = 1 ∨ i = 2 ∨ i = 3 := by omega
    rcases hcases with rfl | rfl | rfl | rfl
    · rw [c0]; simp [uroots2Machine]
    · rw [s0]; simp [uroots2Machine]
    · rw [c1]; simp [uroots2Machine]
    · rw [s1]; simp [uroots2Machine]
  ⟨⟨1, rfl⟩, Or.inr (by decide), Or.inr (by decide), hst,
    engine_tables_immutable_pow2 2 ⟨1, rfl⟩ 0 4 8 uroots2Machine (Or.inr (by decide))
      (Or.inr (by decide)) hst⟩

/-! ## Checked accesses (C18) -/

/-- At size 5 the checked transform stops: `revidx[3] = 6` is not below 5. -/
theorem fft_transform_checked_size5 (src res : Nat) (σ : Machine ℝ) :
    fft_transform_checked ⟨Real.pi, Real.cos, Real.sin, Real.sqrt⟩ src res
        (fft_init ⟨Real.pi, Real.cos, Real.sin, Real.sqrt⟩ 5 σ) = none := by
  have hr : (fft_init ⟨Real.pi, Real.cos, Real.sin, Real.sqrt⟩ 5 σ).engine.rev 3 = 6 := by
    rw [fft_init_rev_bitrev _ σ 5 3 3 (by decide) (by decide) (by decide)]
    rfl
  generalize hE : (fft_init ⟨Real.pi, Real.cos, Real.sin, Real.sqrt⟩ 5 σ) = τ at *
  have hsz : τ.engine.size = 5 := by rw [← hE]; rfl
  have h3 : ∀ mem, fft_permute_step_checked τ.engine src res 5 3 mem = none := by
    intro mem
    simp only [fft_permute_step_checked, hr]
    rw [if_neg (by omega)]
  have h4 : forLoopM 4 (fft_permute_step_checked τ.engine src res 5) τ.heap = none := by
    rw [forLoopM]
    cases forLoopM 3 (fft_permute_step_checked τ.engine src res 5) τ.heap with
    | none => rfl
    | some mem => exact h3 mem
  have h5 : forLoopM 5 (fft_permute_step_checked τ.engine src res 5) τ.heap = none := by
    rw [forLoopM, h4]
    rfl
  simp only [fft_transform_checked, hsz, h5]

end FFT
